import Mathlib

/-!
AVLSearchTree (src/data_structures/trees/avl.hpp)

A shallow embedding of the AVL tree of `avl.hpp` and a verification of its
documented properties.  The array set of `set.hpp` (namespace `ArraySet`), the
priority queue of `priority_queue.hpp` (namespace `Heap`), the hash table of
`hash_table.hpp` (namespace `Hash`), the plain binary search tree of `bst.hpp`
(namespace `Bst`) and the optimal binary search tree of `optimal.hpp`
(namespace `Optimal`) follow it, each with its own conventions.

Modelling conventions.

* `Node<type>*` is the inductive type `Avl.Node`: `null` is `nullptr`, and
  `node height value left right` is a pointer to a live node with those four
  fields.  Every node is owned by exactly one link, so the heap is a tree.
* The element type `type` is instantiated at the integers.
* `int64_t` quantities (`height`, `size`) are unbounded integers: a tree with
  `2^63` nodes does not fit in memory, so the counters never wrap.
* A call whose C++ behaviour is undefined (dereferencing `nullptr`, or
  dereferencing a node after `delete`) returns `none`.
* The ancestor `std::stack` of `add` and `remove` is the recursion stack of
  `addNode` and `removeNode`: the descent pushes a node, the unwinding loop
  pops it and runs `updateHeight` and `balance` on it.
-/

namespace Avl

/-- A possibly null pointer to a `Node<type>` (avl.hpp:6-23). -/
inductive Node where
  | null : Node
  | node (height : Int) (value : Int) (left right : Node) : Node
  deriving DecidableEq, Repr

open Node

/-- The class `AVLSearchTree<type>`: the root pointer and the `size` counter
(avl.hpp:83-86). -/
structure AVLSearchTree where
  root : Node
  size : Int
  deriving DecidableEq, Repr

/-- `min_size = std::numeric_limits<int64_t>::min()` (avl.hpp:84). -/
def min_size : Int := -(2 ^ 63)

/-- `max_size = std::numeric_limits<int64_t>::max()` (avl.hpp:85). -/
def max_size : Int := 2 ^ 63 - 1

/-- The default-constructed tree: `root = nullptr`, `size = 0`. -/
def empty : AVLSearchTree := ⟨null, 0⟩

/-- `new Node<type>(value)`: the fields keep their default initialisers,
`height = 0` and both children `nullptr` (avl.hpp:19-22, 90). -/
def newNode (value : Int) : Node := node 0 value null null

/-- `AVLSearchTree::getHeight(Node*)` (avl.hpp:324-326): the cached height, `-1`
for `nullptr`. -/
def getHeight : Node → Int
  | null => -1
  | node h _ _ _ => h

/-- `AVLSearchTree::updateHeight` (avl.hpp:329-331).  Every call site passes a
live node; `null` is listed only to make the function total. -/
def updateHeight : Node → Node
  | null => null
  | node _ v l r => node (max (getHeight l) (getHeight r) + 1) v l r

/-- `AVLSearchTree::getBalance` (avl.hpp:335-337). -/
def getBalance : Node → Int
  | null => 0
  | node _ _ l r => getHeight r - getHeight l

/-- `AVLSearchTree::rightRotate` (avl.hpp:346-356).  `swapNodes` exchanges value
and height of `node` and `node->left`, the four links are re-pointed, then the
heights of the lower and the upper node are recomputed.  Without a left child
the source dereferences `nullptr`. -/
def rightRotate : Node → Option Node
  | node h v (node hl vl ll lr) r =>
      some (updateHeight (node hl vl ll (updateHeight (node h v lr r))))
  | _ => none

/-- `AVLSearchTree::leftRotate` (avl.hpp:359-369), the mirror image. -/
def leftRotate : Node → Option Node
  | node h v l (node hr vr rl rr) =>
      some (updateHeight (node hr vr (updateHeight (node h v l rl)) rr))
  | _ => none

/-- `AVLSearchTree::balance` (avl.hpp:372-386).  The inner rotation acts on the
child in place, the outer one on the node itself. -/
def balance : Node → Option Node
  | null => some null
  | node h v l r =>
      if getBalance (node h v l r) = -2 then
        (if getBalance l = 1 then leftRotate l else some l).bind
          fun l' => rightRotate (node h v l' r)
      else if getBalance (node h v l r) = 2 then
        (if getBalance r = -1 then rightRotate r else some r).bind
          fun r' => leftRotate (node h v l r')
      else some (node h v l r)

/-- One iteration of the unwinding loop (avl.hpp:209-212 and 313-316):
`updateHeight(ptr); balance(ptr);`. -/
def unwindStep (n : Node) : Option Node := balance (updateHeight n)

/-- The descent loop of `add` below a live node together with the unwinding
loop (avl.hpp:188-213).  At an absent slot the new leaf is attached (it is not
pushed on the stack); every node visited on the way is pushed and, on the way
back, gets `updateHeight` and `balance`. -/
def addNode : Node → Int → Option Node
  | null, value => some (newNode value)
  | node h v l r, value =>
      if v > value then
        (addNode l value).bind fun l' => unwindStep (node h v l' r)
      else
        (addNode r value).bind fun r' => unwindStep (node h v l r')

/-- The guard `min_size <= size <= max_size` (avl.hpp:105, 177): C++ parses it
as `(min_size <= size) <= max_size`, comparing the boolean (0 or 1) with
`max_size`. -/
def sizeGuard (size : Int) : Bool :=
  decide ((if min_size ≤ size then (1 : Int) else 0) ≤ max_size)

/-- `AVLSearchTree::add` (avl.hpp:171-218).  When the guard fails the exception
is caught inside `add` and the tree is left as it was. -/
def add (t : AVLSearchTree) (value : Int) : Option AVLSearchTree :=
  match t.root with
  | null =>
      if sizeGuard t.size then some ⟨newNode value, t.size + 1⟩ else some t
  | node h v l r =>
      (addNode (node h v l r) value).map fun root' => ⟨root', t.size + 1⟩

/-- The descent of `find` below a pointer (avl.hpp:128-137). -/
def findNode : Node → Int → Bool
  | null, _ => false
  | node _ v l r, value =>
      if v = value then true
      else if v > value then findNode l value
      else findNode r value

/-- `AVLSearchTree::find` (avl.hpp:125-138). -/
def find (t : AVLSearchTree) (value : Int) : Bool := findNode t.root value

/-- The successor loop of `remove` (avl.hpp:291-305) run on the live node
`node h v l r = ptr->right`: the left-most node is unlinked (its right child
takes its place) and its value is returned.  No cached height is touched. -/
def detachSuccessor (h : Int) (v : Int) : Node → Node → Int × Node
  | null, r => (v, r)
  | node hl vl ll lr, r =>
      ((detachSuccessor hl vl ll lr).1, node h v (detachSuccessor hl vl ll lr).2 r)

/-- The structural edit of `remove` at the found node `ptr` (avl.hpp:252-309):
what the link that held `ptr` (the parent's `left`/`right`, or `root`) holds
afterwards.  With two children `ptr` stays, takes the successor's value and
keeps its cached height. -/
def deleteAt : Node → Node
  | null => null
  | node _ _ null null => null
  | node _ _ (node hl vl ll lr) null => node hl vl ll lr
  | node _ _ null (node hr vr rl rr) => node hr vr rl rr
  | node h _ (node hl vl ll lr) (node hr vr rl rr) =>
      node h (detachSuccessor hr vr rl rr).1 (node hl vl ll lr)
        (detachSuccessor hr vr rl rr).2

/-- The search loop of `remove` below a node (avl.hpp:233-245), the structural
edit, and the unwinding loop (avl.hpp:312-317) for the nodes pushed inside the
search loop.  The found node itself is not pushed by the loop.  `fix` is the
loop guard `size > 2`, evaluated after `--size`. -/
def removeNode (fix : Bool) : Node → Int → Option Node
  | null, _ => some null
  | node h v l r, value =>
      if v = value then some (deleteAt (node h v l r))
      else if v > value then
        (removeNode fix l value).bind fun l' =>
          if fix then unwindStep (node h v l' r) else some (node h v l' r)
      else
        (removeNode fix r value).bind fun r' =>
          if fix then unwindStep (node h v l r') else some (node h v l r')

/-- `AVLSearchTree::remove` (avl.hpp:221-321).

* An empty tree, or a descent that ends in `nullptr`, returns at once.
* `root` is pushed before the search loop (line 228) and again by its first
  iteration, so when the value is not at the root the root is unwound twice.
* When the value is at the root the stack holds the root only.  With two
  children the root survives and is unwound once.  With fewer it is freed
  (lines 254-256, 265-269, 278-282); if the guard `size > 2` then lets the
  unwinding loop run, `updateHeight` dereferences the freed node. -/
def remove (t : AVLSearchTree) (value : Int) : Option AVLSearchTree :=
  match t.root with
  | null => some t
  | node h v l r =>
      if findNode (node h v l r) value = false then some t
      else
        let fix : Bool := decide (t.size - 1 > 2)
        if v = value then
          match l, r with
          | node hl vl ll lr, node hr vr rl rr =>
              (if fix then
                  unwindStep (deleteAt (node h v (node hl vl ll lr) (node hr vr rl rr)))
                else some (deleteAt (node h v (node hl vl ll lr) (node hr vr rl rr)))).map
                fun root' => ⟨root', t.size - 1⟩
          | l', r' =>
              if fix then none else some ⟨deleteAt (node h v l' r'), t.size - 1⟩
        else
          ((removeNode fix (node h v l r) value).bind fun n =>
              if fix then unwindStep n else some n).map
            fun root' => ⟨root', t.size - 1⟩

/-- `print_LNR` (avl.hpp:399-406): the values in the order they are printed. -/
def print_LNR : Node → List Int
  | null => []
  | node _ v l r => print_LNR l ++ v :: print_LNR r

/-- `AVLSearchTree::traversalLNR` (avl.hpp:424-426). -/
def traversalLNR (t : AVLSearchTree) : List Int := print_LNR t.root

/-- `print_NLR` (avl.hpp:389-396): the values in the order they are printed. -/
def print_NLR : Node → List Int
  | null => []
  | node _ v l r => v :: (print_NLR l ++ print_NLR r)

/-- `AVLSearchTree::traversalNLR` (avl.hpp:419-421). -/
def traversalNLR (t : AVLSearchTree) : List Int := print_NLR t.root

/-- `print_RNL` (avl.hpp:409-416): the values in the order they are printed. -/
def print_RNL : Node → List Int
  | null => []
  | node _ v l r => print_RNL r ++ v :: print_RNL l

/-- `AVLSearchTree::traversalRNL` (avl.hpp:429-431). -/
def traversalRNL (t : AVLSearchTree) : List Int := print_RNL t.root

/-- The macro `NULL` returned as a `type` (avl.hpp:146, 161): the null pointer
constant converted to the integer element type is 0. -/
def NULL : Int := 0

/-- The loop of `findMin` (avl.hpp:148-151) entered at a live node holding
`value` with left child `left`: it follows `left` links and ends with
`parent_ptr` at the left-most node, whose value is returned. -/
def leftmostValue (value : Int) : Node → Int
  | null => value
  | node _ v l _ => leftmostValue v l

/-- The loop of `findMax` (avl.hpp:163-166), following `right` links. -/
def rightmostValue (value : Int) : Node → Int
  | null => value
  | node _ v _ r => rightmostValue v r

/-- `AVLSearchTree::findMin` (avl.hpp:141-153): `NULL` on an empty tree. -/
def findMin (t : AVLSearchTree) : Int :=
  match t.root with
  | null => NULL
  | node _ v l _ => leftmostValue v l

/-- `AVLSearchTree::findMax` (avl.hpp:156-168): `NULL` on an empty tree. -/
def findMax (t : AVLSearchTree) : Int :=
  match t.root with
  | null => NULL
  | node _ v _ r => rightmostValue v r

/-- `AVLSearchTree::AVLSearchTree(const type&)` (avl.hpp:103-115), run on the
default-initialised members `root = nullptr`, `size = 0`. -/
def construct (value : Int) : AVLSearchTree :=
  if sizeGuard 0 then ⟨newNode value, 0 + 1⟩ else ⟨null, 0⟩

/-- `AVLSearchTree::isClear` (avl.hpp:434-439). -/
def isClear (t : AVLSearchTree) : Bool :=
  match t.root with
  | null => true
  | node _ _ _ _ => false

/-- The loop of `clear` (avl.hpp:443-445), `while (root != nullptr)
remove(root->value);`, run for at most `fuel` iterations.  It returns `none`
when an iteration has undefined behaviour, and also when the budget is used
up with the tree still non-empty. -/
def clearLoop : Nat → AVLSearchTree → Option AVLSearchTree
  | 0, t => if isClear t then some t else none
  | fuel + 1, t =>
      match t.root with
      | null => some t
      | node _ v _ _ => (remove t v).bind (clearLoop fuel)

/-- The number of nodes reachable from a pointer. -/
def numNodes : Node → Nat
  | null => 0
  | node _ _ l r => numNodes l + numNodes r + 1

/-- `AVLSearchTree::clear` (avl.hpp:442-446).  Every completed iteration frees
one node, so a budget of one iteration per node is never used up before the
tree is empty (`clearLoop_fuel`). -/
def clear (t : AVLSearchTree) : Option AVLSearchTree := clearLoop (numNodes t.root) t

/-- `AVLSearchTree::getSize` (avl.hpp:477-479). -/
def getSize (t : AVLSearchTree) : Int := t.size

/-- Adding the values of a list one by one, starting from a given tree. -/
def addAll : AVLSearchTree → List Int → Option AVLSearchTree
  | t, [] => some t
  | t, x :: xs => (add t x).bind fun t' => addAll t' xs

/-- The true structural height of a subtree; an absent subtree has height -1. -/
def height : Node → Int
  | null => -1
  | node _ _ l r => max (height l) (height r) + 1

/-- Every node satisfies `|height(right) - height(left)| <= 1`, with true
structural heights. -/
def Balanced : Node → Prop
  | null => True
  | node _ _ l r =>
      height r - height l ≤ 1 ∧ height l - height r ≤ 1 ∧ Balanced l ∧ Balanced r

/-- Height correctness: every node's cached `height` field equals
`1 + max(height(left), height(right))`, an absent child having height -1. -/
def HeightOK : Node → Prop
  | null => True
  | node h _ l r => h = max (height l) (height r) + 1 ∧ HeightOK l ∧ HeightOK r


/-- Height correctness read on the cached fields alone: every node's cached
`height` equals `1 + max` of its children's cached heights (`getHeight`, -1 for
an absent child).  On whole trees this is the same property as `HeightOK`. -/
def HeightCachedOK : Node → Prop
  | null => True
  | node h _ l r =>
      h = max (getHeight l) (getHeight r) + 1 ∧ HeightCachedOK l ∧ HeightCachedOK r

/-- Every cached `height` field is non-negative.  The source only ever stores
the default `0` or `max(...) + 1` of values that are at least `-1`. -/
def CachedNonneg : Node → Prop
  | null => True
  | node h _ l r => 0 ≤ h ∧ CachedNonneg l ∧ CachedNonneg r

/-- The trees reachable from the empty tree by calls of `add` and `remove`
that complete (no undefined behaviour). -/
inductive Reachable : AVLSearchTree → Prop
  | empty : Reachable empty
  | add (t t' : AVLSearchTree) (value : Int) :
      Reachable t → add t value = some t' → Reachable t'
  | remove (t t' : AVLSearchTree) (value : Int) :
      Reachable t → remove t value = some t' → Reachable t'

/-- BST ordering with duplicates kept out of the left subtree: at every node
all values in the left subtree are `<` the node's value and all values in the
right subtree are `>=` it. -/
def BSTOrder : Node → Prop
  | null => True
  | node _ v l r =>
      (∀ a ∈ print_LNR l, a < v) ∧ (∀ b ∈ print_LNR r, v ≤ b) ∧ BSTOrder l ∧ BSTOrder r

/-- Non-strict BST ordering: at every node all values in the left subtree are
`<=` the node's value and all values in the right subtree are `>=` it. -/
def BSTOrderWeak : Node → Prop
  | null => True
  | node _ v l r =>
      (∀ a ∈ print_LNR l, a ≤ v) ∧ (∀ b ∈ print_LNR r, v ≤ b) ∧
        BSTOrderWeak l ∧ BSTOrderWeak r


/-- The trees reachable from the default-constructed empty tree or from the
one-value constructor by calls of `add`, `remove` and `clear` that complete. -/
inductive ReachableAll : AVLSearchTree → Prop
  | empty : ReachableAll empty
  | construct (value : Int) : ReachableAll (construct value)
  | add (t t' : AVLSearchTree) (value : Int) :
      ReachableAll t → add t value = some t' → ReachableAll t'
  | remove (t t' : AVLSearchTree) (value : Int) :
      ReachableAll t → remove t value = some t' → ReachableAll t'
  | clear (t t' : AVLSearchTree) :
      ReachableAll t → clear t = some t' → ReachableAll t'

/-- A call of one of the two mutating operations. -/
inductive Op where
  | add (value : Int) : Op
  | remove (value : Int) : Op
  deriving DecidableEq, Repr

/-- Running one call. -/
def applyOp (t : AVLSearchTree) : Op → Option AVLSearchTree
  | Op.add value => add t value
  | Op.remove value => remove t value

/-- Running a sequence of calls from a given tree. -/
def runOps : AVLSearchTree → List Op → Option AVLSearchTree
  | t, [] => some t
  | t, op :: ops => (applyOp t op).bind fun t' => runOps t' ops

/-- The number of `add` calls in a sequence. -/
def numAdds : List Op → Nat
  | [] => 0
  | Op.add _ :: ops => numAdds ops + 1
  | Op.remove _ :: ops => numAdds ops

/-- The number of `remove` calls in a sequence, run from the tree `t`, whose
value is stored in the tree at the time of the call.  Counting stops at a call
that does not complete. -/
def numRemovesStored : AVLSearchTree → List Op → Nat
  | _, [] => 0
  | t, op :: ops =>
      (match op with
        | Op.add _ => 0
        | Op.remove value => if value ∈ traversalLNR t then 1 else 0) +
      (match applyOp t op with
        | some t' => numRemovesStored t' ops
        | none => 0)

/-- The number of nodes the loop of `find` visits (avl.hpp:128-136). -/
def findSteps : Node → Int → Nat
  | null, _ => 0
  | node _ v l r, value =>
      if v = value then 1
      else if v > value then findSteps l value + 1
      else findSteps r value + 1

/-- Every node satisfies `|getBalance(node)| <= 1`, the balance factor being
computed as the source does, from the children's cached heights. -/
def BalancedCached : Node → Prop
  | null => True
  | node h v l r =>
      getBalance (node h v l r) ≤ 1 ∧ -1 ≤ getBalance (node h v l r) ∧
        BalancedCached l ∧ BalancedCached r

/-- The number of nodes on a longest path from a pointer downwards: the true
structural height plus one (0 for `nullptr`). -/
def heightNat : Node → Nat
  | null => 0
  | node _ _ l r => max (heightNat l) (heightNat r) + 1

/-- The node `remove` deletes, that is the first node holding `value` that the
search loop (avl.hpp:233-245) meets, has at most one child. -/
def removedHasAtMostOneChild : Node → Int → Bool
  | null, _ => false
  | node _ v l r, value =>
      if v = value then
        match l, r with
        | node _ _ _ _, node _ _ _ _ => false
        | _, _ => true
      else if v > value then removedHasAtMostOneChild l value
      else removedHasAtMostOneChild r value

/-- Whether `balance` (avl.hpp:371-386) enters one of its two rotation
branches at a node: the cached balance is `-2` or `2`. -/
def rotates (n : Node) : Bool :=
  decide (getBalance n = -2) || decide (getBalance n = 2)

/-- The ancestor chain of one `add` (avl.hpp:207-213), bottom-up: for every
node popped from the stack, whether `balance` rotates at it after its height
has been recomputed.  The head of the list is the parent of the new leaf, the
last entry is the root. -/
def addRotationFlags : Node → Int → List Bool
  | null, _ => []
  | node h v l r, value =>
      if v > value then
        match addNode l value with
        | some l' => addRotationFlags l value ++ [rotates (updateHeight (node h v l' r))]
        | none => addRotationFlags l value
      else
        match addNode r value with
        | some r' => addRotationFlags r value ++ [rotates (updateHeight (node h v l r'))]
        | none => addRotationFlags r value

/-- The number of nodes the search loop of `remove` pushes on the stack
(avl.hpp:233-245): the nodes visited before the one holding `value`. -/
def searchPushes : Node → Int → Nat
  | null, _ => 0
  | node _ v l r, value =>
      if v = value then 0
      else if v > value then searchPushes l value + 1
      else searchPushes r value + 1

/-- The number of iterations of the unwinding loop of `remove`
(avl.hpp:312-317), each of which calls `updateHeight` and `balance`.  A call
that returns early (empty tree, value not found) never reaches the loop.
Otherwise the stack holds `root` (line 228) and the nodes pushed by the search
loop, and the loop empties it when `size > 2` holds after `--size`. -/
def fixupIterations (t : AVLSearchTree) (value : Int) : Nat :=
  if findNode t.root value = false then 0
  else if t.size - 1 > 2 then searchPushes t.root value + 1 else 0

/-- The search loop and the structural edit of `remove` (avl.hpp:233-309)
alone, with no unwinding: the link to the first node holding `value` is
replaced by `deleteAt` of that node and every other field is left as it was. -/
def deleteOnly : Node → Int → Node
  | null, _ => null
  | node h v l r, value =>
      if v = value then deleteAt (node h v l r)
      else if v > value then node h v (deleteOnly l value) r
      else node h v l (deleteOnly r value)

/-- The search loop, the structural edit and the unwinding loop of `remove`
(avl.hpp:228-316) with the loop emptying the stack, as it does when its guard
holds.  The stack holds `root` (line 228) below the nodes pushed by the search
loop, so the root is unwound last; when the found node is the root and has
fewer than two children, the node popped is the freed root. -/
def removeUnwound : Node → Int → Option Node
  | null, _ => some null
  | node h v l r, value =>
      if v = value then
        match l, r with
        | node hl vl ll lr, node hr vr rl rr =>
            unwindStep (deleteAt (node h v (node hl vl ll lr) (node hr vr rl rr)))
        | _, _ => none
      else (removeNode true (node h v l r) value).bind unwindStep

/-- The cached height of a node is the one `updateHeight` (avl.hpp:329-331)
stores: one more than the larger cached height of its children. -/
def heightRecomputed : Node → Prop
  | null => True
  | node h _ l r => h = max (getHeight l) (getHeight r) + 1

/-- The cached `height` fields in in-order. -/
def heightsLNR : Node → List Int
  | null => []
  | node h _ l r => heightsLNR l ++ h :: heightsLNR r

/-- The pointer is not `nullptr`. -/
def isNode : Node → Bool
  | null => false
  | node _ _ _ _ => true

/-- The `left` field of a node (`null` for `nullptr`, which has none). -/
def leftOf : Node → Node
  | null => null
  | node _ _ l _ => l

/-- The `right` field of a node (`null` for `nullptr`, which has none). -/
def rightOf : Node → Node
  | null => null
  | node _ _ _ r => r

end Avl

/-!
Set (src/data_structures/set.hpp)

The members `arr` and `size` of `Set<type>` are the fields of `ArraySet.Set`;
`arr` is the list of the elements of the allocation it points to (`[]` for
`nullptr` and for an allocation of zero elements).  Every method leaves `arr`
pointing to an allocation of exactly `size` elements (`WellFormed`); the loops
`for (i = 0; i < size; ++i)` read the first `size` elements.  The element type
is instantiated at the integers.
-/

namespace ArraySet

/-- The class `Set<type>` (set.hpp:47-50). -/
structure Set where
  size : Int
  arr : List Int
  deriving DecidableEq, Repr

/-- `max_size = std::numeric_limits<int64_t>::max()` (set.hpp:49). -/
def max_size : Int := 2 ^ 63 - 1

/-- The default-constructed set: `size = 0`, `arr = nullptr`. -/
def empty : Set := ⟨0, []⟩

/-- The representation invariant: `arr` points to exactly `size` elements. -/
def WellFormed (s : Set) : Prop := s.size = s.arr.length

/-- The elements `arr[0], ..., arr[size - 1]` the loops of the class visit. -/
def elems (s : Set) : List Int := s.arr.take s.size.toNat

/-- `Set::getSize` (set.hpp:249-251). -/
def getSize (s : Set) : Int := s.size

/-- The loop of `findIndex` (set.hpp:117-122) over the elements still to be
visited, `i` being the index of the first of them. -/
def findIndexFrom (value : Int) : List Int → Int → Int
  | [], _ => -1
  | a :: as, i => if a = value then i else findIndexFrom value as (i + 1)

/-- `Set::findIndex` (set.hpp:116-123). -/
def findIndex (s : Set) (value : Int) : Int := findIndexFrom value (elems s) 0

/-- The loop of `find` (set.hpp:107-112). -/
def findFrom (value : Int) : List Int → Bool
  | [] => false
  | a :: as => if a = value then true else findFrom value as

/-- `Set::find` (set.hpp:106-113). -/
def find (s : Set) (value : Int) : Bool := findFrom value (elems s)

/-- `Set::add` (set.hpp:126-159): the returned flag and the set afterwards.
Both allocation branches (`arr == nullptr` or not) end with the old elements
followed by `value`. -/
def add (s : Set) (value : Int) : Bool × Set :=
  if s.size = max_size then (false, s)
  else if findIndex s value = -1 then (true, ⟨s.size + 1, elems s ++ [value]⟩)
  else (false, s)

/-- `Set::remove` (set.hpp:162-235): the returned flag and the set afterwards.
The four branches copy the `size_before` elements before the slot and the
`size_after` elements behind it into a new allocation of `size - 1`
elements. -/
def remove (s : Set) (value : Int) : Bool × Set :=
  let index := findIndex s value
  let size_after := s.size - (index + 1)
  let size_before := index
  if index ≠ -1 then
    if s.size = 1 then (true, ⟨s.size - 1, []⟩)
    else if size_before = 0 then
      (true, ⟨s.size - 1, (s.arr.drop (size_before + 1).toNat).take size_after.toNat⟩)
    else if size_after = 0 then
      (true, ⟨s.size - 1, s.arr.take size_before.toNat⟩)
    else
      (true, ⟨s.size - 1, s.arr.take size_before.toNat ++
        (s.arr.drop (size_before + 1).toNat).take size_after.toNat⟩)
  else (false, s)

/-- The copy constructor `Set(const Set&)` (set.hpp:64-82). -/
def copy (s : Set) : Set := ⟨s.size, elems s⟩

/-- `Set::operator*` (set.hpp:284-301): the elements of the larger operand
(of the argument when the sizes are equal) that the other one holds are added
to a new set one by one. -/
def operatorMul (a b : Set) : Set :=
  if getSize a > getSize b then
    (elems a).foldl (fun new_set x => if find b x then (add new_set x).2 else new_set) empty
  else
    (elems b).foldl (fun new_set x => if find a x then (add new_set x).2 else new_set) empty

/-- `Set::operator+` (set.hpp:304-311). -/
def operatorAdd (a b : Set) : Set :=
  (elems b).foldl (fun new_set x => (add new_set x).2) (copy a)

/-- `Set::operator-` (set.hpp:314-324). -/
def operatorSub (a b : Set) : Set :=
  (elems (operatorMul a b)).foldl
    (fun new_set x => if find a x then (remove new_set x).2 else new_set) (copy a)

/-- `Set::operator^` (set.hpp:327-330): `(*this + set) - (*this * set)`. -/
def operatorXor (a b : Set) : Set :=
  operatorSub (operatorAdd a b) (operatorMul a b)

/-- The sets reachable from the empty set by `add`, `remove` and the four
operators. -/
inductive Reachable : Set → Prop
  | empty : Reachable empty
  | add (s : Set) (value : Int) : Reachable s → Reachable (add s value).2
  | remove (s : Set) (value : Int) : Reachable s → Reachable (remove s value).2
  | operatorAdd (a b : Set) : Reachable a → Reachable b → Reachable (operatorAdd a b)
  | operatorMul (a b : Set) : Reachable a → Reachable b → Reachable (operatorMul a b)
  | operatorSub (a b : Set) : Reachable a → Reachable b → Reachable (operatorSub a b)
  | operatorXor (a b : Set) : Reachable a → Reachable b → Reachable (operatorXor a b)

end ArraySet

/-!
PriorityQueue (src/data_structures/priority_queue.hpp)

`arr` is the list of the elements of the allocation the member `arr` points to
(`[]` for `nullptr` and for an allocation of zero elements) and `size` is the
member `size`.  Reading or writing `arr[i]` outside the allocation is
undefined behaviour and gives `none`, and so is the overflow of the 32-bit
`int` counter of the copy loops of `push` and `popMax`.  The element type is
instantiated at the integers.
-/

namespace Heap

/-- The class `QueueNode<type>` (priority_queue.hpp:26-28). -/
structure QueueNode where
  value : Int
  priority : Int
  deriving DecidableEq, Repr

/-- The class `PriorityQueue<type>` (priority_queue.hpp:71-73). -/
structure PriorityQueue where
  size : Int
  arr : List QueueNode
  deriving DecidableEq, Repr

/-- `max_size = std::numeric_limits<int64_t>::max()` (priority_queue.hpp:72). -/
def max_size : Int := 2 ^ 63 - 1

/-- The default-constructed queue: `size = 0`, `arr = nullptr`. -/
def empty : PriorityQueue := ⟨0, []⟩

/-- `PriorityQueue::getSize` (priority_queue.hpp:325-327). -/
def getSize (q : PriorityQueue) : Int := q.size

/-- Reading `arr[index]`. -/
def readAt (arr : List QueueNode) (index : Int) : Option QueueNode :=
  if index < 0 then none else arr.get? index.toNat

/-- `std::swap(arr[i], arr[j])`. -/
def swapAt (arr : List QueueNode) (i j : Int) : Option (List QueueNode) :=
  match readAt arr i, readAt arr j with
  | some a, some b => some ((arr.set i.toNat b).set j.toNat a)
  | _, _ => none

/-- The first `size` elements of the allocation, as the copy loops
`for (i = 0; i < size; ++i) new_arr[i] = arr[i]` read them. -/
def copyPrefix (arr : List QueueNode) (size : Int) : Option (List QueueNode) :=
  if (arr.length : Int) < size then none else some (arr.take size.toNat)

/-- `INT_MAX`, the largest value of the 32-bit `int` that counts the copy loops
of `push` and `popMax` (priority_queue.hpp:192, 217). -/
def int_max : Int := 2 ^ 31 - 1

/-- The copy loops `for (int i = 0; i < count; ++i) new_arr[i] = arr[i]` of
`push` and `popMax` (priority_queue.hpp:192-194, 217-219).  The bound `count`
is an `int64_t` and the counter a 32-bit `int`: with `count > INT_MAX` the
counter reaches `INT_MAX` inside the loop and `++i` overflows, which is
undefined for a signed integer. -/
def copyPrefixInt (arr : List QueueNode) (count : Int) : Option (List QueueNode) :=
  if int_max < count then none else copyPrefix arr count

/-- The loop of `siftUp` (priority_queue.hpp:158-161), run for at most `fuel`
iterations from `index`.  The parent index `(index - 1) / 2` is computed with
the truncating division of C++, so the parent of index 0 is 0.  `none` is
undefined behaviour or a used-up budget. -/
def siftUpLoop : Nat → List QueueNode → Int → Option (List QueueNode)
  | 0, _, _ => none
  | fuel + 1, arr, index =>
      match readAt arr index, readAt arr (Int.tdiv (index - 1) 2) with
      | some a, some p =>
          if a.priority > p.priority then
            (swapAt arr index (Int.tdiv (index - 1) 2)).bind fun arr' =>
              siftUpLoop fuel arr' (Int.tdiv (index - 1) 2)
          else some arr
      | _, _ => none

/-- `PriorityQueue::siftUp` (priority_queue.hpp:155-162), starting at
`index = size - 1`.  The index at least halves in every iteration, so
`size + 1` iterations are never used up. -/
def siftUp (q : PriorityQueue) : Option PriorityQueue :=
  (siftUpLoop (q.size.toNat + 1) q.arr (q.size - 1)).map fun arr' => ⟨q.size, arr'⟩

/-- The loop of `siftDown` (priority_queue.hpp:168-180), run for at most `fuel`
iterations from `index`.  When the right child exists and has a larger
priority than the left one, `temp = right` and the `else if` with the `break`
is skipped: the swap happens without comparing with `arr[index]`. -/
def siftDownLoop : Nat → Int → List QueueNode → Int → Option (List QueueNode)
  | 0, _, _, _ => none
  | fuel + 1, size, arr, index =>
      if 2 * index + 1 < size then
        (if 2 * index + 2 < size then
            (readAt arr (2 * index + 2)).bind fun r =>
              (readAt arr (2 * index + 1)).map fun l => decide (r.priority > l.priority)
          else some false).bind fun rightLarger =>
          if rightLarger then
            (swapAt arr index (2 * index + 2)).bind fun arr' =>
              siftDownLoop fuel size arr' (2 * index + 2)
          else
            (readAt arr index).bind fun a =>
              (readAt arr (2 * index + 1)).bind fun l =>
                if a.priority ≥ l.priority then some arr
                else
                  (swapAt arr index (2 * index + 1)).bind fun arr' =>
                    siftDownLoop fuel size arr' (2 * index + 1)
      else some arr

/-- `PriorityQueue::siftDown` (priority_queue.hpp:165-181).  The index grows in
every iteration, so `size + 1` iterations are never used up. -/
def siftDown (q : PriorityQueue) : Option PriorityQueue :=
  (siftDownLoop (q.size.toNat + 1) q.size q.arr 0).map fun arr' => ⟨q.size, arr'⟩

/-- `PriorityQueue::push` (priority_queue.hpp:184-204).  The copy loop runs up
to `size - 1` after `++size`, that is up to the old size. -/
def push (q : PriorityQueue) (value priority : Int) : Option PriorityQueue :=
  if q.size = max_size then some q
  else
    (copyPrefixInt q.arr q.size).bind fun old =>
      siftUp ⟨q.size + 1, old ++ [⟨value, priority⟩]⟩

/-- `PriorityQueue::popMax` (priority_queue.hpp:207-229): the returned node and
the queue afterwards. -/
def popMax (q : PriorityQueue) : Option (QueueNode × PriorityQueue) :=
  if q.size = 0 then some (⟨0, 0⟩, q)
  else
    (readAt q.arr 0).bind fun node =>
      (swapAt q.arr 0 (q.size - 1)).bind fun swapped =>
        (copyPrefixInt swapped (q.size - 1)).bind fun new_ptr =>
          (siftUp ⟨q.size - 1, new_ptr⟩).bind fun q1 =>
            (siftDown q1).map fun q2 => (node, q2)

/-- The scan of `popMin` and `findMin` (priority_queue.hpp:237-243, 368-372)
over the elements still to be visited, `i` being the index of the first of
them: the state is `(node, size_before, size_after)`. -/
def minScan (size : Int) : List QueueNode → Int → QueueNode × Int × Int →
    QueueNode × Int × Int
  | [], _, state => state
  | a :: as, i, (node, size_before, size_after) =>
      if node.priority > a.priority then minScan size as (i + 1) (a, i, size - (i + 1))
      else minScan size as (i + 1) (node, size_before, size_after)

/-- `PriorityQueue::popMin` (priority_queue.hpp:232-311): the returned node and
the queue afterwards.

* `node = arr[0]` is read before anything else.
* `size_before` and `size_after` start at 0 and are set only when the scan
  finds a smaller priority.  In the branch `size_before == 0` the buffer
  `arr_after` has `size_after` elements and the loop at lines 253-255 stores
  `size - (size_before + 1)` elements into it.
* Only the last branch calls `siftUp` and `siftDown`. -/
def popMin (q : PriorityQueue) : Option (QueueNode × PriorityQueue) :=
  (readAt q.arr 0).bind fun first =>
    (copyPrefix q.arr q.size).bind fun all =>
      match minScan q.size all 0 (first, 0, 0) with
      | (node, size_before, size_after) =>
          if q.size = 1 then some (node, ⟨q.size - 1, []⟩)
          else if size_before = 0 then
            if size_after < q.size - (size_before + 1) then none
            else
              some (node, ⟨q.size - 1,
                ((q.arr.drop (size_before + 1).toNat).take size_after.toNat).take
                  (q.size - 1).toNat⟩)
          else if size_after = 0 then
            some (node, ⟨q.size - 1, q.arr.take size_before.toNat⟩)
          else
            (siftUp ⟨q.size - 1, q.arr.take size_before.toNat ++
                (q.arr.drop (size_before + 1).toNat).take size_after.toNat⟩).bind fun q1 =>
              (siftDown q1).map fun q2 => (node, q2)

/-- `PriorityQueue::findMax` (priority_queue.hpp:360-362): `return arr[0];`. -/
def findMax (q : PriorityQueue) : Option QueueNode := readAt q.arr 0

/-- A call of one of the three mutating operations. -/
inductive Op where
  | push (value priority : Int) : Op
  | popMax : Op
  | popMin : Op
  deriving DecidableEq, Repr

/-- Running one call; the node a pop returns is dropped. -/
def applyOp (q : PriorityQueue) : Op → Option PriorityQueue
  | Op.push value priority => push q value priority
  | Op.popMax => (popMax q).map Prod.snd
  | Op.popMin => (popMin q).map Prod.snd

/-- Running a sequence of calls, each pop being issued on a non-empty queue;
`none` when a call has undefined behaviour or a pop meets an empty queue. -/
def runOps : PriorityQueue → List Op → Option PriorityQueue
  | q, [] => some q
  | q, Op.push value priority :: ops => (push q value priority).bind fun q' => runOps q' ops
  | q, op :: ops => if q.size = 0 then none else (applyOp q op).bind fun q' => runOps q' ops

/-- Pushing the elements of a list one by one. -/
def pushAll : PriorityQueue → List (Int × Int) → Option PriorityQueue
  | q, [] => some q
  | q, (value, priority) :: xs => (push q value priority).bind fun q' => pushAll q' xs

/-- The parent index `(i - 1) / 2` of `siftUp` (priority_queue.hpp:159) on
natural numbers; the parent of index 0 is 0, as with the truncating division
of C++. -/
def parentIdx (i : Nat) : Nat := (i - 1) / 2

/-- The priority stored at an index of the array (0 outside it). -/
def prioAt (arr : List QueueNode) (i : Nat) : Int :=
  match arr[i]? with
  | some a => a.priority
  | none => 0

/-- The max-heap property of an array: each element's priority is `<=` the
priority of the element at index `(i - 1) / 2`. -/
def MaxHeap (arr : List QueueNode) : Prop :=
  ∀ i, i < arr.length → prioAt arr i ≤ prioAt arr (parentIdx i)

instance MaxHeap.decidable (arr : List QueueNode) : Decidable (MaxHeap arr) := by
  unfold MaxHeap
  infer_instance

end Heap

/-! # The open-addressing hash table (`src/data_structures/hash_table.hpp`)

The template is instantiated at `type = int`.  The members `max_size`, `size`
and `hash_key` are `uint64_t`; they are natural numbers here and every
operation that can wrap is reduced modulo `2 ^ 64`.  `std::hash<type>` belongs
to the standard library, so it is a parameter `stdHash`.

The field `arr` lists the initialised slots of the allocation, from index 0.
The constructor initialises all `max_size` slots.  The reallocation in
`insert` allocates `2 * max_size` slots and initialises the first `max_size`
only, and no other code stores to a slot of index `>= max_size`.  So a read at
an index outside `arr` is either outside the allocation or of a slot that was
never initialised: undefined behaviour, `none`. -/

namespace Hash

/-- The state of a `HashTable<int>` object. -/
structure HashTable where
  arr : List Int
  max_size : Nat
  size : Nat
  hash_key : Nat
  deriving DecidableEq, Repr

/-- The macro `NULL` stored in a slot of element type `int`: the empty
marker. -/
def NULL : Int := 0

/-- `HashTable(hash_key, max_size)` (hash_table.hpp:60-71). -/
def construct (hash_key max_size : Nat) : HashTable :=
  ⟨List.replicate max_size NULL, max_size, 0, hash_key⟩

/-- `HashTable::getSize` (hash_table.hpp:87-89). -/
def getSize (t : HashTable) : Nat := t.size

/-- `HashTable::getMaxSize` (hash_table.hpp:92-94). -/
def getMaxSize (t : HashTable) : Nat := t.max_size

/-- `HashTable::hash` (hash_table.hpp:193-195):
`(std::hash<type>{}(value) + hash_key) % max_size`; the remainder by 0 is
undefined. -/
def hash (stdHash : Int → Nat) (t : HashTable) (value : Int) : Option Nat :=
  if t.max_size = 0 then none
  else some ((stdHash value % 2 ^ 64 + t.hash_key) % 2 ^ 64 % t.max_size)

/-- The loop of `find` (hash_table.hpp:126-133) entered with `key_find`, run
for at most `fuel` evaluations of its condition. -/
def findLoop (arr : List Int) (max_size key : Nat) (value : Int) :
    Nat → Nat → Option Bool
  | 0, _ => none
  | fuel + 1, key_find =>
      if key_find ≠ key then
        arr[key_find]?.bind fun x =>
          if x = value then some true
          else findLoop arr max_size key value fuel ((key_find + 1) % 2 ^ 64 % max_size)
      else some false

/-- `HashTable::find` (hash_table.hpp:118-135).  `key_find` starts at
`key + 1`, which is not reduced modulo `max_size`.  From then on `key_find` is
reduced after every increment, so the loop meets `key` again after at most
`max_size` iterations. -/
def find (stdHash : Int → Nat) (t : HashTable) (value : Int) : Option Bool :=
  (hash stdHash t value).bind fun key =>
    t.arr[key]?.bind fun x =>
      if x = value then some true
      else findLoop t.arr t.max_size key value (t.max_size + 1) ((key + 1) % 2 ^ 64)

/-- The loop of `findKey` (hash_table.hpp:105-112). -/
def findKeyLoop (arr : List Int) (max_size key : Nat) (value : Int) :
    Nat → Nat → Option Nat
  | 0, _ => none
  | fuel + 1, key_find =>
      if key_find ≠ key then
        arr[key_find]?.bind fun x =>
          if x = value then some key_find
          else findKeyLoop arr max_size key value fuel ((key_find + 1) % 2 ^ 64 % max_size)
      else some (2 ^ 64 - 1)

/-- `HashTable::findKey` (hash_table.hpp:97-114); `-1` is `2 ^ 64 - 1`. -/
def findKey (stdHash : Int → Nat) (t : HashTable) (value : Int) : Option Nat :=
  (hash stdHash t value).bind fun key =>
    t.arr[key]?.bind fun x =>
      if x = value then some key
      else findKeyLoop t.arr t.max_size key value (t.max_size + 1) ((key + 1) % 2 ^ 64)

/-- The probe loop of `insert` (hash_table.hpp:157-160) entered with `key`:
the index of the first empty slot met.  `none` is undefined behaviour or a
used-up budget; after `max_size` steps the probe is back at its start, so a
budget of `max_size + 1` is used up only by a loop that never ends. -/
def probeLoop (arr : List Int) (max_size : Nat) : Nat → Nat → Option Nat
  | 0, _ => none
  | fuel + 1, key =>
      arr[key]?.bind fun x =>
        if x ≠ NULL then probeLoop arr max_size fuel ((key + 1) % 2 ^ 64 % max_size)
        else some key

/-- `HashTable::insert` (hash_table.hpp:138-166) with the nesting depth of its
recursion bounded by `depth`.

When `size == max_size` a new array is allocated, its first `max_size` slots
are set to `NULL`, `size` is reset, the first `max_size - 1` old elements and
then `value` are inserted by recursive calls; `max_size` keeps its value.
With `max_size = 0` the bound `max_size - 1` wraps and the first iteration
reads `temp[0]` in an empty allocation. -/
def insertRec (stdHash : Int → Nat) : Nat → HashTable → Int → Option HashTable
  | 0, _, _ => none
  | depth + 1, t, value =>
      if t.size = t.max_size then
        if t.max_size = 0 then none
        else
          ((List.range (t.max_size - 1)).foldlM
              (fun acc i => t.arr[i]?.bind fun x => insertRec stdHash depth acc x)
              (⟨List.replicate t.max_size NULL, t.max_size, 0, t.hash_key⟩ : HashTable)).bind
            fun acc => insertRec stdHash depth acc value
      else
        (hash stdHash t value).bind fun key =>
          (probeLoop t.arr t.max_size (t.max_size + 1) key).map fun k =>
            { t with arr := t.arr.set k value, size := (t.size + 1) % 2 ^ 64 }

/-- `HashTable::insert` (hash_table.hpp:138-166).  The recursive calls start
from `size = 0` and number `max_size`, so none of them recurses again. -/
def insert (stdHash : Int → Nat) (t : HashTable) (value : Int) : Option HashTable :=
  insertRec stdHash 2 t value

/-- `HashTable::remove` (hash_table.hpp:169-178). -/
def remove (stdHash : Int → Nat) (t : HashTable) (value : Int) : Option HashTable :=
  (findKey stdHash t value).bind fun key =>
    if key = 2 ^ 64 - 1 then some t
    else if key < t.arr.length then
      some { t with arr := t.arr.set key NULL, size := (t.size + 2 ^ 64 - 1) % 2 ^ 64 }
    else none

/-- Inserting the values of a list one by one. -/
def insertAll (stdHash : Int → Nat) : HashTable → List Int → Option HashTable
  | t, [] => some t
  | t, x :: xs => (insert stdHash t x).bind fun t' => insertAll stdHash t' xs

/-- The `std::hash<int>` of libstdc++: the value converted to `size_t`. -/
def stdHashInt (value : Int) : Nat := (value % 2 ^ 64).toNat

end Hash

/-! # The plain binary search tree (`src/data_structures/trees/bst.hpp`)

The template is instantiated at `type = int`.  No operation of this class
dereferences a pointer it has not tested or touches a node it has freed, so
the operations are total functions. -/

namespace Bst

/-- A possibly null pointer to a `TreeNode<type>` (bst.hpp:6-18). -/
inductive TreeNode where
  | null : TreeNode
  | node (value : Int) (left right : TreeNode) : TreeNode
  deriving DecidableEq, Repr

open TreeNode

/-- The class `BinarySearchTree<type>`: the root pointer and the `size`
counter (bst.hpp:64-67). -/
structure BinarySearchTree where
  root : TreeNode
  size : Int
  deriving DecidableEq, Repr

/-- `min_size = std::numeric_limits<int64_t>::min()` (bst.hpp:65). -/
def min_size : Int := -(2 ^ 63)

/-- `max_size = std::numeric_limits<int64_t>::max()` (bst.hpp:66). -/
def max_size : Int := 2 ^ 63 - 1

/-- The default-constructed tree: `root = nullptr`, `size = 0`. -/
def empty : BinarySearchTree := ⟨null, 0⟩

/-- The guard `min_size <= size <= max_size` (bst.hpp:76, 147), parsed as
`(min_size <= size) <= max_size`. -/
def sizeGuard (size : Int) : Bool :=
  decide ((if min_size ≤ size then (1 : Int) else 0) ≤ max_size)

/-- The descent of `add` (bst.hpp:157-176) below a pointer: the new node is
linked where the descent meets `nullptr`. -/
def addNode : TreeNode → Int → TreeNode
  | null, value => node value null null
  | node v l r, value =>
      if v > value then node v (addNode l value) r else node v l (addNode r value)

/-- `BinarySearchTree::add` (bst.hpp:142-180). -/
def add (t : BinarySearchTree) (value : Int) : BinarySearchTree :=
  match t.root with
  | null => if sizeGuard t.size then ⟨node value null null, t.size + 1⟩ else t
  | node v l r => ⟨addNode (node v l r) value, t.size + 1⟩

/-- The descent of `find` below a pointer (bst.hpp:98-108). -/
def findNode : TreeNode → Int → Bool
  | null, _ => false
  | node v l r, value =>
      if v = value then true
      else if v > value then findNode l value
      else findNode r value

/-- `BinarySearchTree::find` (bst.hpp:96-109). -/
def find (t : BinarySearchTree) (value : Int) : Bool := findNode t.root value

/-- The successor loop of `remove` (bst.hpp:249-266) run on the live node
`node v l r = ptr->right`: the left-most node is unlinked (its right child
takes its place) and its value is returned. -/
def detachSuccessor (v : Int) : TreeNode → TreeNode → Int × TreeNode
  | null, r => (v, r)
  | node vl ll lr, r => ((detachSuccessor vl ll lr).1, node v (detachSuccessor vl ll lr).2 r)

/-- The structural edit of `remove` at the found node `ptr` (bst.hpp:209-267):
what the link that held `ptr` holds afterwards. -/
def deleteAt : TreeNode → TreeNode
  | null => null
  | node _ null null => null
  | node _ (node vl ll lr) null => node vl ll lr
  | node _ null (node vr rl rr) => node vr rl rr
  | node _ (node vl ll lr) (node vr rl rr) =>
      node (detachSuccessor vr rl rr).1 (node vl ll lr) (detachSuccessor vr rl rr).2

/-- The search loop of `remove` below a pointer (bst.hpp:192-203) followed by
the structural edit. -/
def removeNode : TreeNode → Int → TreeNode
  | null, _ => null
  | node v l r, value =>
      if v = value then deleteAt (node v l r)
      else if v > value then node v (removeNode l value) r
      else node v l (removeNode r value)

/-- `BinarySearchTree::remove` (bst.hpp:183-272). -/
def remove (t : BinarySearchTree) (value : Int) : BinarySearchTree :=
  if find t value = false then t
  else
    match t.root with
    | null => t
    | node v l r => ⟨removeNode (node v l r) value, t.size - 1⟩

/-- `print_LNR` (bst.hpp:285-292): the values in the order they are
printed. -/
def print_LNR : TreeNode → List Int
  | null => []
  | node v l r => print_LNR l ++ v :: print_LNR r

/-- `BinarySearchTree::traversalLNR` (bst.hpp:310-312). -/
def traversalLNR (t : BinarySearchTree) : List Int := print_LNR t.root

/-- `BinarySearchTree::getSize` (bst.hpp:363-365). -/
def getSize (t : BinarySearchTree) : Int := t.size

/-- Running one call of the sequence on the plain tree. -/
def applyOp (t : BinarySearchTree) : Avl.Op → BinarySearchTree
  | Avl.Op.add value => add t value
  | Avl.Op.remove value => remove t value

/-- Running a sequence of calls from a given tree. -/
def runOps : BinarySearchTree → List Avl.Op → BinarySearchTree
  | t, [] => t
  | t, op :: ops => runOps (applyOp t op) ops

end Bst

/-! # The optimal binary search tree (`src/data_structures/trees/optimal.hpp`)

The template is instantiated at `type = int`.  The arrays passed by pointer
(`arr_value`, `successful_frequency`, `unsuccessful_frequency`) are lists, and
a read outside of them is undefined behaviour, `none`, and so is a sum of
`int64_t` frequencies that leaves the range of `int64_t`. -/

namespace Optimal

/-- `struct MatrixElement` (optimal.hpp:6-10). -/
structure MatrixElement where
  w : Int
  p : Int
  r : Int
  deriving DecidableEq, Repr

/-- A possibly null pointer to a `TreeNode<type>` (optimal.hpp:12-24). -/
inductive TreeNode where
  | null : TreeNode
  | node (value : Int) (left right : TreeNode) : TreeNode
  deriving DecidableEq, Repr

open TreeNode

/-- The class `BinarySearchTree<type>` of optimal.hpp: the root pointer and the
`size` counter (optimal.hpp:74-77). -/
structure BinarySearchTree where
  root : TreeNode
  size : Int
  deriving DecidableEq, Repr

/-- `min_size = std::numeric_limits<int64_t>::min()` (optimal.hpp:75). -/
def min_size : Int := -(2 ^ 63)

/-- `max_size = std::numeric_limits<int64_t>::max()` (optimal.hpp:76). -/
def max_size : Int := 2 ^ 63 - 1

/-- The default-constructed tree: `root = nullptr`, `size = 0`. -/
def empty : BinarySearchTree := ⟨null, 0⟩

/-- The guard `min_size < size < max_size` (optimal.hpp:86, 157), parsed as
`(min_size < size) < max_size`. -/
def sizeGuard (size : Int) : Bool :=
  decide ((if min_size < size then (1 : Int) else 0) < max_size)

/-- The descent of `find` below a pointer (optimal.hpp:109-117). -/
def findNode : TreeNode → Int → Bool
  | null, _ => false
  | node v l r, value =>
      if v = value then true
      else if v > value then findNode l value
      else findNode r value

/-- `BinarySearchTree::find` (optimal.hpp:106-119). -/
def find (t : BinarySearchTree) (value : Int) : Bool := findNode t.root value

/-- The descent of `add` (optimal.hpp:166-186) below a pointer. -/
def addNode : TreeNode → Int → TreeNode
  | null, value => node value null null
  | node v l r, value =>
      if v > value then node v (addNode l value) r else node v l (addNode r value)

/-- `BinarySearchTree::add` (optimal.hpp:152-190): every branch that links a
new node executes `++size`. -/
def add (t : BinarySearchTree) (value : Int) : BinarySearchTree :=
  match t.root with
  | null => if sizeGuard t.size then ⟨node value null null, t.size + 1⟩ else t
  | node v l r => ⟨addNode (node v l r) value, t.size + 1⟩

/-- The successor loop of `remove` (optimal.hpp:259-276) run on the live node
`node v l r = ptr->right`. -/
def detachSuccessor (v : Int) : TreeNode → TreeNode → Int × TreeNode
  | null, r => (v, r)
  | node vl ll lr, r => ((detachSuccessor vl ll lr).1, node v (detachSuccessor vl ll lr).2 r)

/-- The structural edit of `remove` at the found node (optimal.hpp:219-277). -/
def deleteAt : TreeNode → TreeNode
  | null => null
  | node _ null null => null
  | node _ (node vl ll lr) null => node vl ll lr
  | node _ null (node vr rl rr) => node vr rl rr
  | node _ (node vl ll lr) (node vr rl rr) =>
      node (detachSuccessor vr rl rr).1 (node vl ll lr) (detachSuccessor vr rl rr).2

/-- The search loop of `remove` below a pointer (optimal.hpp:202-213) followed
by the structural edit. -/
def removeNode : TreeNode → Int → TreeNode
  | null, _ => null
  | node v l r, value =>
      if v = value then deleteAt (node v l r)
      else if v > value then node v (removeNode l value) r
      else node v l (removeNode r value)

/-- `BinarySearchTree::remove` (optimal.hpp:193-282). -/
def remove (t : BinarySearchTree) (value : Int) : BinarySearchTree :=
  if find t value = false then t
  else
    match t.root with
    | null => t
    | node v l r => ⟨removeNode (node v l r) value, t.size - 1⟩

/-- The number of nodes reachable from a pointer. -/
def numNodes : TreeNode → Nat
  | null => 0
  | node _ l r => numNodes l + numNodes r + 1

/-- The loop of `clear` (optimal.hpp:412-414), `while (root != nullptr)
remove(root->value);`, run for at most `fuel` iterations; `none` when the
budget is used up with the tree still non-empty. -/
def clearLoop : Nat → BinarySearchTree → Option BinarySearchTree
  | 0, t =>
      match t.root with
      | null => some t
      | node _ _ _ => none
  | fuel + 1, t =>
      match t.root with
      | null => some t
      | node v _ _ => clearLoop fuel (remove t v)

/-- `BinarySearchTree::clear` (optimal.hpp:411-415).  Every iteration frees the
node that holds the root's value or an equal one, so one iteration per node is
enough. -/
def clear (t : BinarySearchTree) : Option BinarySearchTree := clearLoop (numNodes t.root) t

/-- `BinarySearchTree::getSize` (optimal.hpp:446-448). -/
def getSize (t : BinarySearchTree) : Int := t.size

/-- Reading `arr[i]` in an array passed by pointer. -/
def readArr (arr : List Int) (i : Int) : Option Int :=
  if i < 0 then none else arr[i.toNat]?

/-- Reading `matrix[i][j]`. -/
def getM (m : List (List MatrixElement)) (i j : Int) : Option MatrixElement :=
  if i < 0 ∨ j < 0 then none else m[i.toNat]?.bind fun row => row[j.toNat]?

/-- Storing `matrix[i][j] = e`. -/
def setM (m : List (List MatrixElement)) (i j : Nat) (e : MatrixElement) :
    Option (List (List MatrixElement)) :=
  m[i]?.bind fun row => if j < row.length then some (m.set i (row.set j e)) else none

/-- The matrix after the first loops of `buildOptimalTree`
(optimal.hpp:302-321): `size + 1` rows of `size + 1` elements with all fields
`-1`, then the diagonal `matrix[i][i] = {w = unsuccessful_frequency[i], p = 0,
r = i}`. -/
def initMatrix (n : Nat) (unsuccessful_frequency : List Int) :
    Option (List (List MatrixElement)) :=
  (List.range (n + 1)).foldlM
    (fun m i => unsuccessful_frequency[i]?.bind fun u => setM m i i ⟨u, 0, i⟩)
    (List.replicate (n + 1) (List.replicate (n + 1) ⟨-1, -1, -1⟩))

/-- The sum `a + b` of two `int64_t` values: a result outside the range of
`int64_t` is a signed overflow, which is undefined. -/
def addInt64 (a b : Int) : Option Int :=
  if -(2 ^ 63) ≤ a + b ∧ a + b ≤ 2 ^ 63 - 1 then some (a + b) else none

/-- The entries `{k, p}` inserted into the multimap for the cell `(i, j)`
(optimal.hpp:329-332), in the order of the keys `k = i + 1, ..., j`.  The sum
`matrix[i][k - 1].p + matrix[k][j].p + matrix[i][k - 1].w + matrix[k][j].w` is
evaluated from left to right. -/
def candidates (m : List (List MatrixElement)) (i j : Nat) : Option (List (Int × Int)) :=
  (List.range' (i + 1) (j - i)).mapM fun k =>
    (getM m i ((k : Int) - 1)).bind fun a =>
      (getM m k j).bind fun b =>
        (addInt64 a.p b.p).bind fun s1 =>
          (addInt64 s1 a.w).bind fun s2 =>
            (addInt64 s2 b.w).map fun p => ((k : Int), p)

/-- `std::min_element` with the comparison `a.second < b.second`
(optimal.hpp:334): the first entry with the smallest `p`.  On an empty range
it returns `end()`, which may not be dereferenced. -/
def minElement : List (Int × Int) → Option (Int × Int)
  | [] => none
  | x :: xs => some (xs.foldl (fun best y => if y.2 < best.2 then y else best) x)

/-- The body of the two outer loops for one cell `(i, j)`
(optimal.hpp:326-341). -/
def fillCell (successful_frequency unsuccessful_frequency : List Int)
    (m : List (List MatrixElement)) (i j : Nat) : Option (List (List MatrixElement)) :=
  (candidates m i j).bind fun cs =>
    (minElement cs).bind fun mn =>
      (getM m i ((j : Int) - 1)).bind fun e =>
        (readArr unsuccessful_frequency j).bind fun u =>
          (readArr successful_frequency ((j : Int) - 1)).bind fun s =>
            (addInt64 e.w u).bind fun w1 =>
              (addInt64 w1 s).bind fun w =>
                setM m i j ⟨w, mn.2, mn.1⟩

/-- The loops over `l = 1, ..., size` and `i = 0, ..., size - l`
(optimal.hpp:323-342). -/
def fillMatrix (successful_frequency unsuccessful_frequency : List Int) (n : Nat)
    (m0 : List (List MatrixElement)) : Option (List (List MatrixElement)) :=
  (List.range' 1 n).foldlM
    (fun m l =>
      (List.range (n - l + 1)).foldlM
        (fun m1 i => fillCell successful_frequency unsuccessful_frequency m1 i (i + l)) m)
    m0

/-- `BinarySearchTree::addOptimalTree` (optimal.hpp:285-295) with the depth of
its recursion bounded by `fuel`.  The test `find(arr_value[r - 1])` is
evaluated only when `r` is neither `-1` nor `0`. -/
def addOptimalTree (m : List (List MatrixElement)) (arr_value : List Int) :
    Nat → BinarySearchTree → Int → Int → Option BinarySearchTree
  | 0, _, _, _ => none
  | fuel + 1, t, i, j =>
      (getM m i j).bind fun e =>
        if e.r = -1 ∨ e.r = 0 then some t
        else
          (readArr arr_value (e.r - 1)).bind fun value =>
            if find t value then some t
            else
              (addOptimalTree m arr_value fuel (add t value) i (e.r - 1)).bind fun t1 =>
                addOptimalTree m arr_value fuel t1 e.r j

/-- `BinarySearchTree::buildOptimalTree` (optimal.hpp:298-355).

* `clear()` empties the tree, then `size = first_count` stores the number of
  keys in the member `size`, which the loops use as their bound.
* With a negative `first_count` either the allocation of `size + 1` rows throws
  or `matrix[0][-1]` is read: no defined result.
* `arr_value[matrix[0][size].r - 1]` is read before `addOptimalTree` is called.
* A call of `addOptimalTree` that recurses has added a value that was not in
  the tree, and the values come from `arr_value[0 .. size - 1]`, so the depth
  of the recursion is at most `size + 1`. -/
def buildOptimalTree (t : BinarySearchTree) (arr_value successful_frequency : List Int)
    (first_count : Int) (unsuccessful_frequency : List Int) : Option BinarySearchTree :=
  (clear t).bind fun t0 =>
    if first_count < 0 then none
    else
      (initMatrix first_count.toNat unsuccessful_frequency).bind fun m0 =>
        (fillMatrix successful_frequency unsuccessful_frequency first_count.toNat m0).bind
          fun m =>
            (getM m 0 first_count).bind fun e =>
              (readArr arr_value (e.r - 1)).bind fun _ =>
                addOptimalTree m arr_value (first_count.toNat + 2) ⟨t0.root, first_count⟩
                  0 first_count

end Optimal

namespace Avl

open Node

/-! ## Cached heights and the unwinding step -/

theorem getHeight_null : getHeight null = -1 := rfl

theorem getHeight_node (h v : Int) (l r : Node) : getHeight (node h v l r) = h := rfl

theorem height_ge : ∀ n : Node, -1 ≤ height n
  | null => by simp [height]
  | node _ _ l r => by
      have := height_ge l
      simp only [height]; omega

theorem HeightOK_getHeight : ∀ n, HeightOK n → getHeight n = height n
  | null, _ => rfl
  | node h v l r, ⟨h1, _, _⟩ => by simp only [getHeight, height, h1]


theorem HeightCachedOK_getHeight : ∀ n, HeightCachedOK n → getHeight n = height n
  | null, _ => rfl
  | node h v l r, ⟨h1, h2, h3⟩ => by
      rw [getHeight_node, height, h1, HeightCachedOK_getHeight l h2,
        HeightCachedOK_getHeight r h3]

theorem HeightOK_iff_cached : ∀ n, HeightOK n ↔ HeightCachedOK n
  | null => Iff.rfl
  | node h v l r => by
      constructor
      · rintro ⟨h1, h2, h3⟩
        exact ⟨by rw [HeightOK_getHeight l h2, HeightOK_getHeight r h3]; exact h1,
          (HeightOK_iff_cached l).1 h2, (HeightOK_iff_cached r).1 h3⟩
      · rintro ⟨h1, h2, h3⟩
        exact ⟨by rw [← HeightCachedOK_getHeight l h2, ← HeightCachedOK_getHeight r h3]; exact h1,
          (HeightOK_iff_cached l).2 h2, (HeightOK_iff_cached r).2 h3⟩

theorem print_LNR_updateHeight (n : Node) : print_LNR (updateHeight n) = print_LNR n := by
  cases n <;> rfl

theorem unwindStep_spec (h v : Int) (l r : Node)
    (hl : HeightOK l) (bl : Balanced l) (hr : HeightOK r) (br : Balanced r)
    (d1 : height r - height l ≤ 2) (d2 : height l - height r ≤ 2) :
    ∃ n', unwindStep (node h v l r) = some n' ∧ HeightOK n' ∧ Balanced n' ∧
      max (height l) (height r) ≤ height n' ∧
      height n' ≤ max (height l) (height r) + 1 ∧
      (height r - height l ≤ 1 → height l - height r ≤ 1 →
        height n' = max (height l) (height r) + 1) := by
  have el := HeightOK_getHeight l hl
  have er := HeightOK_getHeight r hr
  simp only [unwindStep, updateHeight, balance, getBalance, el, er]
  split_ifs with c1 c2 c3 c4
  · -- left-heavy, left child right-heavy: leftRotate(node->left), rightRotate(node)
    cases l with
    | null => simp [getBalance] at c2
    | node h1 v1 ll lr =>
      cases lr with
      | null =>
        have := height_ge ll
        simp only [getBalance, getHeight_null, HeightOK_getHeight ll hl.2.1] at c2; omega
      | node h2 v2 lrl lrr =>
        simp only [HeightOK, Balanced, height] at hl bl
        obtain ⟨e1, hll, e2, hlrl, hlrr⟩ := hl
        obtain ⟨b1, b2, bll, b3, b4, blrl, blrr⟩ := bl
        have e3 := HeightOK_getHeight ll hll
        simp only [getBalance, getHeight_node, e3] at c2
        simp only [height] at c1 d1 d2
        refine ⟨_, rfl, ?_⟩
        simp only [updateHeight, getHeight_node, HeightOK, Balanced, height, el, er, e3,
          HeightOK_getHeight lrl hlrl, HeightOK_getHeight lrr hlrr]
        have := height_ge lrl
        have := height_ge lrr
        repeat' apply And.intro
        all_goals first | assumption | trivial | (intros; first | trivial | omega)
  · -- left-heavy: rightRotate(node)
    cases l with
    | null =>
      have := height_ge r
      simp only [height] at c1; omega
    | node h1 v1 ll lr =>
      simp only [HeightOK, Balanced, height] at hl bl
      obtain ⟨e1, hll, hlr⟩ := hl
      obtain ⟨b1, b2, bll, blr⟩ := bl
      have e3 := HeightOK_getHeight ll hll
      have e4 := HeightOK_getHeight lr hlr
      simp only [getBalance, e3, e4] at c2
      simp only [height] at c1 d1 d2
      refine ⟨_, rfl, ?_⟩
      simp only [updateHeight, getHeight_node, HeightOK, Balanced, height, el, er, e3, e4]
      repeat' apply And.intro
      all_goals first | assumption | trivial | (intros; first | trivial | omega)
  · -- right-heavy, right child left-heavy: rightRotate(node->right), leftRotate(node)
    cases r with
    | null => simp [getBalance] at c4
    | node h1 v1 rl rr =>
      cases rl with
      | null =>
        have := height_ge rr
        simp only [getBalance, getHeight_null, HeightOK_getHeight rr hr.2.2] at c4; omega
      | node h2 v2 rll rlr =>
        simp only [HeightOK, Balanced, height] at hr br
        obtain ⟨e1, ⟨e2, hrll, hrlr⟩, hrr⟩ := hr
        obtain ⟨b1, b2, ⟨b3, b4, brll, brlr⟩, brr⟩ := br
        have e3 := HeightOK_getHeight rr hrr
        simp only [getBalance, getHeight_node, e3] at c4
        simp only [height] at c3 d1 d2
        refine ⟨_, rfl, ?_⟩
        simp only [updateHeight, getHeight_node, HeightOK, Balanced, height, el, er, e3,
          HeightOK_getHeight rll hrll, HeightOK_getHeight rlr hrlr]
        have := height_ge rll
        have := height_ge rlr
        repeat' apply And.intro
        all_goals first | assumption | trivial | (intros; first | trivial | omega)
  · -- right-heavy: leftRotate(node)
    cases r with
    | null =>
      have := height_ge l
      simp only [height] at c3; omega
    | node h1 v1 rl rr =>
      simp only [HeightOK, Balanced, height] at hr br
      obtain ⟨e1, hrl, hrr⟩ := hr
      obtain ⟨b1, b2, brl, brr⟩ := br
      have e3 := HeightOK_getHeight rl hrl
      have e4 := HeightOK_getHeight rr hrr
      simp only [getBalance, e3, e4] at c4
      simp only [height] at c3 d1 d2
      refine ⟨_, rfl, ?_⟩
      simp only [updateHeight, getHeight_node, HeightOK, Balanced, height, el, er, e3, e4]
      repeat' apply And.intro
      all_goals first | assumption | trivial | (intros; first | trivial | omega)
  · -- already balanced: only the height is recomputed
    refine ⟨_, rfl, ?_⟩
    simp only [HeightOK, Balanced, height]
    repeat' apply And.intro
    all_goals first | assumption | trivial | (intros; first | trivial | omega)

theorem addNode_spec : ∀ (n : Node) (value : Int), HeightOK n → Balanced n →
    ∃ n', addNode n value = some n' ∧ HeightOK n' ∧ Balanced n' ∧
      height n ≤ height n' ∧ height n' ≤ height n + 1
  | null, value, _, _ => by
      refine ⟨_, rfl, ?_⟩
      simp [newNode, HeightOK, Balanced, height]
  | node h v l r, value, ⟨e, hl, hr⟩, ⟨b1, b2, bl, br⟩ => by
      simp only [addNode]
      split_ifs with c
      · obtain ⟨l', q1, q2, q3, q4, q5⟩ := addNode_spec l value hl bl
        obtain ⟨n', p1, p2, p3, p4, p5, p6⟩ :=
          unwindStep_spec h v l' r q2 q3 hr br (by omega) (by omega)
        refine ⟨n', by simp [q1, p1], p2, p3, ?_⟩
        simp only [height]
        constructor <;> omega
      · obtain ⟨r', q1, q2, q3, q4, q5⟩ := addNode_spec r value hr br
        obtain ⟨n', p1, p2, p3, p4, p5, p6⟩ :=
          unwindStep_spec h v l r' hl bl q2 q3 (by omega) (by omega)
        refine ⟨n', by simp [q1, p1], p2, p3, ?_⟩
        simp only [height]
        constructor <;> omega


/-! ## Adding to a tree that satisfies the AVL invariants -/

theorem sizeGuard_eq_true (size : Int) : sizeGuard size = true := by
  simp only [sizeGuard, min_size, max_size, decide_eq_true_eq]
  split_ifs <;> norm_num

theorem add_spec (t : AVLSearchTree) (value : Int)
    (h1 : HeightOK t.root) (h2 : Balanced t.root) :
    ∃ t', add t value = some t' ∧ HeightOK t'.root ∧ Balanced t'.root := by
  obtain ⟨n', p1, p2, p3, -, -⟩ := addNode_spec t.root value h1 h2
  obtain ⟨root, size⟩ := t
  cases root with
  | null =>
    refine ⟨⟨newNode value, size + 1⟩, by simp [add, sizeGuard_eq_true], ?_⟩
    simp [newNode, HeightOK, Balanced, height]
  | node h v l r =>
    exact ⟨⟨n', size + 1⟩, by simp only [add, p1, Option.map_some'], p2, p3⟩

theorem addAll_spec : ∀ (xs : List Int) (t : AVLSearchTree),
    HeightOK t.root → Balanced t.root →
    ∃ t', addAll t xs = some t' ∧ HeightOK t'.root ∧ Balanced t'.root
  | [], t, h1, h2 => ⟨t, rfl, h1, h2⟩
  | x :: xs, t, h1, h2 => by
      obtain ⟨t1, p1, p2, p3⟩ := add_spec t x h1 h2
      obtain ⟨t2, q1, q2, q3⟩ := addAll_spec xs t1 p2 p3
      exact ⟨t2, by simp [addAll, p1, q1], q2, q3⟩

/-! ## In-order traversal -/

theorem print_LNR_rightRotate (n n' : Node) (e : rightRotate n = some n') :
    print_LNR n' = print_LNR n := by
  cases n with
  | null => simp [rightRotate] at e
  | node h v l r =>
    cases l with
    | null => simp [rightRotate] at e
    | node hl vl ll lr =>
      simp only [rightRotate, Option.some.injEq] at e
      subst e
      simp [updateHeight, print_LNR]

theorem print_LNR_leftRotate (n n' : Node) (e : leftRotate n = some n') :
    print_LNR n' = print_LNR n := by
  cases n with
  | null => simp [leftRotate] at e
  | node h v l r =>
    cases r with
    | null => simp [leftRotate] at e
    | node hr vr rl rr =>
      simp only [leftRotate, Option.some.injEq] at e
      subst e
      simp [updateHeight, print_LNR]

theorem print_LNR_balance (n n' : Node) (e : balance n = some n') :
    print_LNR n' = print_LNR n := by
  cases n with
  | null => simp only [balance, Option.some.injEq] at e; subst e; rfl
  | node h v l r =>
    simp only [balance] at e
    split_ifs at e with c1 c2 c3 c4
    · obtain ⟨l', e1, e2⟩ := Option.bind_eq_some.1 e
      rw [print_LNR_rightRotate _ _ e2]
      simp [print_LNR, print_LNR_leftRotate _ _ e1]
    · exact print_LNR_rightRotate _ _ e
    · obtain ⟨r', e1, e2⟩ := Option.bind_eq_some.1 e
      rw [print_LNR_leftRotate _ _ e2]
      simp [print_LNR, print_LNR_rightRotate _ _ e1]
    · exact print_LNR_leftRotate _ _ e
    · simp only [Option.some.injEq] at e; subst e; rfl

theorem print_LNR_unwindStep (n n' : Node) (e : unwindStep n = some n') :
    print_LNR n' = print_LNR n := by
  rw [print_LNR_balance _ _ e, print_LNR_updateHeight]

theorem addNode_perm : ∀ (n : Node) (value : Int) (n' : Node),
    addNode n value = some n' → List.Perm (print_LNR n') (value :: print_LNR n)
  | null, value, n', e => by
      simp only [addNode, Option.some.injEq] at e
      subst e
      simp [newNode, print_LNR]
  | node h v l r, value, n', e => by
      simp only [addNode] at e
      split_ifs at e with c
      · obtain ⟨l', e1, e2⟩ := Option.bind_eq_some.1 e
        rw [print_LNR_unwindStep _ _ e2]
        simp only [print_LNR]
        exact (List.Perm.append_right _ (addNode_perm l value l' e1))
      · obtain ⟨r', e1, e2⟩ := Option.bind_eq_some.1 e
        rw [print_LNR_unwindStep _ _ e2]
        simp only [print_LNR]
        have := addNode_perm r value r' e1
        exact ((List.Perm.cons v this).trans (List.Perm.swap _ _ _)).append_left _ |>.trans
          List.perm_middle

theorem addNode_sorted : ∀ (n : Node) (value : Int) (n' : Node),
    addNode n value = some n' → List.Sorted (· ≤ ·) (print_LNR n) →
    List.Sorted (· ≤ ·) (print_LNR n')
  | null, value, n', e, _ => by
      simp only [addNode, Option.some.injEq] at e
      subst e
      simp [newNode, print_LNR]
  | node h v l r, value, n', e, s => by
      simp only [addNode] at e
      simp only [print_LNR, List.Sorted, List.pairwise_append, List.pairwise_cons,
        List.mem_cons, forall_eq_or_imp] at s
      obtain ⟨sl, ⟨sv, sr⟩, sx⟩ := s
      split_ifs at e with c
      · obtain ⟨l', e1, e2⟩ := Option.bind_eq_some.1 e
        have ih := addNode_sorted l value l' e1 sl
        have pm := addNode_perm l value l' e1
        rw [print_LNR_unwindStep _ _ e2]
        simp only [print_LNR, List.Sorted, List.pairwise_append, List.pairwise_cons,
          List.mem_cons, forall_eq_or_imp]
        refine ⟨ih, ⟨sv, sr⟩, ?_⟩
        intro a ha
        rcases List.mem_cons.1 (pm.mem_iff.1 ha) with rfl | ha
        · exact ⟨by omega, fun b hb => by have := sv b hb; omega⟩
        · exact sx a ha
      · obtain ⟨r', e1, e2⟩ := Option.bind_eq_some.1 e
        have ih := addNode_sorted r value r' e1 sr
        have pm := addNode_perm r value r' e1
        rw [print_LNR_unwindStep _ _ e2]
        simp only [print_LNR, List.Sorted, List.pairwise_append, List.pairwise_cons,
          List.mem_cons, forall_eq_or_imp]
        refine ⟨sl, ⟨?_, ih⟩, ?_⟩
        · intro b hb
          rcases List.mem_cons.1 (pm.mem_iff.1 hb) with rfl | hb
          · omega
          · exact sv b hb
        · intro a ha
          refine ⟨(sx a ha).1, fun b hb => ?_⟩
          rcases List.mem_cons.1 (pm.mem_iff.1 hb) with rfl | hb
          · have := (sx a ha).1; omega
          · exact (sx a ha).2 b hb

theorem add_perm (t t' : AVLSearchTree) (value : Int) (e : add t value = some t') :
    List.Perm (traversalLNR t') (value :: traversalLNR t) := by
  obtain ⟨root, size⟩ := t
  cases root with
  | null =>
    simp only [add, sizeGuard_eq_true, if_true, Option.some.injEq] at e
    subst e
    simp [traversalLNR, newNode, print_LNR]
  | node h v l r =>
    simp only [add, Option.map_eq_some'] at e
    obtain ⟨n', e1, rfl⟩ := e
    exact addNode_perm _ _ _ e1

theorem add_sorted (t t' : AVLSearchTree) (value : Int) (e : add t value = some t')
    (s : List.Sorted (· ≤ ·) (traversalLNR t)) : List.Sorted (· ≤ ·) (traversalLNR t') := by
  obtain ⟨root, size⟩ := t
  cases root with
  | null =>
    simp only [add, sizeGuard_eq_true, if_true, Option.some.injEq] at e
    subst e
    simp [traversalLNR, newNode, print_LNR]
  | node h v l r =>
    simp only [add, Option.map_eq_some'] at e
    obtain ⟨n', e1, rfl⟩ := e
    exact addNode_sorted _ _ _ e1 s

theorem addAll_perm : ∀ (xs : List Int) (t t' : AVLSearchTree),
    addAll t xs = some t' → List.Perm (traversalLNR t') (xs ++ traversalLNR t)
  | [], t, t', e => by
      simp only [addAll, Option.some.injEq] at e
      subst e
      simp
  | x :: xs, t, t', e => by
      simp only [addAll] at e
      obtain ⟨t1, e1, e2⟩ := Option.bind_eq_some.1 e
      refine (addAll_perm xs t1 t' e2).trans ?_
      refine (List.Perm.append_left xs (add_perm t t1 x e1)).trans ?_
      simp

theorem addAll_sorted : ∀ (xs : List Int) (t t' : AVLSearchTree),
    addAll t xs = some t' → List.Sorted (· ≤ ·) (traversalLNR t) →
    List.Sorted (· ≤ ·) (traversalLNR t')
  | [], t, t', e, s => by
      simp only [addAll, Option.some.injEq] at e
      subst e
      exact s
  | x :: xs, t, t', e, s => by
      simp only [addAll] at e
      obtain ⟨t1, e1, e2⟩ := Option.bind_eq_some.1 e
      exact addAll_sorted xs t1 t' e2 (add_sorted t t1 x e1 s)

/-! ## Trees built by `add` alone -/

/-- C1: for every finite sequence of values added one by one to an initially
empty tree, every `add` completes and in the resulting tree every node
satisfies `|height(right) - height(left)| <= 1`, the heights being the true
structural heights with -1 for an absent subtree.  (Every prefix of a sequence
is a sequence, so this is the state after each `add`.) -/
theorem add_balanced (xs : List Int) :
    ∃ t, addAll empty xs = some t ∧ Balanced t.root := by
  obtain ⟨t, e, -, b⟩ := addAll_spec xs empty trivial trivial
  exact ⟨t, e, b⟩

/-- C8: for every finite sequence of values added one by one to an initially
empty tree, every `add` completes and in the resulting tree every node's cached
`height` field equals `1 + max(height(left), height(right))`, with -1 for an
absent child, whether the children's heights are read as true structural
heights or from their cached fields. -/
theorem add_heightOK (xs : List Int) :
    ∃ t, addAll empty xs = some t ∧ HeightOK t.root ∧ HeightCachedOK t.root := by
  obtain ⟨t, e, h, -⟩ := addAll_spec xs empty trivial trivial
  exact ⟨t, e, h, (HeightOK_iff_cached t.root).1 h⟩

/-- C2: adding the values of any list (duplicates allowed) one by one to an
empty tree completes, and the in-order traversal of the result is exactly that
list sorted in non-decreasing order (a non-decreasing permutation of it); in
particular the traversal is non-decreasing after each insert, and when the
list is a permutation of `1..n` the traversal is `[1, ..., n]`. -/
theorem add_traversalLNR (xs : List Int) (n : Nat) :
    ∃ t, addAll empty xs = some t ∧
      traversalLNR t = List.insertionSort (· ≤ ·) xs ∧
      List.Perm (traversalLNR t) xs ∧
      List.Sorted (· ≤ ·) (traversalLNR t) ∧
      (List.Perm xs ((List.range' 1 n).map Int.ofNat) →
        traversalLNR t = (List.range' 1 n).map Int.ofNat) := by
  obtain ⟨t, e, -, -⟩ := addAll_spec xs empty trivial trivial
  have pm : List.Perm (traversalLNR t) xs := by
    simpa [traversalLNR, empty, print_LNR] using addAll_perm xs empty t e
  have st : List.Sorted (· ≤ ·) (traversalLNR t) :=
    addAll_sorted xs empty t e (by simp [traversalLNR, empty, print_LNR])
  refine ⟨t, e, ?_, pm, st, fun hp => ?_⟩
  · exact List.eq_of_perm_of_sorted (pm.trans (List.perm_insertionSort _ xs).symm) st
      (List.sorted_insertionSort _ xs)
  · refine List.eq_of_perm_of_sorted (pm.trans hp) st ?_
    have : List.Sorted (· ≤ ·) (List.range' 1 n) :=
      (List.pairwise_lt_range' 1 n).imp (fun h => Nat.le_of_lt h)
    exact List.Pairwise.map _ (fun a b h => Int.ofNat_le.2 h) this

/-- Witness for C2 on the permutation `3, 1, 2` of `1..3`. -/
theorem add_traversalLNR_witness :
    ∃ t, addAll empty [3, 1, 2] = some t ∧ traversalLNR t = [1, 2, 3] := by
  obtain ⟨t, e, -, -, -, h⟩ := add_traversalLNR [3, 1, 2] 3
  exact ⟨t, e, h (by decide)⟩

/-! ## Cached heights stay non-negative, so `balance` never meets `nullptr` -/

theorem getHeight_ge (n : Node) (c : CachedNonneg n) : -1 ≤ getHeight n := by
  cases n with
  | null => simp [getHeight]
  | node h v l r => have := c.1; simp only [getHeight_node]; omega

theorem CachedNonneg_updateHeight (h v : Int) (l r : Node)
    (cl : CachedNonneg l) (cr : CachedNonneg r) :
    CachedNonneg (updateHeight (node h v l r)) := by
  have := getHeight_ge l cl
  have := getHeight_ge r cr
  exact ⟨by omega, cl, cr⟩

theorem rightRotate_defined (h v hl vl : Int) (ll lr r : Node)
    (c : CachedNonneg (node h v (node hl vl ll lr) r)) :
    ∃ n', rightRotate (node h v (node hl vl ll lr) r) = some n' ∧ CachedNonneg n' := by
  obtain ⟨-, ⟨-, cll, clr⟩, cr⟩ := c
  refine ⟨_, rfl, ?_⟩
  have c1 := CachedNonneg_updateHeight h v lr r clr cr
  exact CachedNonneg_updateHeight hl vl ll _ cll c1

theorem leftRotate_defined (h v hr vr : Int) (l rl rr : Node)
    (c : CachedNonneg (node h v l (node hr vr rl rr))) :
    ∃ n', leftRotate (node h v l (node hr vr rl rr)) = some n' ∧ CachedNonneg n' := by
  obtain ⟨-, cl, ⟨-, crl, crr⟩⟩ := c
  refine ⟨_, rfl, ?_⟩
  have c1 := CachedNonneg_updateHeight h v l rl cl crl
  exact CachedNonneg_updateHeight hr vr _ rr c1 crr

theorem balance_defined (n : Node) (c : CachedNonneg n) :
    ∃ n', balance n = some n' ∧ CachedNonneg n' := by
  cases n with
  | null => exact ⟨null, rfl, trivial⟩
  | node h v l r =>
    obtain ⟨c0, cl, cr⟩ := c
    have gl := getHeight_ge l cl
    have gr := getHeight_ge r cr
    simp only [balance, getBalance]
    split_ifs with c1 c2 c3 c4
    · cases l with
      | null => simp [getBalance] at c2
      | node hl vl ll lr =>
        cases lr with
        | null =>
          have := getHeight_ge ll cl.2.1
          simp only [getBalance, getHeight_null] at c2; omega
        | node h2 v2 lrl lrr =>
          obtain ⟨l', e1, cl'⟩ := leftRotate_defined hl vl h2 v2 ll lrl lrr cl
          cases l' with
          | null => simp [leftRotate, updateHeight] at e1
          | node h3 v3 l3 r3 =>
            obtain ⟨n', e2, cn'⟩ := rightRotate_defined h v h3 v3 l3 r3 r ⟨c0, cl', cr⟩
            exact ⟨n', by rw [e1]; exact e2, cn'⟩
    · cases l with
      | null => simp only [getHeight_null] at c1; omega
      | node hl vl ll lr =>
        obtain ⟨n', e2, cn'⟩ := rightRotate_defined h v hl vl ll lr r ⟨c0, cl, cr⟩
        exact ⟨n', e2, cn'⟩
    · cases r with
      | null => simp [getBalance] at c4
      | node hr vr rl rr =>
        cases rl with
        | null =>
          have := getHeight_ge rr cr.2.2
          simp only [getBalance, getHeight_null] at c4; omega
        | node h2 v2 rll rlr =>
          obtain ⟨r', e1, cr'⟩ := rightRotate_defined hr vr h2 v2 rll rlr rr cr
          cases r' with
          | null => simp [rightRotate, updateHeight] at e1
          | node h3 v3 l3 r3 =>
            obtain ⟨n', e2, cn'⟩ := leftRotate_defined h v h3 v3 l l3 r3 ⟨c0, cl, cr'⟩
            exact ⟨n', by rw [e1]; exact e2, cn'⟩
    · cases r with
      | null => simp only [getHeight_null] at c3; omega
      | node hr vr rl rr =>
        obtain ⟨n', e2, cn'⟩ := leftRotate_defined h v hr vr l rl rr ⟨c0, cl, cr⟩
        exact ⟨n', e2, cn'⟩
    · exact ⟨_, rfl, c0, cl, cr⟩

theorem unwindStep_defined (h v : Int) (l r : Node)
    (cl : CachedNonneg l) (cr : CachedNonneg r) :
    ∃ n', unwindStep (node h v l r) = some n' ∧ CachedNonneg n' :=
  balance_defined _ (CachedNonneg_updateHeight h v l r cl cr)

theorem addNode_defined : ∀ (n : Node) (value : Int), CachedNonneg n →
    ∃ n', addNode n value = some n' ∧ CachedNonneg n'
  | null, value, _ => ⟨_, rfl, le_refl _, trivial, trivial⟩
  | node h v l r, value, ⟨_, cl, cr⟩ => by
      simp only [addNode]
      split_ifs with c
      · obtain ⟨l', e1, cl'⟩ := addNode_defined l value cl
        obtain ⟨n', e2, cn'⟩ := unwindStep_defined h v l' r cl' cr
        exact ⟨n', by simp [e1, e2], cn'⟩
      · obtain ⟨r', e1, cr'⟩ := addNode_defined r value cr
        obtain ⟨n', e2, cn'⟩ := unwindStep_defined h v l r' cl cr'
        exact ⟨n', by simp [e1, e2], cn'⟩

theorem add_defined (t : AVLSearchTree) (value : Int) (c : CachedNonneg t.root) :
    ∃ t', add t value = some t' ∧ CachedNonneg t'.root := by
  obtain ⟨n', e, cn'⟩ := addNode_defined t.root value c
  obtain ⟨root, size⟩ := t
  cases root with
  | null =>
    exact ⟨⟨newNode value, size + 1⟩, by simp [add, sizeGuard_eq_true],
      le_refl _, trivial, trivial⟩
  | node h v l r =>
    exact ⟨⟨n', size + 1⟩, by simp only [add, e, Option.map_some'], cn'⟩

/-! ## The structural edit of `remove` -/

theorem print_LNR_detachSuccessor : ∀ (l : Node) (h v : Int) (r : Node),
    print_LNR (node h v l r) =
      (detachSuccessor h v l r).1 :: print_LNR (detachSuccessor h v l r).2
  | null, h, v, r => by simp [detachSuccessor, print_LNR]
  | node hl vl ll lr, h, v, r => by
      have ih := print_LNR_detachSuccessor ll hl vl lr
      simp only [detachSuccessor, print_LNR] at ih ⊢
      rw [ih]
      simp

theorem CachedNonneg_detachSuccessor : ∀ (l : Node) (h v : Int) (r : Node),
    CachedNonneg (node h v l r) → CachedNonneg (detachSuccessor h v l r).2
  | null, _, _, _, c => c.2.2
  | node hl vl ll lr, _, _, _, c =>
      ⟨c.1, CachedNonneg_detachSuccessor ll hl vl lr c.2.1, c.2.2⟩

theorem print_LNR_deleteAt (h v : Int) (l r : Node) :
    print_LNR (deleteAt (node h v l r)) = print_LNR l ++ print_LNR r := by
  cases l with
  | null => cases r <;> simp [deleteAt, print_LNR]
  | node hl vl ll lr =>
    cases r with
    | null => simp [deleteAt, print_LNR]
    | node hr vr rl rr =>
      simp only [deleteAt]
      rw [print_LNR, ← print_LNR_detachSuccessor]

theorem CachedNonneg_deleteAt (n : Node) (c : CachedNonneg n) :
    CachedNonneg (deleteAt n) := by
  cases n with
  | null => exact trivial
  | node h v l r =>
    cases l with
    | null =>
      cases r with
      | null => exact trivial
      | node hr vr rl rr => exact c.2.2
    | node hl vl ll lr =>
      cases r with
      | null => exact c.2.1
      | node hr vr rl rr =>
        exact ⟨c.1, c.2.1, CachedNonneg_detachSuccessor rl hr vr rr c.2.2⟩

theorem findNode_mem : ∀ (n : Node) (value : Int),
    findNode n value = true → value ∈ print_LNR n
  | null, _, e => by simp [findNode] at e
  | node h v l r, value, e => by
      simp only [findNode] at e
      simp only [print_LNR, List.mem_append, List.mem_cons]
      split_ifs at e with c1 c2
      · exact Or.inr (Or.inl c1.symm)
      · exact Or.inl (findNode_mem l value e)
      · exact Or.inr (Or.inr (findNode_mem r value e))

theorem mem_findNode : ∀ (n : Node) (value : Int),
    List.Sorted (· ≤ ·) (print_LNR n) → value ∈ print_LNR n → findNode n value = true
  | null, _, _, m => by simp [print_LNR] at m
  | node h v l r, value, s, m => by
      simp only [print_LNR, List.Sorted, List.pairwise_append, List.pairwise_cons,
        List.mem_cons, forall_eq_or_imp] at s
      obtain ⟨sl, ⟨sv, sr⟩, sx⟩ := s
      simp only [print_LNR, List.mem_append, List.mem_cons] at m
      simp only [findNode]
      split_ifs with c1 c2
      · rfl
      · rcases m with m | m | m
        · exact mem_findNode l value sl m
        · exact absurd m.symm c1
        · have := sv value m; omega
      · rcases m with m | m | m
        · have := (sx value m).1
          omega
        · exact absurd m.symm c1
        · exact mem_findNode r value sr m

theorem removeNode_defined (fix : Bool) : ∀ (n : Node) (value : Int), CachedNonneg n →
    ∃ n', removeNode fix n value = some n' ∧ CachedNonneg n'
  | null, _, _ => ⟨null, rfl, trivial⟩
  | node h v l r, value, c => by
      simp only [removeNode]
      split_ifs with c1 c2 c3 c4
      · exact ⟨_, rfl, CachedNonneg_deleteAt _ c⟩
      · obtain ⟨l', e1, cl'⟩ := removeNode_defined fix l value c.2.1
        obtain ⟨n', e2, cn'⟩ := unwindStep_defined h v l' r cl' c.2.2
        exact ⟨n', by rw [e1]; exact e2, cn'⟩
      · obtain ⟨l', e1, cl'⟩ := removeNode_defined fix l value c.2.1
        exact ⟨node h v l' r, by rw [e1]; rfl, c.1, cl', c.2.2⟩
      · obtain ⟨r', e1, cr'⟩ := removeNode_defined fix r value c.2.2
        obtain ⟨n', e2, cn'⟩ := unwindStep_defined h v l r' c.2.1 cr'
        exact ⟨n', by rw [e1]; exact e2, cn'⟩
      · obtain ⟨r', e1, cr'⟩ := removeNode_defined fix r value c.2.2
        exact ⟨node h v l r', by rw [e1]; rfl, c.1, c.2.1, cr'⟩

theorem removeNode_perm (fix : Bool) : ∀ (n : Node) (value : Int) (n' : Node),
    findNode n value = true → removeNode fix n value = some n' →
    List.Perm (print_LNR n) (value :: print_LNR n')
  | null, _, _, f, _ => by simp [findNode] at f
  | node h v l r, value, n', f, e => by
      simp only [findNode] at f
      simp only [removeNode] at e
      split_ifs at f e with c1 c2 c3 c3
      · simp only [Option.some.injEq] at e
        subst e
        rw [print_LNR_deleteAt, print_LNR, c1]
        exact List.perm_middle
      all_goals
        obtain ⟨m, e1, e2⟩ := Option.bind_eq_some.1 e
        have ih := removeNode_perm fix _ value m f e1
        first
          | rw [print_LNR_unwindStep _ _ e2]
          | (simp only [Option.some.injEq] at e2; subst e2)
        simp only [print_LNR]
      · exact (List.Perm.append_right _ ih)
      · exact (List.Perm.append_right _ ih)
      · exact ((List.Perm.cons v ih).trans (List.Perm.swap _ _ _)).append_left _ |>.trans
          List.perm_middle
      · exact ((List.Perm.cons v ih).trans (List.Perm.swap _ _ _)).append_left _ |>.trans
          List.perm_middle

theorem removeNode_sublist (fix : Bool) : ∀ (n : Node) (value : Int) (n' : Node),
    removeNode fix n value = some n' → List.Sublist (print_LNR n') (print_LNR n)
  | null, _, _, e => by
      simp only [removeNode, Option.some.injEq] at e
      subst e
      exact List.Sublist.refl _
  | node h v l r, value, n', e => by
      simp only [removeNode] at e
      split_ifs at e with c1 c2 c3 c3
      · simp only [Option.some.injEq] at e
        subst e
        rw [print_LNR_deleteAt, print_LNR]
        exact List.Sublist.append_left (List.sublist_cons_self _ _) _
      all_goals
        obtain ⟨m, e1, e2⟩ := Option.bind_eq_some.1 e
        have ih := removeNode_sublist fix _ value m e1
        first
          | rw [print_LNR_unwindStep _ _ e2]
          | (simp only [Option.some.injEq] at e2; subst e2)
        simp only [print_LNR]
      · exact List.Sublist.append_right ih _
      · exact List.Sublist.append_right ih _
      · exact List.Sublist.append_left (List.Sublist.cons₂ _ ih) _
      · exact List.Sublist.append_left (List.Sublist.cons₂ _ ih) _

/-! ## `remove` on whole trees -/

theorem remove_absent_eq (t : AVLSearchTree) (value : Int)
    (f : find t value = false) : remove t value = some t := by
  obtain ⟨root, size⟩ := t
  cases root with
  | null => rfl
  | node h v l r =>
    simp only [find] at f
    simp only [remove, f, if_true]

theorem remove_cases (t t' : AVLSearchTree) (value : Int) (f : find t value = true)
    (e : remove t value = some t') :
    t'.size = t.size - 1 ∧
    ((∃ n, removeNode (decide (t.size - 1 > 2)) t.root value = some n ∧
        (unwindStep n = some t'.root ∨ n = t'.root)) ∨
      (∃ h v l r, t.root = node h v l r ∧ v = value ∧
        (unwindStep (deleteAt t.root) = some t'.root ∨ deleteAt t.root = t'.root))) := by
  obtain ⟨root, size⟩ := t
  cases root with
  | null => simp [find, findNode] at f
  | node h v l r =>
    simp only [find] at f
    simp only [remove, f, Bool.true_eq_false, if_false] at e
    dsimp only
    generalize decide (size - 1 > 2) = fix at e ⊢
    by_cases c1 : v = value
    · rw [if_pos c1] at e
      cases l with
      | null =>
        cases fix with
        | true => simp at e
        | false =>
          simp only [Bool.false_eq_true, if_false, Option.some.injEq] at e
          subst e
          exact ⟨rfl, Or.inr ⟨h, v, null, r, rfl, c1, Or.inr rfl⟩⟩
      | node hl vl ll lr =>
        cases r with
        | null =>
          cases fix with
          | true => simp at e
          | false =>
            simp only [Bool.false_eq_true, if_false, Option.some.injEq] at e
            subst e
            exact ⟨rfl, Or.inr ⟨h, v, _, null, rfl, c1, Or.inr rfl⟩⟩
        | node hr vr rl rr =>
          simp only [Option.map_eq_some'] at e
          obtain ⟨n', e1, rfl⟩ := e
          refine ⟨rfl, Or.inr ⟨h, v, _, _, rfl, c1, ?_⟩⟩
          cases fix with
          | true => exact Or.inl e1
          | false => exact Or.inr (Option.some.inj e1)
    · rw [if_neg c1] at e
      simp only [Option.map_eq_some'] at e
      obtain ⟨n', e1, rfl⟩ := e
      obtain ⟨n, e2, e3⟩ := Option.bind_eq_some.1 e1
      refine ⟨rfl, Or.inl ⟨n, e2, ?_⟩⟩
      cases fix with
      | true => exact Or.inl e3
      | false => exact Or.inr (Option.some.inj e3)

theorem remove_perm (t t' : AVLSearchTree) (value : Int) (f : find t value = true)
    (e : remove t value = some t') :
    List.Perm (traversalLNR t) (value :: traversalLNR t') := by
  obtain ⟨-, ⟨n, e1, e2⟩ | ⟨h, v, l, r, e1, e2, e3⟩⟩ := remove_cases t t' value f e
  · have p := removeNode_perm _ t.root value n f e1
    rcases e2 with e2 | e2
    · simpa only [traversalLNR, print_LNR_unwindStep _ _ e2] using p
    · simpa only [traversalLNR, e2] using p
  · have p : print_LNR (deleteAt t.root) = print_LNR l ++ print_LNR r := by
      rw [e1, print_LNR_deleteAt]
    have q : List.Perm (traversalLNR t) (value :: print_LNR (deleteAt t.root)) := by
      rw [p, traversalLNR, e1, print_LNR, e2]
      exact List.perm_middle
    rcases e3 with e3 | e3
    · simpa only [traversalLNR, print_LNR_unwindStep _ _ e3] using q
    · simpa only [traversalLNR, e3] using q

theorem remove_sublist (t t' : AVLSearchTree) (value : Int)
    (e : remove t value = some t') : List.Sublist (traversalLNR t') (traversalLNR t) := by
  cases f : find t value with
  | false =>
    rw [remove_absent_eq t value f, Option.some.injEq] at e
    subst e
    exact List.Sublist.refl _
  | true =>
    obtain ⟨-, ⟨n, e1, e2⟩ | ⟨h, v, l, r, e1, e2, e3⟩⟩ := remove_cases t t' value f e
    · have p := removeNode_sublist _ t.root value n e1
      rcases e2 with e2 | e2
      · simpa only [traversalLNR, print_LNR_unwindStep _ _ e2] using p
      · simpa only [traversalLNR, e2] using p
    · have q : List.Sublist (print_LNR (deleteAt t.root)) (traversalLNR t) := by
        rw [traversalLNR, e1, print_LNR_deleteAt, print_LNR]
        exact List.Sublist.append_left (List.sublist_cons_self _ _) _
      rcases e3 with e3 | e3
      · simpa only [traversalLNR, print_LNR_unwindStep _ _ e3] using q
      · simpa only [traversalLNR, e3] using q

theorem unwindStep_nonneg (n n' : Node) (c : CachedNonneg n)
    (e : unwindStep n = some n') : CachedNonneg n' := by
  cases n with
  | null =>
    simp only [unwindStep, updateHeight, balance, Option.some.injEq] at e
    subst e
    exact trivial
  | node h v l r =>
    obtain ⟨m, e1, cm⟩ := unwindStep_defined h v l r c.2.1 c.2.2
    rw [e1, Option.some.injEq] at e
    exact e ▸ cm

theorem remove_nonneg (t t' : AVLSearchTree) (value : Int) (c : CachedNonneg t.root)
    (e : remove t value = some t') : CachedNonneg t'.root := by
  cases f : find t value with
  | false =>
    rw [remove_absent_eq t value f, Option.some.injEq] at e
    exact e ▸ c
  | true =>
    obtain ⟨-, ⟨n, e1, e2⟩ | ⟨h, v, l, r, e1, e2, e3⟩⟩ := remove_cases t t' value f e
    · obtain ⟨m, e3, cm⟩ := removeNode_defined (decide (t.size - 1 > 2)) t.root value c
      rw [e3, Option.some.injEq] at e1
      subst e1
      rcases e2 with e2 | e2
      · exact unwindStep_nonneg _ _ cm e2
      · exact e2 ▸ cm
    · have cd := CachedNonneg_deleteAt _ c
      rcases e3 with e3 | e3
      · exact unwindStep_nonneg _ _ cd e3
      · exact e3 ▸ cd

/-! ## Invariants of every reachable tree -/

theorem Reachable.nonneg {t : AVLSearchTree} (r : Reachable t) : CachedNonneg t.root := by
  induction r with
  | empty => exact trivial
  | add t t' value _ e ih =>
    obtain ⟨m, e1, cm⟩ := add_defined t value ih
    rw [e1, Option.some.injEq] at e
    exact e ▸ cm
  | remove t t' value _ e ih => exact remove_nonneg t t' value ih e

theorem Reachable.sorted {t : AVLSearchTree} (r : Reachable t) :
    List.Sorted (· ≤ ·) (traversalLNR t) := by
  induction r with
  | empty => simp [traversalLNR, empty, print_LNR]
  | add t t' value _ e ih => exact add_sorted t t' value e ih
  | remove t t' value _ e ih => exact List.Pairwise.sublist (remove_sublist t t' value e) ih

theorem BSTOrderWeak_of_sorted : ∀ n : Node,
    List.Sorted (· ≤ ·) (print_LNR n) → BSTOrderWeak n
  | null, _ => trivial
  | node h v l r, s => by
      simp only [print_LNR, List.Sorted, List.pairwise_append, List.pairwise_cons,
        List.mem_cons, forall_eq_or_imp] at s
      obtain ⟨sl, ⟨sv, sr⟩, sx⟩ := s
      exact ⟨fun a ha => (sx a ha).1, sv, BSTOrderWeak_of_sorted l sl,
        BSTOrderWeak_of_sorted r sr⟩

theorem Reachable.addAll : ∀ (xs : List Int) (t t' : AVLSearchTree),
    Reachable t → addAll t xs = some t' → Reachable t'
  | [], t, t', r, e => by
      simp only [Avl.addAll, Option.some.injEq] at e
      exact e ▸ r
  | x :: xs, t, t', r, e => by
      simp only [Avl.addAll] at e
      obtain ⟨t1, e1, e2⟩ := Option.bind_eq_some.1 e
      exact Reachable.addAll xs t1 t' (Reachable.add t t1 x r e1) e2

theorem find_iff_mem (t : AVLSearchTree) (value : Int) (r : Reachable t) :
    find t value = true ↔ value ∈ traversalLNR t :=
  ⟨findNode_mem t.root value, mem_findNode t.root value r.sorted⟩

/-- On a reachable tree a `remove` of a stored value that completes deletes
exactly one occurrence of the value from the in-order traversal, keeps every
other value in place, and decrements `size`. -/
theorem remove_traversalLNR_erase (t t' : AVLSearchTree) (value : Int) (r : Reachable t)
    (m : value ∈ traversalLNR t) (e : remove t value = some t') :
    traversalLNR t' = (traversalLNR t).erase value ∧ getSize t' = getSize t - 1 := by
  have f := (find_iff_mem t value r).2 m
  refine ⟨?_, (remove_cases t t' value f e).1⟩
  have p := remove_perm t t' value f e
  have s' : List.Sorted (· ≤ ·) (traversalLNR t') := (Reachable.remove t t' value r e).sorted
  refine List.eq_of_perm_of_sorted ?_ s' (List.Pairwise.sublist (List.erase_sublist _ _) r.sorted)
  have := p.erase value
  rw [List.erase_cons_head] at this
  exact this.symm

/-! ## `find` after `add` and after `remove` -/

/-- C3: for every tree reachable from the empty tree by `add` and `remove`
calls and every value `v`, `add(v)` completes and `find(v)` returns true
immediately afterwards. -/
theorem find_after_add (t : AVLSearchTree) (value : Int) (r : Reachable t) :
    ∃ t', add t value = some t' ∧ find t' value = true := by
  obtain ⟨t', e, -⟩ := add_defined t value r.nonneg
  refine ⟨t', e, (find_iff_mem t' value (Reachable.add t t' value r e)).2 ?_⟩
  exact (add_perm t t' value e).mem_iff.2 (List.mem_cons_self _ _)

/-- Witness for C3: the tree left by `add 1, add 2, remove 2`. -/
theorem find_after_add_witness :
    Reachable ⟨node 1 1 null null, 1⟩ ∧
      ∃ t', add ⟨node 1 1 null null, 1⟩ 2 = some t' ∧ find t' 2 = true :=
  have r : Reachable ⟨node 1 1 null null, 1⟩ :=
    Reachable.remove ⟨node 1 1 null (node 0 2 null null), 2⟩ _ 2
      (Reachable.add ⟨node 0 1 null null, 1⟩ _ 2
        (Reachable.add empty _ 1 Reachable.empty (by decide)) (by decide)) (by decide)
  ⟨r, find_after_add _ 2 r⟩

/-- C4 as stated fails: after `add 5, add 5` the call `remove(5)` deletes one
of the two nodes holding 5 and `find(5)` is still true. -/
theorem find_after_remove_counterexample :
    addAll empty [5, 5] = some ⟨node 1 5 null (node 0 5 null null), 2⟩ ∧
      Reachable ⟨node 1 5 null (node 0 5 null null), 2⟩ ∧
      remove ⟨node 1 5 null (node 0 5 null null), 2⟩ 5 = some ⟨node 0 5 null null, 1⟩ ∧
      find ⟨node 0 5 null null, 1⟩ 5 = true :=
  ⟨by decide, Reachable.addAll [5, 5] empty _ Reachable.empty (by decide), by decide,
    by decide⟩

/-- C4 amended: on a reachable tree, after a `remove(v)` that completes,
`find(v)` is true exactly when `v` was stored at least twice before the call;
in particular it is false whenever `v` was stored at most once. -/
theorem find_after_remove (t t' : AVLSearchTree) (value : Int) (r : Reachable t)
    (e : remove t value = some t') :
    find t' value = true ↔ 2 ≤ (traversalLNR t).count value := by
  have r' := Reachable.remove t t' value r e
  rw [find_iff_mem t' value r']
  cases f : find t value with
  | false =>
    rw [remove_absent_eq t value f, Option.some.injEq] at e
    subst e
    have nm : value ∉ traversalLNR t := fun m => by
      rw [(find_iff_mem t value r).2 m] at f
      exact Bool.noConfusion f
    simp [nm, List.count_eq_zero_of_not_mem nm]
  | true =>
    have p := remove_perm t t' value f e
    rw [p.count_eq, List.count_cons_self, ← List.count_pos_iff]
    omega

/-- Witness for C4 amended: the tree holding 5 and 7, from which 5 is removed. -/
theorem find_after_remove_witness :
    Reachable ⟨node 1 5 null (node 0 7 null null), 2⟩ ∧
      remove ⟨node 1 5 null (node 0 7 null null), 2⟩ 5 = some ⟨node 0 7 null null, 1⟩ ∧
      (find ⟨node 0 7 null null, 1⟩ 5 = true ↔
        2 ≤ (traversalLNR ⟨node 1 5 null (node 0 7 null null), 2⟩).count 5) :=
  have r : Reachable ⟨node 1 5 null (node 0 7 null null), 2⟩ :=
    Reachable.addAll [5, 7] empty _ Reachable.empty (by decide)
  ⟨r, by decide, find_after_remove _ _ 5 r (by decide)⟩

/-! ## `remove` and the AVL invariants -/

/-- C5: `remove` does not preserve the balance invariant.  After
`add 50, 30, 70, 20, 40, 60, 10` (no rotation happens) `remove(50)` moves the
successor 60 into the root and unlinks it from node 70, but neither 70 nor any
other node between the root and the successor is on the ancestor stack: 70
keeps its cached height 1, the root sees `1 - 2 = -1` and is not rotated,
although its left subtree has true height 2 and its right subtree true
height 0. -/
theorem remove_unbalanced :
    addAll empty [50, 30, 70, 20, 40, 60, 10] =
        some ⟨node 3 50
          (node 2 30 (node 1 20 (node 0 10 null null) null) (node 0 40 null null))
          (node 1 70 (node 0 60 null null) null), 7⟩ ∧
      remove ⟨node 3 50
          (node 2 30 (node 1 20 (node 0 10 null null) null) (node 0 40 null null))
          (node 1 70 (node 0 60 null null) null), 7⟩ 50 =
        some ⟨node 3 60
          (node 2 30 (node 1 20 (node 0 10 null null) null) (node 0 40 null null))
          (node 1 70 null null), 6⟩ ∧
      ¬ Balanced (node 3 60
          (node 2 30 (node 1 20 (node 0 10 null null) null) (node 0 40 null null))
          (node 1 70 null null)) := by
  refine ⟨by decide, by decide, ?_⟩
  simp [Balanced, height]

/-- C6: `remove` of a stored value can leave no defined result.  Starting from
the tree of `remove_unbalanced`, `remove(70)` leaves the root 60 with a left
child only in a tree of 5 nodes; `remove(60)` then frees the root, decrements
`size` to 4 and, because `4 > 2`, pops the freed root from the stack and calls
`updateHeight` on it. -/
theorem remove_root_use_after_free :
    Reachable ⟨node 3 60
        (node 2 30 (node 1 20 (node 0 10 null null) null) (node 0 40 null null))
        (node 1 70 null null), 6⟩ ∧
      remove ⟨node 3 60
          (node 2 30 (node 1 20 (node 0 10 null null) null) (node 0 40 null null))
          (node 1 70 null null), 6⟩ 70 =
        some ⟨node 3 60
          (node 2 30 (node 1 20 (node 0 10 null null) null) (node 0 40 null null))
          null, 5⟩ ∧
      60 ∈ traversalLNR ⟨node 3 60
          (node 2 30 (node 1 20 (node 0 10 null null) null) (node 0 40 null null))
          null, 5⟩ ∧
      remove ⟨node 3 60
          (node 2 30 (node 1 20 (node 0 10 null null) null) (node 0 40 null null))
          null, 5⟩ 60 = none := by
  refine ⟨?_, by decide, by decide, by decide⟩
  exact Reachable.remove
    ⟨node 3 50
      (node 2 30 (node 1 20 (node 0 10 null null) null) (node 0 40 null null))
      (node 1 70 (node 0 60 null null) null), 7⟩ _ 50
    (Reachable.addAll [50, 30, 70, 20, 40, 60, 10] empty _ Reachable.empty (by decide))
    (by decide)

/-- C7: for every tree, empty or not, and every value that is not stored in
it, `remove` returns the tree unchanged: the same nodes with the same values and
cached heights, the same `getSize()`, and the same output of the three
traversals. -/
theorem remove_absent (t : AVLSearchTree) (value : Int) (h : value ∉ traversalLNR t) :
    ∃ t', remove t value = some t' ∧ t' = t ∧ getSize t' = getSize t ∧
      traversalNLR t' = traversalNLR t ∧ traversalLNR t' = traversalLNR t ∧
      traversalRNL t' = traversalRNL t := by
  refine ⟨t, remove_absent_eq t value ?_, rfl, rfl, rfl, rfl, rfl⟩
  cases f : find t value with
  | false => rfl
  | true => exact absurd (findNode_mem t.root value f) h

/-- Witness for C7: removing 15 from the tree holding 10 and 20. -/
theorem remove_absent_witness :
    15 ∉ traversalLNR ⟨node 1 20 (node 0 10 null null) null, 2⟩ ∧
      ∃ t', remove ⟨node 1 20 (node 0 10 null null) null, 2⟩ 15 = some t' ∧
        t' = ⟨node 1 20 (node 0 10 null null) null, 2⟩ ∧
        getSize t' = getSize ⟨node 1 20 (node 0 10 null null) null, 2⟩ ∧
        traversalNLR t' = traversalNLR ⟨node 1 20 (node 0 10 null null) null, 2⟩ ∧
        traversalLNR t' = traversalLNR ⟨node 1 20 (node 0 10 null null) null, 2⟩ ∧
        traversalRNL t' = traversalRNL ⟨node 1 20 (node 0 10 null null) null, 2⟩ :=
  ⟨by decide, remove_absent _ 15 (by decide)⟩

/-- C9: `remove` does not preserve height correctness.  After `add 1, add 2`
the call `remove(2)` leaves `size = 1`, the guard `size > 2` of the unwinding
loop fails, and the root keeps the cached height 1 although it has no child.
With the loop running the nodes between the removed node and its successor
are still skipped: after `add 20, 10, 30, 25` the call `remove(20)` leaves node
30 without children and with cached height 1. -/
theorem remove_stale_height :
    addAll empty [1, 2] = some ⟨node 1 1 null (node 0 2 null null), 2⟩ ∧
      remove ⟨node 1 1 null (node 0 2 null null), 2⟩ 2 = some ⟨node 1 1 null null, 1⟩ ∧
      ¬ HeightOK (node 1 1 null null) ∧ ¬ HeightCachedOK (node 1 1 null null) ∧
      addAll empty [20, 10, 30, 25] =
        some ⟨node 2 20 (node 0 10 null null) (node 1 30 (node 0 25 null null) null), 4⟩ ∧
      remove ⟨node 2 20 (node 0 10 null null) (node 1 30 (node 0 25 null null) null), 4⟩ 20 =
        some ⟨node 2 25 (node 0 10 null null) (node 1 30 null null), 3⟩ ∧
      ¬ HeightOK (node 2 25 (node 0 10 null null) (node 1 30 null null)) := by
  refine ⟨by decide, by decide, ?_, ?_, by decide, by decide, ?_⟩ <;>
    simp [HeightOK, HeightCachedOK, height, getHeight]

/-! ## BST ordering -/

/-- C10 as stated fails: `add 10, 10, 10` routes each duplicate to the right,
and the left rotation at the root then puts a 10 into the left subtree of the
root 10. -/
theorem bstOrder_counterexample :
    addAll empty [10, 10, 10] =
        some ⟨node 1 10 (node 0 10 null null) (node 0 10 null null), 3⟩ ∧
      Reachable ⟨node 1 10 (node 0 10 null null) (node 0 10 null null), 3⟩ ∧
      ¬ BSTOrder (node 1 10 (node 0 10 null null) (node 0 10 null null)) := by
  refine ⟨by decide, Reachable.addAll [10, 10, 10] empty _ Reachable.empty (by decide), ?_⟩
  simp [BSTOrder, print_LNR]

/-- C10 amended: in every tree reachable from the empty tree by `add` and
`remove` calls (duplicates allowed), every node has all values in its left
subtree less than or equal to its own value and all values in its right
subtree greater than or equal to its own value. -/
theorem reachable_bstOrderWeak (t : AVLSearchTree) (r : Reachable t) :
    BSTOrderWeak t.root :=
  BSTOrderWeak_of_sorted t.root r.sorted

/-- Witness for C10 amended: the tree built by `add 10, 10, 10`. -/
theorem reachable_bstOrderWeak_witness :
    Reachable ⟨node 1 10 (node 0 10 null null) (node 0 10 null null), 3⟩ ∧
      BSTOrderWeak (node 1 10 (node 0 10 null null) (node 0 10 null null)) :=
  have r : Reachable ⟨node 1 10 (node 0 10 null null) (node 0 10 null null), 3⟩ :=
    Reachable.addAll [10, 10, 10] empty _ Reachable.empty (by decide)
  ⟨r, reachable_bstOrderWeak _ r⟩

/-! ## The size counter -/

theorem numNodes_eq_length : ∀ n : Node, numNodes n = (print_LNR n).length
  | null => rfl
  | node _ _ l r => by
      simp only [numNodes, print_LNR, List.length_append, List.length_cons,
        numNodes_eq_length l, numNodes_eq_length r]
      omega

theorem add_size (t t' : AVLSearchTree) (value : Int) (e : add t value = some t') :
    t'.size = t.size + 1 := by
  obtain ⟨root, size⟩ := t
  cases root with
  | null =>
    simp only [add, sizeGuard_eq_true, if_true, Option.some.injEq] at e
    subst e
    rfl
  | node h v l r =>
    simp only [add, Option.map_eq_some'] at e
    obtain ⟨n', -, rfl⟩ := e
    rfl

theorem remove_size (t t' : AVLSearchTree) (value : Int) (e : remove t value = some t') :
    t'.size = t.size - (if find t value = true then 1 else 0) := by
  cases f : find t value with
  | false =>
    rw [remove_absent_eq t value f, Option.some.injEq] at e
    subst e
    simp
  | true => simpa using (remove_cases t t' value f e).1

theorem add_numNodes (t t' : AVLSearchTree) (value : Int) (e : add t value = some t') :
    numNodes t'.root = numNodes t.root + 1 := by
  have := (add_perm t t' value e).length_eq
  simpa [numNodes_eq_length, traversalLNR] using this

theorem remove_numNodes (t t' : AVLSearchTree) (value : Int)
    (e : remove t value = some t') :
    numNodes t'.root + (if find t value = true then 1 else 0) = numNodes t.root := by
  cases f : find t value with
  | false =>
    rw [remove_absent_eq t value f, Option.some.injEq] at e
    subst e
    simp
  | true =>
    have := (remove_perm t t' value f e).length_eq
    simpa [numNodes_eq_length, traversalLNR] using this.symm

theorem findNode_root (h v : Int) (l r : Node) : findNode (node h v l r) v = true := by
  simp [findNode]

theorem clearLoop_reachable : ∀ (fuel : Nat) (t t' : AVLSearchTree),
    Reachable t → clearLoop fuel t = some t' → Reachable t'
  | 0, t, t', r, e => by
      simp only [clearLoop] at e
      split_ifs at e
      rw [Option.some.injEq] at e
      exact e ▸ r
  | fuel + 1, t, t', r, e => by
      obtain ⟨root, size⟩ := t
      cases root with
      | null =>
        simp only [clearLoop, Option.some.injEq] at e
        exact e ▸ r
      | node h v lt rt =>
        simp only [clearLoop] at e
        obtain ⟨t1, e1, e2⟩ := Option.bind_eq_some.1 e
        exact clearLoop_reachable fuel t1 t' (Reachable.remove _ t1 v r e1) e2

theorem clearLoop_isClear : ∀ (fuel : Nat) (t t' : AVLSearchTree),
    clearLoop fuel t = some t' → isClear t' = true
  | 0, t, t', e => by
      simp only [clearLoop] at e
      split_ifs at e with c
      rw [Option.some.injEq] at e
      exact e ▸ c
  | fuel + 1, t, t', e => by
      obtain ⟨root, size⟩ := t
      cases root with
      | null =>
        simp only [clearLoop, Option.some.injEq] at e
        subst e
        rfl
      | node h v lt rt =>
        simp only [clearLoop] at e
        obtain ⟨t1, -, e2⟩ := Option.bind_eq_some.1 e
        exact clearLoop_isClear fuel t1 t' e2

/-- The iteration budget of `clear` is never the reason for a `none`: any
budget of at least one iteration per node gives the same result. -/
theorem clearLoop_fuel : ∀ (fuel : Nat) (t : AVLSearchTree),
    numNodes t.root ≤ fuel → clearLoop fuel t = clear t
  | 0, t, le => by
      have : numNodes t.root = 0 := by omega
      rw [clear, this]
  | fuel + 1, t, le => by
      obtain ⟨root, size⟩ := t
      cases root with
      | null => rfl
      | node h v lt rt =>
        simp only [clear, numNodes, clearLoop]
        cases e : remove ⟨node h v lt rt, size⟩ v with
        | none => rfl
        | some t1 =>
          have nn := remove_numNodes _ t1 v e
          simp only [find, findNode_root, if_true, numNodes] at nn
          simp only [numNodes] at le
          simp only [Option.some_bind]
          have eq : numNodes t1.root = numNodes lt + numNodes rt := by omega
          rw [clearLoop_fuel fuel t1 (by omega), clear, eq]

theorem Reachable.size_eq {t : AVLSearchTree} (r : Reachable t) :
    t.size = numNodes t.root := by
  induction r with
  | empty => rfl
  | add t t' value _ e ih =>
    rw [add_size t t' value e, add_numNodes t t' value e, ih]
    push_cast
    rfl
  | remove t t' value _ e ih =>
    have h1 := remove_size t t' value e
    have h2 := remove_numNodes t t' value e
    rw [h1, ih, ← h2]
    split_ifs <;> push_cast <;> omega

theorem ReachableAll.reachable {t : AVLSearchTree} (r : ReachableAll t) : Reachable t := by
  induction r with
  | empty => exact Reachable.empty
  | construct value =>
    exact Reachable.add Avl.empty _ value Reachable.empty
      (by simp [Avl.add, Avl.construct, Avl.empty, sizeGuard_eq_true])
  | add t t' value _ e ih => exact Reachable.add t t' value ih e
  | remove t t' value _ e ih => exact Reachable.remove t t' value ih e
  | clear t t' _ e ih => exact clearLoop_reachable _ t t' ih e

/-- C11: in every tree reachable from the empty tree or from the one-value
constructor by `add`, `remove` and `clear` calls, `getSize()` equals the number
of nodes reachable from the root. -/
theorem getSize_eq_numNodes (t : AVLSearchTree) (r : ReachableAll t) :
    getSize t = numNodes t.root :=
  r.reachable.size_eq

/-- Witness for C11: the one-value constructor, an `add`, a `clear`, two more
`add`s and a `remove`. -/
theorem getSize_eq_numNodes_witness :
    ReachableAll ⟨node 0 6 null null, 1⟩ ∧
      getSize ⟨node 0 6 null null, 1⟩ = numNodes (node 0 6 null null) :=
  have r : ReachableAll ⟨node 0 6 null null, 1⟩ :=
    ReachableAll.remove ⟨node 1 5 null (node 0 6 null null), 2⟩ _ 5
      (ReachableAll.add ⟨node 0 5 null null, 1⟩ _ 6
        (ReachableAll.add ⟨null, 0⟩ _ 5
          (ReachableAll.clear ⟨node 1 7 null (node 0 8 null null), 2⟩ _
            (ReachableAll.add (construct 7) _ 8 (ReachableAll.construct 7) (by decide))
            (by decide))
          (by decide))
        (by decide))
      (by decide)
  ⟨r, getSize_eq_numNodes _ r⟩

theorem applyOp_reachable (t t' : AVLSearchTree) (op : Op) (r : Reachable t)
    (e : applyOp t op = some t') : Reachable t' := by
  cases op with
  | add value => exact Reachable.add t t' value r e
  | remove value => exact Reachable.remove t t' value r e

theorem runOps_reachable : ∀ (ops : List Op) (t t' : AVLSearchTree),
    Reachable t → runOps t ops = some t' → Reachable t'
  | [], t, t', r, e => by
      simp only [runOps, Option.some.injEq] at e
      exact e ▸ r
  | op :: ops, t, t', r, e => by
      simp only [runOps] at e
      obtain ⟨t1, e1, e2⟩ := Option.bind_eq_some.1 e
      exact runOps_reachable ops t1 t' (applyOp_reachable t t1 op r e1) e2

theorem remove_size_stored (t t' : AVLSearchTree) (value : Int) (r : Reachable t)
    (e : remove t value = some t') :
    getSize t' = getSize t - (if value ∈ traversalLNR t then 1 else 0) := by
  have h := remove_size t t' value e
  simp only [find_iff_mem t value r] at h
  exact h

theorem runOps_size : ∀ (ops : List Op) (t t' : AVLSearchTree),
    Reachable t → runOps t ops = some t' →
    getSize t' = getSize t + numAdds ops - numRemovesStored t ops
  | [], t, t', _, e => by
      simp only [runOps, Option.some.injEq] at e
      subst e
      simp [numAdds, numRemovesStored]
  | op :: ops, t, t', r, e => by
      simp only [runOps] at e
      obtain ⟨t1, e1, e2⟩ := Option.bind_eq_some.1 e
      have ih := runOps_size ops t1 t' (applyOp_reachable t t1 op r e1) e2
      cases op with
      | add value =>
        have h := add_size t t1 value e1
        simp only [getSize] at ih h ⊢
        simp only [numAdds, numRemovesStored, e1, ih, h]
        push_cast
        omega
      | remove value =>
        have h := remove_size_stored t t1 value r e1
        simp only [getSize] at ih h ⊢
        simp only [numAdds, numRemovesStored, e1, ih, h]
        split_ifs <;> push_cast <;> omega

/-- After any sequence of `add` and `remove` calls on an initially empty tree
that all complete, `getSize()` equals the number of `add` calls
minus the number of `remove` calls whose value was stored in the tree at the
time of the call; a further `add` increments the size by exactly 1 and a
further `remove` decrements it by exactly 1 if the value is stored and leaves
it as it is otherwise. -/
theorem getSize_after_ops (ops : List Op) (t : AVLSearchTree)
    (e : runOps empty ops = some t) :
    getSize t = (numAdds ops : Int) - numRemovesStored empty ops ∧
      (∀ value t', add t value = some t' → getSize t' = getSize t + 1) ∧
      (∀ value t', remove t value = some t' →
        getSize t' = getSize t - (if value ∈ traversalLNR t then 1 else 0)) := by
  have r := runOps_reachable ops empty t Reachable.empty e
  refine ⟨?_, fun value t' e' => add_size t t' value e',
    fun value t' e' => remove_size_stored t t' value r e'⟩
  have := runOps_size ops empty t Reachable.empty e
  simpa [getSize, empty] using this

/-- The calls `add 20, add 10, remove 15, add 10, remove 10` leave two nodes:
three `add`s, one `remove` of a stored value, one of an absent value. -/
theorem getSize_after_ops_witness :
    runOps empty [Op.add 20, Op.add 10, Op.remove 15, Op.add 10, Op.remove 10] =
        some ⟨node 1 20 (node 0 10 null null) null, 2⟩ ∧
      numAdds [Op.add 20, Op.add 10, Op.remove 15, Op.add 10, Op.remove 10] = 3 ∧
      numRemovesStored empty
        [Op.add 20, Op.add 10, Op.remove 15, Op.add 10, Op.remove 10] = 1 ∧
      getSize ⟨node 1 20 (node 0 10 null null) null, 2⟩ = 2 :=
  ⟨by decide, by decide, by decide,
    by
      have h := (getSize_after_ops
        [Op.add 20, Op.add 10, Op.remove 15, Op.add 10, Op.remove 10]
        ⟨node 1 20 (node 0 10 null null) null, 2⟩ (by decide)).1
      rw [h]
      decide⟩

/-- C12: after a sequence of `add` and `remove` calls on an initially empty
tree `getSize()` need not have a defined value.  The calls add 50, 30, 70, 20,
40, 60, 10, remove 50, remove 70 complete and `getSize()` is 5, the seven
`add` calls minus the two `remove` calls of a stored value.  The next call
`remove(60)` also names a stored value, so the count is 7 - 3 = 4; but the call
frees the root, decrements `size` and, because `4 > 2`, runs the unwinding
loop on the freed root, so the sequence has no defined result. -/
theorem getSize_after_ops_undefined :
    runOps empty [Op.add 50, Op.add 30, Op.add 70, Op.add 20, Op.add 40, Op.add 60,
          Op.add 10, Op.remove 50, Op.remove 70] =
        some ⟨node 3 60
          (node 2 30 (node 1 20 (node 0 10 null null) null) (node 0 40 null null))
          null, 5⟩ ∧
      (numAdds [Op.add 50, Op.add 30, Op.add 70, Op.add 20, Op.add 40, Op.add 60,
          Op.add 10, Op.remove 50, Op.remove 70] : Int) -
        numRemovesStored empty [Op.add 50, Op.add 30, Op.add 70, Op.add 20, Op.add 40, Op.add 60,
          Op.add 10, Op.remove 50, Op.remove 70] = 5 ∧
      60 ∈ traversalLNR ⟨node 3 60
          (node 2 30 (node 1 20 (node 0 10 null null) null) (node 0 40 null null))
          null, 5⟩ ∧
      (numAdds [Op.add 50, Op.add 30, Op.add 70, Op.add 20, Op.add 40, Op.add 60,
          Op.add 10, Op.remove 50, Op.remove 70, Op.remove 60] : Int) -
        numRemovesStored empty [Op.add 50, Op.add 30, Op.add 70, Op.add 20, Op.add 40, Op.add 60,
          Op.add 10, Op.remove 50, Op.remove 70, Op.remove 60] = 4 ∧
      runOps empty [Op.add 50, Op.add 30, Op.add 70, Op.add 20, Op.add 40, Op.add 60,
          Op.add 10, Op.remove 50, Op.remove 70, Op.remove 60] = none := by
  refine ⟨by decide, by decide, by decide, by decide, by decide⟩

/-! ## Searching -/

/-- C13: for every tree reachable from the empty tree by `add` and `remove`
calls and every value `v`, `find(v)` returns true if and only if `v` occurs
among the values produced by the in-order traversal. -/
theorem find_iff_traversalLNR (t : AVLSearchTree) (value : Int) (r : Reachable t) :
    find t value = true ↔ value ∈ traversalLNR t := by
  constructor
  · exact findNode_mem t.root value
  · exact mem_findNode t.root value r.sorted

/-- Witness for C13: the tree built by `add 10, 10, 10`, whose left subtree
holds a duplicate of the root. -/
theorem find_iff_traversalLNR_witness :
    Reachable ⟨node 1 10 (node 0 10 null null) (node 0 10 null null), 3⟩ ∧
      (find ⟨node 1 10 (node 0 10 null null) (node 0 10 null null), 3⟩ 10 = true ↔
        10 ∈ traversalLNR ⟨node 1 10 (node 0 10 null null) (node 0 10 null null), 3⟩) :=
  have r : Reachable ⟨node 1 10 (node 0 10 null null) (node 0 10 null null), 3⟩ :=
    Reachable.addAll [10, 10, 10] empty _ Reachable.empty (by decide)
  ⟨r, find_iff_traversalLNR _ 10 r⟩

theorem leftmostValue_head : ∀ (l : Node) (v : Int) (r : Node) (h : Int),
    (print_LNR (node h v l r)).head? = some (leftmostValue v l)
  | null, v, r, h => by simp [print_LNR, leftmostValue]
  | node hl vl ll lr, v, r, h => by
      have ih := leftmostValue_head ll vl lr hl
      rw [print_LNR, List.head?_append_of_ne_nil _ (by simp [print_LNR]), ih]
      rfl

theorem rightmostValue_getLast : ∀ (r : Node) (v : Int) (l : Node) (h : Int),
    (print_LNR (node h v l r)).getLast? = some (rightmostValue v r)
  | null, v, l, h => by simp [print_LNR, rightmostValue]
  | node hr vr rl rr, v, l, h => by
      have ih := rightmostValue_getLast rr vr rl hr
      have e : print_LNR (node h v l (node hr vr rl rr)) =
          (print_LNR l ++ [v]) ++ print_LNR (node hr vr rl rr) := by
        simp [print_LNR]
      rw [e, List.getLast?_append_of_ne_nil _ (by simp [print_LNR]), ih]
      rfl

/-- C14: for every non-empty tree reachable by `add` and `remove` calls,
`findMin()` returns the first element of the in-order traversal, which is a
stored value not larger than any stored value, and `findMax()` returns the
last element, a stored value not smaller than any stored value. -/
theorem findMin_findMax (t : AVLSearchTree) (r : Reachable t) (ne : isClear t = false) :
    (traversalLNR t).head? = some (findMin t) ∧
      (traversalLNR t).getLast? = some (findMax t) ∧
      findMin t ∈ traversalLNR t ∧ findMax t ∈ traversalLNR t ∧
      ∀ x ∈ traversalLNR t, findMin t ≤ x ∧ x ≤ findMax t := by
  obtain ⟨root, size⟩ := t
  cases root with
  | null => simp [isClear] at ne
  | node h v lt rt =>
    have s := r.sorted
    have e1 : (traversalLNR ⟨node h v lt rt, size⟩).head? =
        some (findMin ⟨node h v lt rt, size⟩) := leftmostValue_head lt v rt h
    have e2 : (traversalLNR ⟨node h v lt rt, size⟩).getLast? =
        some (findMax ⟨node h v lt rt, size⟩) := rightmostValue_getLast rt v lt h
    generalize traversalLNR ⟨node h v lt rt, size⟩ = xs at s e1 e2
    generalize findMin ⟨node h v lt rt, size⟩ = lo at e1
    generalize findMax ⟨node h v lt rt, size⟩ = hi at e2
    have m1 : lo ∈ xs := List.mem_of_mem_head? e1
    have m2 : hi ∈ xs := List.mem_of_mem_getLast? e2
    refine ⟨e1, e2, m1, m2, fun x hx => ⟨?_, ?_⟩⟩
    · cases xs with
      | nil => simp at hx
      | cons a as =>
        simp only [List.head?_cons, Option.some.injEq] at e1
        subst e1
        rcases List.mem_cons.1 hx with rfl | hx
        · exact le_refl _
        · exact List.rel_of_sorted_cons s x hx
    · have s' : List.Sorted (· ≥ ·) xs.reverse := by
        simpa [List.Sorted, List.pairwise_reverse] using s
      have e3 : xs.reverse.head? = some hi := by rw [List.head?_reverse]; exact e2
      have hx' : x ∈ xs.reverse := List.mem_reverse.2 hx
      generalize xs.reverse = ys at s' e3 hx'
      cases ys with
      | nil => simp at hx'
      | cons a as =>
        simp only [List.head?_cons, Option.some.injEq] at e3
        subst e3
        rcases List.mem_cons.1 hx' with rfl | hx'
        · exact le_refl _
        · exact List.rel_of_sorted_cons s' x hx'

/-- Witness for C14: the tree built by `add 20, 10, 30, 25`. -/
theorem findMin_findMax_witness :
    findMin ⟨node 2 20 (node 0 10 null null) (node 1 30 (node 0 25 null null) null), 4⟩ = 10 ∧
      findMax ⟨node 2 20 (node 0 10 null null) (node 1 30 (node 0 25 null null) null), 4⟩
        = 30 ∧
      (traversalLNR
          ⟨node 2 20 (node 0 10 null null) (node 1 30 (node 0 25 null null) null), 4⟩).head?
        = some (findMin
          ⟨node 2 20 (node 0 10 null null) (node 1 30 (node 0 25 null null) null), 4⟩) ∧
      (traversalLNR
          ⟨node 2 20 (node 0 10 null null) (node 1 30 (node 0 25 null null) null), 4⟩).getLast?
        = some (findMax
          ⟨node 2 20 (node 0 10 null null) (node 1 30 (node 0 25 null null) null), 4⟩) :=
  have h := findMin_findMax
    ⟨node 2 20 (node 0 10 null null) (node 1 30 (node 0 25 null null) null), 4⟩
    (Reachable.addAll [20, 10, 30, 25] empty _ Reachable.empty (by decide)) (by decide)
  ⟨by decide, by decide, h.1, h.2.1⟩

/-- C15 as stated fails: on an empty tree `findMin()` and `findMax()` return
`NULL`, which as an integer is 0, the same result as on the reachable one-node
tree that stores 0. -/
theorem findMin_empty_counterexample :
    findMin empty = 0 ∧ findMax empty = 0 ∧
      add empty 0 = some ⟨node 0 0 null null, 1⟩ ∧
      findMin ⟨node 0 0 null null, 1⟩ = findMin empty ∧
      findMax ⟨node 0 0 null null, 1⟩ = findMax empty :=
  ⟨by decide, by decide, by decide, by decide, by decide⟩

/-- C15 amended: on an empty tree `findMin()` and `findMax()` return `NULL`
converted to the element type, which is the placeholder 0. -/
theorem findMin_findMax_empty (t : AVLSearchTree) (e : isClear t = true) :
    findMin t = 0 ∧ findMax t = 0 := by
  obtain ⟨root, size⟩ := t
  cases root with
  | null => exact ⟨rfl, rfl⟩
  | node h v l r => simp [isClear] at e

/-- Witness for C15 amended: the default-constructed tree. -/
theorem findMin_findMax_empty_witness :
    isClear empty = true ∧ findMin empty = 0 ∧ findMax empty = 0 :=
  ⟨by decide, findMin_findMax_empty empty (by decide)⟩

/-! ## Rotation cases on three values -/

theorem add_second_left (x y : Int) (h : x > y) :
    add ⟨node 0 x null null, 1⟩ y = some ⟨node 1 x (node 0 y null null) null, 2⟩ := by
  simp only [add, addNode, if_pos h]
  rfl

theorem add_second_right (x y : Int) (h : ¬ x > y) :
    add ⟨node 0 x null null, 1⟩ y = some ⟨node 1 x null (node 0 y null null), 2⟩ := by
  simp only [add, addNode, if_neg h]
  rfl

theorem add_third_middle_left (x y z : Int) (h : x > z) :
    add ⟨node 1 x null (node 0 y null null), 2⟩ z =
      some ⟨node 1 x (node 0 z null null) (node 0 y null null), 3⟩ := by
  simp only [add, addNode, if_pos h]
  rfl

theorem add_third_middle_right (x y z : Int) (h : ¬ x > z) :
    add ⟨node 1 x (node 0 y null null) null, 2⟩ z =
      some ⟨node 1 x (node 0 y null null) (node 0 z null null), 3⟩ := by
  simp only [add, addNode, if_neg h]
  rfl

theorem add_third_RR (x y z : Int) (h1 : ¬ x > z) (h2 : ¬ y > z) :
    add ⟨node 1 x null (node 0 y null null), 2⟩ z =
      some ⟨node 1 y (node 0 x null null) (node 0 z null null), 3⟩ := by
  simp only [add, addNode, if_neg h1, if_neg h2]
  rfl

theorem add_third_RL (x y z : Int) (h1 : ¬ x > z) (h2 : y > z) :
    add ⟨node 1 x null (node 0 y null null), 2⟩ z =
      some ⟨node 1 z (node 0 x null null) (node 0 y null null), 3⟩ := by
  simp only [add, addNode, if_neg h1, if_pos h2]
  rfl

theorem add_third_LL (x y z : Int) (h1 : x > z) (h2 : y > z) :
    add ⟨node 1 x (node 0 y null null) null, 2⟩ z =
      some ⟨node 1 y (node 0 z null null) (node 0 x null null), 3⟩ := by
  simp only [add, addNode, if_pos h1, if_pos h2]
  rfl

theorem add_third_LR (x y z : Int) (h1 : x > z) (h2 : ¬ y > z) :
    add ⟨node 1 x (node 0 y null null) null, 2⟩ z =
      some ⟨node 1 z (node 0 y null null) (node 0 x null null), 3⟩ := by
  simp only [add, addNode, if_pos h1, if_neg h2]
  rfl

/-- C16: for any three values `a < b < c` added to an empty tree in any of the
six possible orders, every `add` completes and the resulting tree has root
`b` with cached height 1, left child the leaf `a`, right child the leaf `c`,
and size 3. -/
theorem add_three (a b c : Int) (h1 : a < b) (h2 : b < c) :
    addAll empty [a, b, c] = some ⟨node 1 b (node 0 a null null) (node 0 c null null), 3⟩ ∧
    addAll empty [a, c, b] = some ⟨node 1 b (node 0 a null null) (node 0 c null null), 3⟩ ∧
    addAll empty [b, a, c] = some ⟨node 1 b (node 0 a null null) (node 0 c null null), 3⟩ ∧
    addAll empty [b, c, a] = some ⟨node 1 b (node 0 a null null) (node 0 c null null), 3⟩ ∧
    addAll empty [c, a, b] = some ⟨node 1 b (node 0 a null null) (node 0 c null null), 3⟩ ∧
    addAll empty [c, b, a] = some ⟨node 1 b (node 0 a null null) (node 0 c null null), 3⟩ := by
  have e0 : ∀ x : Int, add empty x = some ⟨node 0 x null null, 1⟩ := fun x => rfl
  refine ⟨?_, ?_, ?_, ?_, ?_, ?_⟩
  · simp only [addAll, e0, Option.some_bind]
    rw [add_second_right a b (by omega), Option.some_bind,
      add_third_RR a b c (by omega) (by omega), Option.some_bind]
  · simp only [addAll, e0, Option.some_bind]
    rw [add_second_right a c (by omega), Option.some_bind,
      add_third_RL a c b (by omega) (by omega), Option.some_bind]
  · simp only [addAll, e0, Option.some_bind]
    rw [add_second_left b a (by omega), Option.some_bind,
      add_third_middle_right b a c (by omega), Option.some_bind]
  · simp only [addAll, e0, Option.some_bind]
    rw [add_second_right b c (by omega), Option.some_bind,
      add_third_middle_left b c a (by omega), Option.some_bind]
  · simp only [addAll, e0, Option.some_bind]
    rw [add_second_left c a (by omega), Option.some_bind,
      add_third_LR c a b (by omega) (by omega), Option.some_bind]
  · simp only [addAll, e0, Option.some_bind]
    rw [add_second_left c b (by omega), Option.some_bind,
      add_third_LL c b a (by omega) (by omega), Option.some_bind]

/-- Witness for C16: the values 10, 20, 30. -/
theorem add_three_witness :
    addAll empty [10, 20, 30] =
        some ⟨node 1 20 (node 0 10 null null) (node 0 30 null null), 3⟩ ∧
      addAll empty [30, 20, 10] =
        some ⟨node 1 20 (node 0 10 null null) (node 0 30 null null), 3⟩ ∧
      addAll empty [30, 10, 20] =
        some ⟨node 1 20 (node 0 10 null null) (node 0 30 null null), 3⟩ :=
  have h := add_three 10 20 30 (by decide) (by decide)
  ⟨h.1, h.2.2.2.2.2, h.2.2.2.2.1⟩

/-! ## Removing a node with two children, and `clear` -/

/-- C17: adding 20, 10, 30, 25 in that order to an empty tree and then calling
`remove(20)` gives a tree whose root holds 25, whose in-order traversal is
`[10, 25, 30]`, whose size is 3, and in which every node satisfies
`|height(right) - height(left)| <= 1`, both with true structural heights and
with the cached heights `getBalance` reads. -/
theorem remove_two_children_example :
    addAll empty [20, 10, 30, 25] =
        some ⟨node 2 20 (node 0 10 null null) (node 1 30 (node 0 25 null null) null), 4⟩ ∧
      remove ⟨node 2 20 (node 0 10 null null) (node 1 30 (node 0 25 null null) null), 4⟩ 20 =
        some ⟨node 2 25 (node 0 10 null null) (node 1 30 null null), 3⟩ ∧
      traversalLNR ⟨node 2 25 (node 0 10 null null) (node 1 30 null null), 3⟩ =
        [10, 25, 30] ∧
      getSize ⟨node 2 25 (node 0 10 null null) (node 1 30 null null), 3⟩ = 3 ∧
      Balanced (node 2 25 (node 0 10 null null) (node 1 30 null null)) ∧
      BalancedCached (node 2 25 (node 0 10 null null) (node 1 30 null null)) := by
  refine ⟨by decide, by decide, by decide, by decide, ?_, ?_⟩
  · simp [Balanced, height]
  · simp [BalancedCached, getBalance, getHeight]

/-- C18: `clear()` on a tree built by `add` calls alone can fail to complete.
After `add 5, 3, 7, 2, 4, 6, 1` (no rotation happens) the first iteration,
`remove(5)`, moves 6 into the root and leaves node 7 with a stale cached
height; the second, `remove(6)`, moves 7 into the root, whose cached balance
becomes -3 and is not repaired; the third, `remove(7)`, frees the root, which
has a left child only, sets `size` to 4 and runs the unwinding loop on the
freed node. -/
theorem clear_use_after_free :
    addAll empty [5, 3, 7, 2, 4, 6, 1] =
        some ⟨node 3 5
          (node 2 3 (node 1 2 (node 0 1 null null) null) (node 0 4 null null))
          (node 1 7 (node 0 6 null null) null), 7⟩ ∧
      remove ⟨node 3 5
          (node 2 3 (node 1 2 (node 0 1 null null) null) (node 0 4 null null))
          (node 1 7 (node 0 6 null null) null), 7⟩ 5 =
        some ⟨node 3 6
          (node 2 3 (node 1 2 (node 0 1 null null) null) (node 0 4 null null))
          (node 1 7 null null), 6⟩ ∧
      remove ⟨node 3 6
          (node 2 3 (node 1 2 (node 0 1 null null) null) (node 0 4 null null))
          (node 1 7 null null), 6⟩ 6 =
        some ⟨node 3 7
          (node 2 3 (node 1 2 (node 0 1 null null) null) (node 0 4 null null))
          null, 5⟩ ∧
      remove ⟨node 3 7
          (node 2 3 (node 1 2 (node 0 1 null null) null) (node 0 4 null null))
          null, 5⟩ 7 = none ∧
      clear ⟨node 3 5
          (node 2 3 (node 1 2 (node 0 1 null null) null) (node 0 4 null null))
          (node 1 7 (node 0 6 null null) null), 7⟩ = none :=
  ⟨by decide, by decide, by decide, by decide, by decide⟩

/-! ## Traversal orders -/

theorem print_RNL_eq_reverse : ∀ n : Node, print_RNL n = (print_LNR n).reverse
  | null => rfl
  | node _ v l r => by
      simp [print_RNL, print_LNR, print_RNL_eq_reverse l, print_RNL_eq_reverse r]

/-- C19: for every tree, the sequence produced by the reverse-in-order
traversal `traversalRNL` is exactly the reverse of the sequence produced by
the in-order traversal `traversalLNR`. -/
theorem traversalRNL_eq_reverse (t : AVLSearchTree) :
    traversalRNL t = (traversalLNR t).reverse :=
  print_RNL_eq_reverse t.root

/-! ## Logarithmic height -/

theorem height_eq_heightNat : ∀ n : Node, height n = (heightNat n : Int) - 1
  | null => rfl
  | node _ _ l r => by
      simp only [height, heightNat, height_eq_heightNat l, height_eq_heightNat r]
      push_cast
      omega

theorem fib_le_numNodes : ∀ n : Node, Balanced n →
    Nat.fib (heightNat n + 2) ≤ numNodes n + 1
  | null, _ => by simp [heightNat, numNodes]
  | node _ _ l r, ⟨b1, b2, bl, br⟩ => by
      have il := fib_le_numNodes l bl
      have ir := fib_le_numNodes r br
      rw [height_eq_heightNat l, height_eq_heightNat r] at b1 b2
      simp only [heightNat, numNodes]
      rcases le_total (heightNat l) (heightNat r) with c | c
      · have e : Nat.fib (heightNat r + 3) =
            Nat.fib (heightNat r + 1) + Nat.fib (heightNat r + 2) := Nat.fib_add_two
        have m : Nat.fib (heightNat r + 1) ≤ Nat.fib (heightNat l + 2) :=
          Nat.fib_mono (by omega)
        rw [max_eq_right c]
        show Nat.fib (heightNat r + 3) ≤ _
        omega
      · have e : Nat.fib (heightNat l + 3) =
            Nat.fib (heightNat l + 1) + Nat.fib (heightNat l + 2) := Nat.fib_add_two
        have m : Nat.fib (heightNat l + 1) ≤ Nat.fib (heightNat r + 2) :=
          Nat.fib_mono (by omega)
        rw [max_eq_left c]
        show Nat.fib (heightNat l + 3) ≤ _
        omega

theorem findSteps_le_heightNat : ∀ (n : Node) (value : Int),
    findSteps n value ≤ heightNat n
  | null, _ => le_refl _
  | node _ v l r, value => by
      have il := findSteps_le_heightNat l value
      have ir := findSteps_le_heightNat r value
      simp only [findSteps, heightNat]
      split_ifs <;> omega

theorem two_pow_half_le_fib : ∀ k : Nat, 2 ^ (k / 2) ≤ Nat.fib (k + 2)
  | 0 => by decide
  | 1 => by decide
  | k + 2 => by
      have ih := two_pow_half_le_fib k
      have e : (k + 2) / 2 = k / 2 + 1 := by omega
      have m : Nat.fib (k + 2) ≤ Nat.fib (k + 3) := Nat.fib_mono (by omega)
      have f : Nat.fib (k + 4) = Nat.fib (k + 2) + Nat.fib (k + 3) := Nat.fib_add_two
      rw [e, pow_succ]
      show _ ≤ Nat.fib (k + 4)
      omega

theorem heightNat_le_log (n : Node) (b : Balanced n) :
    heightNat n ≤ 2 * Nat.log 2 (numNodes n + 1) + 1 := by
  have h1 := fib_le_numNodes n b
  have h2 := two_pow_half_le_fib (heightNat n)
  have h3 : heightNat n / 2 ≤ Nat.log 2 (numNodes n + 1) :=
    Nat.le_log_of_pow_le (by decide) (le_trans h2 h1)
  omega

/-- C20: for every tree built from the empty tree by `add` calls alone, with
`n = getSize()` and `h` the height of the root (-1 for the empty tree, 0 for a
single node; the cached and the true height agree), `Fib(h + 3) <= n + 1`
where `Fib(1) = Fib(2) = 1`; hence `find` visits at most `h + 1` nodes, which
is at most `2 * log2(n + 1) + 1`. -/
theorem add_height_logarithmic (xs : List Int) (value : Int) :
    ∃ t, addAll empty xs = some t ∧
      getHeight t.root = height t.root ∧
      (Nat.fib (height t.root + 3).toNat : Int) ≤ getSize t + 1 ∧
      (findSteps t.root value : Int) ≤ height t.root + 1 ∧
      findSteps t.root value ≤ 2 * Nat.log 2 ((getSize t).toNat + 1) + 1 := by
  obtain ⟨t, e, hk, b⟩ := addAll_spec xs empty trivial trivial
  have sz : t.size = numNodes t.root :=
    (Reachable.addAll xs empty t Reachable.empty e).size_eq
  have hn := height_eq_heightNat t.root
  have e1 : (height t.root + 3).toNat = heightNat t.root + 2 := by omega
  have fs := findSteps_le_heightNat t.root value
  refine ⟨t, e, HeightOK_getHeight t.root hk, ?_, ?_, ?_⟩
  · rw [e1, getSize, sz]
    exact_mod_cast fib_le_numNodes t.root b
  · omega
  · rw [getSize, sz, Int.toNat_ofNat]
    exact le_trans fs (heightNat_le_log t.root b)

/-! ## Rotations and `balance` on their own -/

/-- C28: for every node that has a left child, `rightRotate(node)` completes
and leaves the in-order sequence of the subtree rooted at the node unchanged,
and for every node that has a right child `leftRotate(node)` does likewise;
no value is added or dropped. -/
theorem rotate_print_LNR (h v h1 v1 : Int) (a b c : Node) :
    (∃ n', rightRotate (node h v (node h1 v1 a b) c) = some n' ∧
      print_LNR n' = print_LNR (node h v (node h1 v1 a b) c)) ∧
    (∃ n', leftRotate (node h v a (node h1 v1 b c)) = some n' ∧
      print_LNR n' = print_LNR (node h v a (node h1 v1 b c))) :=
  ⟨⟨_, rfl, print_LNR_rightRotate _ _ rfl⟩, ⟨_, rfl, print_LNR_leftRotate _ _ rfl⟩⟩

theorem rightRotate_height (h h' v : Int) (l r : Node) :
    rightRotate (node h v l r) = rightRotate (node h' v l r) := by
  cases l <;> rfl

theorem leftRotate_height (h h' v : Int) (l r : Node) :
    leftRotate (node h v l r) = leftRotate (node h' v l r) := by
  cases r <;> rfl

theorem balance_eq_unwindStep (h v : Int) (l r : Node)
    (c : getHeight r - getHeight l = -2 ∨ getHeight r - getHeight l = 2) :
    balance (node h v l r) = unwindStep (node h v l r) := by
  have g : ∀ k : Int, getBalance (node k v l r) = getHeight r - getHeight l := fun _ => rfl
  simp only [unwindStep, updateHeight, balance, g]
  rcases c with c | c
  · rw [if_pos c, if_pos c]
    congr 1
    funext l'
    exact rightRotate_height _ _ v l' r
  · have c' : ¬ getHeight r - getHeight l = -2 := by omega
    rw [if_neg c', if_pos c, if_neg c', if_pos c]
    congr 1
    funext r'
    exact leftRotate_height _ _ v l r'

/-- C29: for every node whose left and right subtrees satisfy height
correctness and `|balance| <= 1` at all their nodes and whose own balance
factor `height(right) - height(left)` is exactly -2 or +2, `balance(node)`
completes and produces a subtree with the same in-order sequence in which
every node satisfies height correctness and `|balance| <= 1`; the balance
factor of the heavy child may be -1, 0 or 1. -/
theorem balance_restores (h v : Int) (l r : Node)
    (hl : HeightOK l) (bl : Balanced l) (hr : HeightOK r) (br : Balanced r)
    (c : height r - height l = -2 ∨ height r - height l = 2) :
    ∃ n', balance (node h v l r) = some n' ∧
      print_LNR n' = print_LNR (node h v l r) ∧ HeightOK n' ∧ Balanced n' := by
  have e : balance (node h v l r) = unwindStep (node h v l r) :=
    balance_eq_unwindStep h v l r
      (by rw [HeightOK_getHeight l hl, HeightOK_getHeight r hr]; exact c)
  obtain ⟨n', p1, p2, p3, -⟩ :=
    unwindStep_spec h v l r hl bl hr br (by omega) (by omega)
  exact ⟨n', e.trans p1, print_LNR_unwindStep _ _ p1, p2, p3⟩

/-- Witness for C29: a left-heavy node whose left child has balance 0. -/
theorem balance_restores_witness :
    ∃ n', balance (node 3 40
        (node 1 20 (node 0 10 null null) (node 0 30 null null)) null) = some n' ∧
      print_LNR n' = print_LNR (node 3 40
        (node 1 20 (node 0 10 null null) (node 0 30 null null)) null) ∧
      HeightOK n' ∧ Balanced n' :=
  balance_restores 3 40 (node 1 20 (node 0 10 null null) (node 0 30 null null)) null
    (by simp [HeightOK, height]) (by simp [Balanced, height]) trivial trivial
    (by simp [height])

/-! ## Removing a node with at most one child from a valid tree -/

theorem sorted_of_BSTOrderWeak : ∀ n : Node,
    BSTOrderWeak n → List.Sorted (· ≤ ·) (print_LNR n)
  | null, _ => by simp [print_LNR]
  | node _ v l r, ⟨o1, o2, ol, or'⟩ => by
      simp only [print_LNR, List.Sorted, List.pairwise_append, List.pairwise_cons,
        List.mem_cons, forall_eq_or_imp]
      refine ⟨sorted_of_BSTOrderWeak l ol, ⟨o2, sorted_of_BSTOrderWeak r or'⟩, ?_⟩
      intro a ha
      exact ⟨o1 a ha, fun b hb => le_trans (o1 a ha) (o2 b hb)⟩

theorem numNodes_le_one_of_height_le_zero (n : Node) (h : height n ≤ 0) :
    numNodes n ≤ 1 := by
  cases n with
  | null => simp [numNodes]
  | node _ _ l r =>
    have hl := height_ge l
    have hr := height_ge r
    simp only [height] at h
    cases l with
    | node _ _ a b =>
      have := height_ge a
      simp only [height] at h hl
      omega
    | null =>
      cases r with
      | node _ _ a b =>
        have := height_ge a
        simp only [height] at h hr
        omega
      | null => simp [numNodes]

theorem height_node_nonneg (h v : Int) (l r : Node) : 0 ≤ height (node h v l r) := by
  have := height_ge l
  simp only [height]
  omega

theorem unwindStep_valid (n : Node) (hh : HeightOK n) (hb : Balanced n) :
    ∃ n', unwindStep n = some n' ∧ HeightOK n' ∧ Balanced n' := by
  cases n with
  | null => exact ⟨null, rfl, trivial, trivial⟩
  | node h v l r =>
    obtain ⟨n', p1, p2, p3, -⟩ :=
      unwindStep_spec h v l r hh.2.1 hb.2.2.1 hh.2.2 hb.2.2.2
        (by have := hb.1; omega) (by have := hb.2.1; omega)
    exact ⟨n', p1, p2, p3⟩

theorem removeNode_spec : ∀ (n : Node) (value : Int), HeightOK n → Balanced n →
    removedHasAtMostOneChild n value = true →
    ∃ n', removeNode true n value = some n' ∧ HeightOK n' ∧ Balanced n' ∧
      height n - 1 ≤ height n' ∧ height n' ≤ height n
  | null, _, _, _, c => by simp [removedHasAtMostOneChild] at c
  | node h v l r, value, ⟨e, hl, hr⟩, ⟨b1, b2, bl, br⟩, c => by
      simp only [removedHasAtMostOneChild] at c
      simp only [removeNode]
      split_ifs at c ⊢ with c1 c2
      · have e0 : height null = -1 := rfl
        have e1 : height (node h v l r) = max (height l) (height r) + 1 := rfl
        cases l with
        | null =>
          cases r with
          | null => exact ⟨null, rfl, trivial, trivial, by simp [height], by simp [height]⟩
          | node hr' vr rl rr =>
            have g := height_node_nonneg hr' vr rl rr
            refine ⟨node hr' vr rl rr, rfl, hr, br, ?_, ?_⟩ <;> omega
        | node hl' vl ll lr =>
          cases r with
          | null =>
            have g := height_node_nonneg hl' vl ll lr
            refine ⟨node hl' vl ll lr, rfl, hl, bl, ?_, ?_⟩ <;> omega
          | node hr' vr rl rr => simp at c
      · obtain ⟨l', q1, q2, q3, q4, q5⟩ := removeNode_spec l value hl bl c
        obtain ⟨n', p1, p2, p3, p4, p5, p6⟩ :=
          unwindStep_spec h v l' r q2 q3 hr br (by omega) (by omega)
        refine ⟨n', by rw [q1]; exact p1, p2, p3, ?_⟩
        simp only [height]
        constructor <;> omega
      · obtain ⟨r', q1, q2, q3, q4, q5⟩ := removeNode_spec r value hr br c
        obtain ⟨n', p1, p2, p3, p4, p5, p6⟩ :=
          unwindStep_spec h v l r' hl bl q2 q3 (by omega) (by omega)
        refine ⟨n', by rw [q1]; exact p1, p2, p3, ?_⟩
        simp only [height]
        constructor <;> omega

/-- C30: for every tree with more than 3 nodes (and `size` equal to the node
count) that satisfies non-strict BST order, height correctness and
`|balance| <= 1` at every node, and every stored value whose node (the first
one met on the descent) has at most one child, `remove` completes and the tree
afterwards again satisfies non-strict BST order, height correctness and
`|balance| <= 1` at every node. -/
theorem remove_at_most_one_child (t : AVLSearchTree) (value : Int)
    (hs : t.size = numNodes t.root) (h3 : 3 < numNodes t.root)
    (ho : BSTOrderWeak t.root) (hh : HeightOK t.root) (hb : Balanced t.root)
    (hm : value ∈ traversalLNR t) (hc : removedHasAtMostOneChild t.root value = true) :
    ∃ t', remove t value = some t' ∧
      BSTOrderWeak t'.root ∧ HeightOK t'.root ∧ Balanced t'.root := by
  have srt := sorted_of_BSTOrderWeak t.root ho
  have f : findNode t.root value = true := mem_findNode t.root value srt hm
  have key : ∃ t', remove t value = some t' ∧ HeightOK t'.root ∧ Balanced t'.root := by
    obtain ⟨root, size⟩ := t
    cases root with
    | null => simp [findNode] at f
    | node h v l r =>
      have fx : decide (size - 1 > 2) = true := by
        simp only [decide_eq_true_eq]
        simp only at hs h3
        omega
      simp only [remove, f, Bool.true_eq_false, if_false, fx, if_true]
      by_cases c1 : v = value
      · exfalso
        simp only [removedHasAtMostOneChild, if_pos c1] at hc
        have e0 : height null = -1 := rfl
        cases l with
        | null =>
          have := numNodes_le_one_of_height_le_zero r (by have := hb.1; omega)
          simp only [numNodes] at h3
          omega
        | node hl vl ll lr =>
          cases r with
          | null =>
            have := numNodes_le_one_of_height_le_zero (node hl vl ll lr)
              (by have := hb.2.1; omega)
            simp only [numNodes] at h3 this
            omega
          | node hr vr rl rr => simp at hc
      · rw [if_neg c1]
        obtain ⟨n1, p1, p2, p3, -⟩ := removeNode_spec (node h v l r) value hh hb hc
        obtain ⟨n2, q1, q2, q3⟩ := unwindStep_valid n1 p2 p3
        exact ⟨⟨n2, size - 1⟩, by rw [p1]; simp [q1], q2, q3⟩
  obtain ⟨t', e, k1, k2⟩ := key
  refine ⟨t', e, BSTOrderWeak_of_sorted t'.root ?_, k1, k2⟩
  exact List.Pairwise.sublist (remove_sublist t t' value e) srt

/-- Witness for C30: removing the leaf 10 from the tree built by
`add 20, 10, 30, 25`. -/
theorem remove_at_most_one_child_witness :
    ∃ t', remove
        ⟨node 2 20 (node 0 10 null null) (node 1 30 (node 0 25 null null) null), 4⟩ 10 =
          some t' ∧
      BSTOrderWeak t'.root ∧ HeightOK t'.root ∧ Balanced t'.root :=
  remove_at_most_one_child
    ⟨node 2 20 (node 0 10 null null) (node 1 30 (node 0 25 null null) null), 4⟩ 10
    (by decide) (by decide) (by simp [BSTOrderWeak, print_LNR])
    (by simp [HeightOK, height]) (by simp [Balanced, height]) (by decide) (by decide)

end Avl

/-! ## Set: membership, `add` and `remove` -/

namespace ArraySet

theorem elems_eq (s : Set) (w : WellFormed s) : elems s = s.arr := by
  unfold elems
  rw [w, Int.toNat_ofNat]
  exact List.take_length _

theorem findFrom_iff (value : Int) : ∀ l : List Int, findFrom value l = true ↔ value ∈ l
  | [] => by simp [findFrom]
  | a :: as => by
      simp only [findFrom, List.mem_cons]
      split_ifs with c
      · simp [c]
      · rw [findFrom_iff value as]
        constructor
        · exact Or.inr
        · rintro (h | h)
          · exact absurd h.symm c
          · exact h

theorem find_iff (s : Set) (value : Int) (w : WellFormed s) :
    find s value = true ↔ value ∈ s.arr := by
  rw [find, elems_eq s w, findFrom_iff]

theorem findIndexFrom_eq (value : Int) : ∀ (l : List Int) (i : Int),
    findIndexFrom value l i = if value ∈ l then i + (l.indexOf value : Int) else -1
  | [], i => by simp [findIndexFrom]
  | a :: as, i => by
      simp only [findIndexFrom, List.mem_cons]
      by_cases c : a = value
      · simp [c]
      · have c' : ¬ value = a := fun h => c h.symm
        rw [if_neg c, findIndexFrom_eq value as (i + 1), List.indexOf_cons_ne _ c]
        simp only [c', false_or]
        split_ifs
        · push_cast
          omega
        · rfl

theorem findIndex_eq (s : Set) (value : Int) (w : WellFormed s) :
    findIndex s value = if value ∈ s.arr then (s.arr.indexOf value : Int) else -1 := by
  rw [findIndex, elems_eq s w, findIndexFrom_eq]
  simp

theorem findIndex_absent (s : Set) (value : Int) (w : WellFormed s) :
    findIndex s value = -1 ↔ value ∉ s.arr := by
  rw [findIndex_eq s value w]
  split_ifs with c
  · constructor
    · intro h
      exact h.elim
    · intro h; exact absurd c h
  · exact ⟨fun _ => c, fun _ => rfl⟩

theorem add_eq (s : Set) (value : Int) (w : WellFormed s) (cap : s.size ≠ max_size) :
    add s value =
      if value ∈ s.arr then (false, s) else (true, ⟨s.size + 1, s.arr ++ [value]⟩) := by
  unfold add
  rw [if_neg cap, elems_eq s w]
  by_cases c : value ∈ s.arr
  · rw [if_neg (fun h => (findIndex_absent s value w).1 h c), if_pos c]
  · rw [if_pos ((findIndex_absent s value w).2 c), if_neg c]

theorem add_full (s : Set) (value : Int) (cap : s.size = max_size) :
    add s value = (false, s) := by
  unfold add
  rw [if_pos cap]

theorem add_wellFormed (s : Set) (value : Int) (w : WellFormed s) :
    WellFormed (add s value).2 := by
  by_cases cap : s.size = max_size
  · rw [add_full s value cap]; exact w
  · rw [add_eq s value w cap]
    split_ifs
    · exact w
    · simp only [WellFormed, List.length_append, List.length_singleton] at w ⊢
      rw [w]
      push_cast
      rfl

theorem add_nodup (s : Set) (value : Int) (w : WellFormed s) (d : s.arr.Nodup) :
    (add s value).2.arr.Nodup := by
  by_cases cap : s.size = max_size
  · rw [add_full s value cap]; exact d
  · rw [add_eq s value w cap]
    split_ifs with c
    · exact d
    · exact List.Nodup.append d (List.nodup_singleton _) (by simpa using c)

theorem remove_eq (s : Set) (value : Int) (w : WellFormed s) :
    remove s value =
      if value ∈ s.arr then
        (true, ⟨s.size - 1, s.arr.eraseIdx (s.arr.indexOf value)⟩)
      else (false, s) := by
  unfold remove
  simp only [findIndex_eq s value w]
  by_cases c : value ∈ s.arr
  · have k := List.indexOf_lt_length.2 c
    simp only [if_pos c]
    have e1 : ((List.indexOf value s.arr : Int) + 1).toNat = List.indexOf value s.arr + 1 := by
      omega
    have e2 : (s.size - ((List.indexOf value s.arr : Int) + 1)).toNat =
        s.arr.length - (List.indexOf value s.arr + 1) := by
      rw [w]; omega
    have e3 : ((List.indexOf value s.arr : Int)).toNat = List.indexOf value s.arr := by omega
    have t1 : (s.arr.drop (List.indexOf value s.arr + 1)).take
        (s.arr.length - (List.indexOf value s.arr + 1)) =
        s.arr.drop (List.indexOf value s.arr + 1) :=
      List.take_of_length_le (by simp)
    rw [if_pos (by simp), e1, e2, e3, t1, List.eraseIdx_eq_take_drop_succ]
    split_ifs with c1 c2 c3
    · have : s.arr.length = 1 := by rw [w] at c1; exact_mod_cast c1
      have z : List.indexOf value s.arr = 0 := by omega
      rw [z, List.take_zero, List.nil_append, List.drop_eq_nil_of_le (by omega)]
    · have z : List.indexOf value s.arr = 0 := by omega
      rw [z, List.take_zero, List.nil_append]
    · have : s.arr.length = List.indexOf value s.arr + 1 := by rw [w] at c3; omega
      rw [List.drop_eq_nil_of_le (by omega), List.append_nil]
    · rfl
  · simp [c]

theorem remove_wellFormed (s : Set) (value : Int) (w : WellFormed s) :
    WellFormed (remove s value).2 := by
  rw [remove_eq s value w]
  split_ifs with c
  · have k := List.indexOf_lt_length.2 c
    simp only [WellFormed, List.length_eraseIdx, k, if_true] at w ⊢
    rw [w]
    omega
  · exact w

theorem remove_nodup (s : Set) (value : Int) (w : WellFormed s) (d : s.arr.Nodup) :
    (remove s value).2.arr.Nodup := by
  rw [remove_eq s value w]
  split_ifs with c
  · exact List.Nodup.sublist (List.eraseIdx_sublist _ _) d
  · exact d

theorem eraseIdx_indexOf (value : Int) : ∀ l : List Int,
    l.eraseIdx (l.indexOf value) = l.erase value
  | [] => rfl
  | a :: as => by
      by_cases c : a = value
      · subst c
        simp
      · rw [List.indexOf_cons_ne _ c, List.eraseIdx_cons_succ, eraseIdx_indexOf value as,
          List.erase_cons_tail (by simpa using c)]

/-! ## Set: the loops of the operators -/

theorem foldAdd_inv (p : Int → Bool) : ∀ (L : List Int) (acc : Set),
    WellFormed acc → acc.arr.Nodup →
    WellFormed (L.foldl (fun new_set x => if p x then (add new_set x).2 else new_set) acc) ∧
      (L.foldl (fun new_set x => if p x then (add new_set x).2 else new_set) acc).arr.Nodup
  | [], acc, w, d => ⟨w, d⟩
  | a :: L, acc, w, d => by
      simp only [List.foldl_cons]
      split_ifs
      · exact foldAdd_inv p L _ (add_wellFormed acc a w) (add_nodup acc a w d)
      · exact foldAdd_inv p L acc w d

theorem foldAdd_mem (p : Int → Bool) : ∀ (L : List Int) (acc : Set),
    WellFormed acc → acc.size + L.length ≤ max_size →
    (∀ x, x ∈ (L.foldl (fun new_set x => if p x then (add new_set x).2 else new_set) acc).arr ↔
      x ∈ acc.arr ∨ (x ∈ L ∧ p x = true)) ∧
    (L.foldl (fun new_set x => if p x then (add new_set x).2 else new_set) acc).size ≤
      acc.size + L.length
  | [], acc, _, _ => by simp
  | a :: L, acc, w, cap => by
      simp only [List.foldl_cons, List.length_cons] at cap ⊢
      have cap' : acc.size ≠ max_size := by push_cast at cap; omega
      by_cases pa : p a = true
      · rw [if_pos pa, add_eq acc a w cap']
        by_cases c : a ∈ acc.arr
        · rw [if_pos c]
          obtain ⟨m, sz⟩ := foldAdd_mem p L acc w (by push_cast at cap; omega)
          refine ⟨fun x => ?_, by push_cast; omega⟩
          rw [m x, List.mem_cons]
          constructor
          · rintro (h | ⟨h1, h2⟩)
            · exact Or.inl h
            · exact Or.inr ⟨Or.inr h1, h2⟩
          · rintro (h | ⟨h1 | h1, h2⟩)
            · exact Or.inl h
            · exact Or.inl (h1 ▸ c)
            · exact Or.inr ⟨h1, h2⟩
        · rw [if_neg c]
          have w' : WellFormed ⟨acc.size + 1, acc.arr ++ [a]⟩ := by
            simp only [WellFormed, List.length_append, List.length_singleton] at w ⊢
            rw [w]; push_cast; rfl
          obtain ⟨m, sz⟩ := foldAdd_mem p L ⟨acc.size + 1, acc.arr ++ [a]⟩ w'
            (by push_cast at cap ⊢; omega)
          have sz' : (List.foldl (fun new_set x => if p x then (add new_set x).2 else new_set)
              ⟨acc.size + 1, acc.arr ++ [a]⟩ L).size ≤ acc.size + 1 + L.length := sz
          refine ⟨fun x => ?_, by push_cast; omega⟩
          rw [m x, List.mem_cons]
          simp only [List.mem_append, List.mem_singleton]
          constructor
          · rintro ((h | h) | ⟨h1, h2⟩)
            · exact Or.inl h
            · exact Or.inr ⟨Or.inl h, h ▸ pa⟩
            · exact Or.inr ⟨Or.inr h1, h2⟩
          · rintro (h | ⟨h1 | h1, h2⟩)
            · exact Or.inl (Or.inl h)
            · exact Or.inl (Or.inr h1)
            · exact Or.inr ⟨h1, h2⟩
      · rw [if_neg pa]
        obtain ⟨m, sz⟩ := foldAdd_mem p L acc w (by push_cast at cap; omega)
        refine ⟨fun x => ?_, by push_cast; omega⟩
        rw [m x, List.mem_cons]
        constructor
        · rintro (h | ⟨h1, h2⟩)
          · exact Or.inl h
          · exact Or.inr ⟨Or.inr h1, h2⟩
        · rintro (h | ⟨h1 | h1, h2⟩)
          · exact Or.inl h
          · exact absurd (h1 ▸ h2) pa
          · exact Or.inr ⟨h1, h2⟩

theorem foldRemove_spec (p : Int → Bool) : ∀ (L : List Int) (acc : Set),
    WellFormed acc → acc.arr.Nodup →
    WellFormed
        (L.foldl (fun new_set x => if p x then (remove new_set x).2 else new_set) acc) ∧
      (L.foldl (fun new_set x => if p x then (remove new_set x).2 else new_set) acc).arr.Nodup ∧
      ∀ x, x ∈ (L.foldl (fun new_set x => if p x then (remove new_set x).2 else new_set)
          acc).arr ↔ x ∈ acc.arr ∧ ¬ (x ∈ L ∧ p x = true)
  | [], acc, w, d => ⟨w, d, by simp⟩
  | a :: L, acc, w, d => by
      simp only [List.foldl_cons]
      by_cases pa : p a = true
      · rw [if_pos pa]
        obtain ⟨w', d', m⟩ := foldRemove_spec p L _ (remove_wellFormed acc a w)
          (remove_nodup acc a w d)
        refine ⟨w', d', fun x => ?_⟩
        rw [m x, remove_eq acc a w, List.mem_cons]
        by_cases c : a ∈ acc.arr
        · rw [if_pos c]
          simp only [eraseIdx_indexOf, d.mem_erase_iff]
          constructor
          · rintro ⟨⟨h1, h2⟩, h3⟩
            refine ⟨h2, ?_⟩
            rintro ⟨h4 | h4, h5⟩
            · exact h1 h4
            · exact h3 ⟨h4, h5⟩
          · rintro ⟨h1, h2⟩
            exact ⟨⟨fun h => h2 ⟨Or.inl h, h ▸ pa⟩, h1⟩, fun h => h2 ⟨Or.inr h.1, h.2⟩⟩
        · rw [if_neg c]
          constructor
          · rintro ⟨h1, h3⟩
            refine ⟨h1, ?_⟩
            rintro ⟨h4 | h4, h5⟩
            · exact c (h4 ▸ h1)
            · exact h3 ⟨h4, h5⟩
          · rintro ⟨h1, h2⟩
            exact ⟨h1, fun h => h2 ⟨Or.inr h.1, h.2⟩⟩
      · rw [if_neg pa]
        obtain ⟨w', d', m⟩ := foldRemove_spec p L acc w d
        refine ⟨w', d', fun x => ?_⟩
        rw [m x, List.mem_cons]
        constructor
        · rintro ⟨h1, h3⟩
          refine ⟨h1, ?_⟩
          rintro ⟨h4 | h4, h5⟩
          · exact pa (h4 ▸ h5)
          · exact h3 ⟨h4, h5⟩
        · rintro ⟨h1, h2⟩
          exact ⟨h1, fun h => h2 ⟨Or.inr h.1, h.2⟩⟩

/-! ## Set: the operators -/

theorem copy_eq (s : Set) (w : WellFormed s) : copy s = s := by
  cases s with
  | mk size arr =>
    have := elems_eq ⟨size, arr⟩ w
    simp only [copy, this]

theorem empty_wellFormed : WellFormed empty := rfl

theorem operatorMul_inv (a b : Set) :
    WellFormed (operatorMul a b) ∧ (operatorMul a b).arr.Nodup := by
  unfold operatorMul
  split_ifs
  · exact foldAdd_inv (fun x => find b x) (elems a) empty empty_wellFormed List.nodup_nil
  · exact foldAdd_inv (fun x => find a x) (elems b) empty empty_wellFormed List.nodup_nil

theorem operatorMul_mem (a b : Set) (wa : WellFormed a) (wb : WellFormed b)
    (ca : a.size ≤ max_size) (cb : b.size ≤ max_size) :
    (∀ x, x ∈ (operatorMul a b).arr ↔ x ∈ a.arr ∧ x ∈ b.arr) ∧
      (operatorMul a b).size ≤ max_size := by
  have la : (a.arr.length : Int) ≤ max_size := by rw [← wa]; exact ca
  have lb : (b.arr.length : Int) ≤ max_size := by rw [← wb]; exact cb
  unfold operatorMul
  rw [elems_eq a wa, elems_eq b wb]
  split_ifs
  · obtain ⟨m, sz⟩ := foldAdd_mem (fun x => find b x) a.arr empty empty_wellFormed
      (by simpa [empty] using la)
    refine ⟨fun x => ?_, ?_⟩
    · rw [m x, find_iff b x wb]
      simp [empty]
    · simp only [empty, zero_add] at sz
      exact le_trans sz la
  · obtain ⟨m, sz⟩ := foldAdd_mem (fun x => find a x) b.arr empty empty_wellFormed
      (by simpa [empty] using lb)
    refine ⟨fun x => ?_, ?_⟩
    · rw [m x, find_iff a x wa]
      simp [empty, and_comm]
    · simp only [empty, zero_add] at sz
      exact le_trans sz lb

theorem operatorAdd_eq (a b : Set) (wa : WellFormed a) (wb : WellFormed b) :
    operatorAdd a b =
      b.arr.foldl (fun new_set x => if (fun _ => true) x then (add new_set x).2 else new_set)
        a := by
  unfold operatorAdd
  rw [copy_eq a wa, elems_eq b wb]
  rfl

theorem operatorAdd_inv (a b : Set) (wa : WellFormed a) (da : a.arr.Nodup) :
    WellFormed (operatorAdd a b) ∧ (operatorAdd a b).arr.Nodup := by
  have h := foldAdd_inv (fun _ => true) (elems b) (copy a)
    (by rw [copy_eq a wa]; exact wa) (by rw [copy_eq a wa]; exact da)
  exact h

theorem operatorAdd_mem (a b : Set) (wa : WellFormed a) (wb : WellFormed b)
    (cap : a.size + b.size ≤ max_size) :
    (∀ x, x ∈ (operatorAdd a b).arr ↔ x ∈ a.arr ∨ x ∈ b.arr) ∧
      (operatorAdd a b).size ≤ max_size := by
  obtain ⟨m, sz⟩ := foldAdd_mem (fun _ => true) b.arr a wa (by rw [← wb]; exact cap)
  rw [operatorAdd_eq a b wa wb]
  refine ⟨fun x => ?_, ?_⟩
  · rw [m x]
    simp
  · rw [← wb] at sz
    exact le_trans sz cap

theorem operatorSub_spec (a b : Set) (wa : WellFormed a) (da : a.arr.Nodup) :
    WellFormed (operatorSub a b) ∧ (operatorSub a b).arr.Nodup ∧
      ∀ x, x ∈ (operatorSub a b).arr ↔
        x ∈ a.arr ∧ ¬ (x ∈ (operatorMul a b).arr ∧ x ∈ a.arr) := by
  obtain ⟨w, d, m⟩ := foldRemove_spec (fun x => find a x) (operatorMul a b).arr a wa da
  unfold operatorSub
  rw [copy_eq a wa, elems_eq _ (operatorMul_inv a b).1]
  refine ⟨w, d, fun x => ?_⟩
  rw [m x, find_iff a x wa]

theorem operatorXor_inv (a b : Set) (wa : WellFormed a) (da : a.arr.Nodup) :
    WellFormed (operatorXor a b) ∧ (operatorXor a b).arr.Nodup := by
  obtain ⟨w, d⟩ := operatorAdd_inv a b wa da
  obtain ⟨w', d', -⟩ := operatorSub_spec (operatorAdd a b) (operatorMul a b) w d
  exact ⟨w', d'⟩

theorem Reachable.inv {s : Set} (r : Reachable s) : WellFormed s ∧ s.arr.Nodup := by
  induction r with
  | empty => exact ⟨rfl, List.nodup_nil⟩
  | add s value _ ih => exact ⟨add_wellFormed s value ih.1, add_nodup s value ih.1 ih.2⟩
  | remove s value _ ih =>
    exact ⟨remove_wellFormed s value ih.1, remove_nodup s value ih.1 ih.2⟩
  | operatorAdd a b _ _ iha _ => exact operatorAdd_inv a b iha.1 iha.2
  | operatorMul a b _ _ _ _ => exact operatorMul_inv a b
  | operatorSub a b _ _ iha _ =>
    exact ⟨(operatorSub_spec a b iha.1 iha.2).1, (operatorSub_spec a b iha.1 iha.2).2.1⟩
  | operatorXor a b _ _ iha _ => exact operatorXor_inv a b iha.1 iha.2

/-- C24: the elements of every set reachable from the empty set by `add`,
`remove` and the operators `+`, `*`, `-` and `^` are pairwise distinct, the
array holds exactly `getSize()` elements, and on such a set below the capacity
bound `max_size = 2^63 - 1` (more elements than any allocation can hold)
`add(v)` returns true and appends `v` at the end exactly when `v` was not
already stored, and otherwise returns false leaving the set unchanged. -/
theorem reachable_distinct (s : Set) (r : Reachable s) :
    s.arr.Nodup ∧ getSize s = s.arr.length ∧ elems s = s.arr ∧
      ∀ value, getSize s < max_size →
        ((add s value).1 = true ↔ find s value = false) ∧
        (find s value = false →
          (add s value).2.arr = s.arr ++ [value] ∧
            getSize (add s value).2 = getSize s + 1) ∧
        (find s value = true → (add s value).1 = false ∧ (add s value).2 = s) := by
  obtain ⟨w, d⟩ := r.inv
  refine ⟨d, w, elems_eq s w, fun value cap => ?_⟩
  have cap' : s.size ≠ max_size := ne_of_lt cap
  have fm := find_iff s value w
  rw [add_eq s value w cap']
  by_cases c : value ∈ s.arr
  · have f : find s value = true := fm.2 c
    simp [c, f]
  · have f : find s value = false := by
      cases h : find s value with
      | false => rfl
      | true => exact absurd (fm.1 h) c
    simp [c, f, getSize]

/-- Witness for C24: the set built by `add 3`, `add 5`, and its symmetric
difference with the set built by `add 5`. -/
theorem reachable_distinct_witness :
    Reachable (operatorXor (add (add empty 3).2 5).2 (add empty 5).2) ∧
      operatorXor (add (add empty 3).2 5).2 (add empty 5).2 = ⟨1, [3]⟩ ∧
      (add ⟨1, [3]⟩ 3).1 = false ∧ (add ⟨1, [3]⟩ 4).2 = ⟨2, [3, 4]⟩ ∧
      (operatorXor (add (add empty 3).2 5).2 (add empty 5).2).arr.Nodup :=
  have r : Reachable (operatorXor (add (add empty 3).2 5).2 (add empty 5).2) :=
    Reachable.operatorXor _ _
      (Reachable.add _ 5 (Reachable.add _ 3 Reachable.empty))
      (Reachable.add _ 5 Reachable.empty)
  ⟨r, by decide, by decide, by decide, (reachable_distinct _ r).1⟩

/-- C25: for every set (well-formed and duplicate-free, as every `Set` object
is) and every value `v`, `remove(v)` returns true iff `v` was stored; in that
case the resulting array is the previous array with the slot `findIndex(v)`
deleted and the order of all other elements kept, `getSize()` is decreased by
one and `find(v)` is false; if `v` was not stored the set is unchanged. -/
theorem remove_spec (s : Set) (value : Int) (w : WellFormed s) (d : s.arr.Nodup) :
    ((remove s value).1 = true ↔ find s value = true) ∧
      (find s value = true →
        (remove s value).2.arr = s.arr.eraseIdx (findIndex s value).toNat ∧
          getSize (remove s value).2 = getSize s - 1 ∧
          WellFormed (remove s value).2 ∧
          find (remove s value).2 value = false) ∧
      (find s value = false → (remove s value).2 = s) := by
  have fm := find_iff s value w
  have w' := remove_wellFormed s value w
  have fm' := find_iff (remove s value).2 value w'
  by_cases c : value ∈ s.arr
  · have f : find s value = true := fm.2 c
    have e : remove s value =
        (true, ⟨s.size - 1, s.arr.eraseIdx (s.arr.indexOf value)⟩) := by
      rw [remove_eq s value w, if_pos c]
    have fi : (findIndex s value).toNat = s.arr.indexOf value := by
      rw [findIndex_eq s value w, if_pos c, Int.toNat_ofNat]
    rw [e] at w' fm'
    have nf : find ⟨s.size - 1, s.arr.eraseIdx (s.arr.indexOf value)⟩ value = false := by
      cases h : find ⟨s.size - 1, s.arr.eraseIdx (s.arr.indexOf value)⟩ value with
      | false => rfl
      | true =>
        have m := fm'.1 h
        simp only [eraseIdx_indexOf, d.mem_erase_iff] at m
        exact absurd rfl m.1
    rw [e, fi]
    exact ⟨⟨fun _ => f, fun _ => rfl⟩, fun _ => ⟨rfl, rfl, w', nf⟩,
      fun h => by rw [f] at h; exact Bool.noConfusion h⟩
  · have f : find s value = false := by
      cases h : find s value with
      | false => rfl
      | true => exact absurd (fm.1 h) c
    have e : remove s value = (false, s) := by
      rw [remove_eq s value w, if_neg c]
    rw [e, f]
    exact ⟨⟨fun h => h, fun h => h⟩, fun h => Bool.noConfusion h, fun _ => rfl⟩

/-- Witness for C25: removing 5 from the set `{3, 5, 7}`. -/
theorem remove_spec_witness :
    remove ⟨3, [3, 5, 7]⟩ 5 = (true, ⟨2, [3, 7]⟩) ∧
      ((remove ⟨3, [3, 5, 7]⟩ 5).1 = true ↔ find ⟨3, [3, 5, 7]⟩ 5 = true) :=
  ⟨by decide, (remove_spec ⟨3, [3, 5, 7]⟩ 5 rfl (by decide)).1⟩

/-- C26: for all sets `A` and `B` (well-formed, with sizes in the range of
`int64_t`; duplicate-free or not) and every value `x`, `(A * B).find(x)` is true iff
`A.find(x)` and `B.find(x)` are both true, whichever branch of the size
comparison `operator*` takes. -/
theorem operatorMul_find (a b : Set) (x : Int)
    (wa : WellFormed a) (wb : WellFormed b)
    (ca : getSize a ≤ max_size) (cb : getSize b ≤ max_size) :
    find (operatorMul a b) x = true ↔ (find a x = true ∧ find b x = true) := by
  rw [find_iff _ x (operatorMul_inv a b).1, find_iff a x wa, find_iff b x wb]
  exact (operatorMul_mem a b wa wb ca cb).1 x

/-- Witness for C26: both branches of the size comparison. -/
theorem operatorMul_find_witness :
    operatorMul ⟨3, [3, 5, 7]⟩ ⟨2, [7, 3]⟩ = ⟨2, [3, 7]⟩ ∧
      operatorMul ⟨2, [7, 3]⟩ ⟨3, [3, 5, 7]⟩ = ⟨2, [3, 7]⟩ ∧
      (find (operatorMul ⟨3, [3, 5, 7]⟩ ⟨2, [7, 3]⟩) 7 = true ↔
        (find ⟨3, [3, 5, 7]⟩ 7 = true ∧ find ⟨2, [7, 3]⟩ 7 = true)) ∧
      (find (operatorMul ⟨2, [7, 3]⟩ ⟨3, [3, 5, 7]⟩) 5 = true ↔
        (find ⟨2, [7, 3]⟩ 5 = true ∧ find ⟨3, [3, 5, 7]⟩ 5 = true)) :=
  ⟨by decide, by decide,
    operatorMul_find ⟨3, [3, 5, 7]⟩ ⟨2, [7, 3]⟩ 7 rfl rfl (by decide) (by decide),
    operatorMul_find ⟨2, [7, 3]⟩ ⟨3, [3, 5, 7]⟩ 5 rfl rfl (by decide) (by decide)⟩

theorem operatorXor_mem (a b : Set) (x : Int)
    (wa : WellFormed a) (wb : WellFormed b) (da : a.arr.Nodup)
    (cap : getSize a + getSize b ≤ max_size) :
    x ∈ (operatorXor a b).arr ↔ (x ∈ a.arr ∨ x ∈ b.arr) ∧ ¬ (x ∈ a.arr ∧ x ∈ b.arr) := by
  have na : (0 : Int) ≤ a.size := by rw [wa]; exact Int.natCast_nonneg _
  have nb : (0 : Int) ≤ b.size := by rw [wb]; exact Int.natCast_nonneg _
  simp only [getSize] at cap
  obtain ⟨wu, du⟩ := operatorAdd_inv a b wa da
  obtain ⟨mu, su⟩ := operatorAdd_mem a b wa wb cap
  obtain ⟨mi, si⟩ := operatorMul_mem a b wa wb (by omega) (by omega)
  obtain ⟨-, -, ms⟩ := operatorSub_spec (operatorAdd a b) (operatorMul a b) wu du
  obtain ⟨mui, -⟩ := operatorMul_mem (operatorAdd a b) (operatorMul a b) wu
    (operatorMul_inv a b).1 su si
  unfold operatorXor
  rw [ms x, mui x, mi x, mu x]
  constructor
  · rintro ⟨h1, h2⟩
    exact ⟨h1, fun h => h2 ⟨⟨h1, h⟩, h1⟩⟩
  · rintro ⟨h1, h2⟩
    exact ⟨h1, fun h => h2 h.1.2⟩

/-- C27: for all duplicate-free sets `A` and `B` (well-formed, and small enough
for their union to stay within the capacity bound `max_size = 2^63 - 1`) and
every value `x`, `(A ^ B).find(x)` is true iff exactly one of `A.find(x)` and
`B.find(x)` is true; hence `A ^ B` and `B ^ A` contain the same elements. -/
theorem operatorXor_find (a b : Set) (x : Int)
    (wa : WellFormed a) (wb : WellFormed b) (da : a.arr.Nodup) (db : b.arr.Nodup)
    (cap : getSize a + getSize b ≤ max_size) :
    (find (operatorXor a b) x = true ↔
        ((find a x = true ∧ find b x = false) ∨ (find a x = false ∧ find b x = true))) ∧
      find (operatorXor a b) x = find (operatorXor b a) x := by
  have k1 := operatorXor_mem a b x wa wb da cap
  have k2 := operatorXor_mem b a x wb wa db (by rw [add_comm]; exact cap)
  have f1 := find_iff _ x (operatorXor_inv a b wa da).1
  have f2 := find_iff _ x (operatorXor_inv b a wb db).1
  have fa := find_iff a x wa
  have fb := find_iff b x wb
  constructor
  · rw [f1, k1]
    cases ha : find a x <;> cases hb : find b x <;> simp [ha, hb] at fa fb <;> simp [fa, fb]
  · have : find (operatorXor a b) x = true ↔ find (operatorXor b a) x = true := by
      rw [f1, f2, k1, k2]
      constructor
      · rintro ⟨h1, h2⟩
        exact ⟨h1.symm, fun h => h2 h.symm⟩
      · rintro ⟨h1, h2⟩
        exact ⟨h1.symm, fun h => h2 h.symm⟩
    cases h1 : find (operatorXor a b) x <;> cases h2 : find (operatorXor b a) x <;>
      simp [h1, h2] at this ⊢

/-- Witness for C27: the sets `{3, 5, 7}` and `{9, 3}`. -/
theorem operatorXor_find_witness :
    operatorXor ⟨3, [3, 5, 7]⟩ ⟨2, [9, 3]⟩ = ⟨3, [5, 7, 9]⟩ ∧
      operatorXor ⟨2, [9, 3]⟩ ⟨3, [3, 5, 7]⟩ = ⟨3, [9, 5, 7]⟩ ∧
      find (operatorXor ⟨3, [3, 5, 7]⟩ ⟨2, [9, 3]⟩) 9 =
        find (operatorXor ⟨2, [9, 3]⟩ ⟨3, [3, 5, 7]⟩) 9 :=
  ⟨by decide, by decide,
    (operatorXor_find ⟨3, [3, 5, 7]⟩ ⟨2, [9, 3]⟩ 9 rfl rfl (by decide) (by decide)
      (by decide)).2⟩

end ArraySet

/-! ## PriorityQueue -/

namespace Heap

theorem readAt_some (arr : List QueueNode) (index : Int) (h0 : 0 ≤ index)
    (h1 : index < arr.length) : ∃ a, readAt arr index = some a := by
  have lt : index.toNat < arr.length := by omega
  refine ⟨arr.get ⟨index.toNat, lt⟩, ?_⟩
  simp only [readAt, if_neg (not_lt.2 h0)]
  exact List.get?_eq_get lt

theorem swapAt_some (arr : List QueueNode) (i j : Int) (hi0 : 0 ≤ i) (hi1 : i < arr.length)
    (hj0 : 0 ≤ j) (hj1 : j < arr.length) :
    ∃ arr', swapAt arr i j = some arr' ∧ arr'.length = arr.length := by
  obtain ⟨a, ea⟩ := readAt_some arr i hi0 hi1
  obtain ⟨b, eb⟩ := readAt_some arr j hj0 hj1
  exact ⟨(arr.set i.toNat b).set j.toNat a, by simp only [swapAt, ea, eb], by simp⟩

/-- The budget of `siftUp` is sufficient: from an index inside the array the
loop ends after at most `index + 1` evaluations of its condition. -/
theorem siftUpLoop_some : ∀ (fuel : Nat) (arr : List QueueNode) (index : Int),
    0 ≤ index → index < arr.length → index < fuel →
    ∃ arr', siftUpLoop fuel arr index = some arr' ∧ arr'.length = arr.length
  | 0, _, index, h0, _, h2 => by
      exfalso
      have : index < 0 := by exact_mod_cast h2
      omega
  | fuel + 1, arr, index, h0, h1, h2 => by
      have p0 : 0 ≤ Int.tdiv (index - 1) 2 := by
        rcases lt_or_ge (0 : Int) index with c | c
        · exact Int.tdiv_nonneg (by omega) (by decide)
        · have : index = 0 := by omega
          subst this
          decide
      have p1 : Int.tdiv (index - 1) 2 ≤ index := by
        rcases lt_or_ge (0 : Int) index with c | c
        · rw [Int.tdiv_eq_ediv (by omega) (by decide)]
          omega
        · have : index = 0 := by omega
          subst this
          decide
      have p2 : 0 < index → Int.tdiv (index - 1) 2 < index := by
        intro c
        rw [Int.tdiv_eq_ediv (by omega) (by decide)]
        omega
      obtain ⟨a, ea⟩ := readAt_some arr index h0 h1
      obtain ⟨p, ep⟩ := readAt_some arr (Int.tdiv (index - 1) 2) p0 (by omega)
      simp only [siftUpLoop, ea, ep]
      split_ifs with c
      · have ipos : 0 < index := by
          rcases lt_or_ge (0 : Int) index with c' | c'
          · exact c'
          · exfalso
            have z : index = 0 := by omega
            subst z
            have : Int.tdiv ((0 : Int) - 1) 2 = 0 := by decide
            rw [this, ea] at ep
            have : a = p := Option.some.inj ep
            subst this
            exact lt_irrefl _ c
        obtain ⟨arr', e1, l1⟩ := swapAt_some arr index (Int.tdiv (index - 1) 2) h0 h1 p0
          (by omega)
        obtain ⟨arr'', e2, l2⟩ := siftUpLoop_some fuel arr' (Int.tdiv (index - 1) 2) p0
          (by rw [l1]; omega) (by have := p2 ipos; push_cast at h2; omega)
        exact ⟨arr'', by rw [e1]; exact e2, by rw [l2, l1]⟩
      · exact ⟨arr, rfl, rfl⟩

/-- `siftUp` completes on every non-empty queue whose array holds `size`
elements. -/
theorem siftUp_some (q : PriorityQueue) (w : q.size = q.arr.length) (ne : 0 < q.size) :
    ∃ q', siftUp q = some q' ∧ q'.size = q.size ∧ q'.arr.length = q.arr.length := by
  obtain ⟨arr', e, l⟩ := siftUpLoop_some (q.size.toNat + 1) q.arr (q.size - 1)
    (by omega) (by omega) (by push_cast; omega)
  exact ⟨⟨q.size, arr'⟩, by simp only [siftUp, e, Option.map_some'], rfl, l⟩

/-- The budget of `siftDown` is sufficient: the index grows in every
iteration, so the loop ends after at most `size - index + 1` evaluations of its
condition. -/
theorem siftDownLoop_some : ∀ (fuel : Nat) (size : Int) (arr : List QueueNode) (index : Int),
    0 ≤ index → size ≤ arr.length → size - index < fuel → 0 < fuel →
    ∃ arr', siftDownLoop fuel size arr index = some arr' ∧ arr'.length = arr.length
  | 0, _, _, _, _, _, _, h3 => absurd h3 (lt_irrefl 0)
  | fuel + 1, size, arr, index, h0, h1, h2, _ => by
      simp only [siftDownLoop]
      by_cases c : 2 * index + 1 < size
      · rw [if_pos c]
        push_cast at h2
        obtain ⟨a, ea⟩ := readAt_some arr index h0 (by omega)
        obtain ⟨l, el⟩ := readAt_some arr (2 * index + 1) (by omega) (by omega)
        have stepL : ∀ arr1 : List QueueNode, arr1.length = arr.length →
            ∃ arr', siftDownLoop fuel size arr1 (2 * index + 1) = some arr' ∧
              arr'.length = arr.length := by
          intro arr1 l1
          obtain ⟨arr', e, l2⟩ := siftDownLoop_some fuel size arr1 (2 * index + 1) (by omega)
            (by rw [l1]; exact h1) (by omega) (by omega)
          exact ⟨arr', e, by rw [l2, l1]⟩
        have stepR : ∀ arr1 : List QueueNode, arr1.length = arr.length →
            ∃ arr', siftDownLoop fuel size arr1 (2 * index + 2) = some arr' ∧
              arr'.length = arr.length := by
          intro arr1 l1
          obtain ⟨arr', e, l2⟩ := siftDownLoop_some fuel size arr1 (2 * index + 2) (by omega)
            (by rw [l1]; exact h1) (by omega) (by omega)
          exact ⟨arr', e, by rw [l2, l1]⟩
        have leftCase : ∃ arr',
            ((readAt arr index).bind fun a =>
              (readAt arr (2 * index + 1)).bind fun l =>
                if a.priority ≥ l.priority then some arr
                else
                  (swapAt arr index (2 * index + 1)).bind fun arr' =>
                    siftDownLoop fuel size arr' (2 * index + 1)) = some arr' ∧
              arr'.length = arr.length := by
          rw [ea, el]
          simp only [Option.some_bind]
          split_ifs
          · exact ⟨arr, rfl, rfl⟩
          · obtain ⟨arr1, e1, l1⟩ := swapAt_some arr index (2 * index + 1) h0 (by omega)
              (by omega) (by omega)
            rw [e1]
            exact stepL arr1 l1
        by_cases c2 : 2 * index + 2 < size
        · rw [if_pos c2]
          obtain ⟨r, er⟩ := readAt_some arr (2 * index + 2) (by omega) (by omega)
          rw [er, el]
          simp only [Option.some_bind, Option.map_some']
          by_cases c3 : r.priority > l.priority
          · simp only [c3, decide_True, if_true]
            obtain ⟨arr1, e1, l1⟩ := swapAt_some arr index (2 * index + 2) h0 (by omega)
              (by omega) (by omega)
            rw [e1]
            exact stepR arr1 l1
          · simp only [c3, decide_False, Bool.false_eq_true, if_false]
            simp only [el, Option.some_bind] at leftCase
            exact leftCase
        · rw [if_neg c2]
          simp only [Option.some_bind, Bool.false_eq_true, if_false]
          exact leftCase
      · rw [if_neg c]
        exact ⟨arr, rfl, rfl⟩

/-- `siftDown` completes on every queue whose array holds `size` elements. -/
theorem siftDown_some (q : PriorityQueue) (w : q.size = q.arr.length) :
    ∃ q', siftDown q = some q' ∧ q'.size = q.size ∧ q'.arr.length = q.arr.length := by
  obtain ⟨arr', e, l⟩ := siftDownLoop_some (q.size.toNat + 1) q.size q.arr 0
    (le_refl 0) (by omega) (by push_cast; omega) (by omega)
  exact ⟨⟨q.size, arr'⟩, by simp only [siftDown, e, Option.map_some'], rfl, l⟩

/-- C21: `findMax()` can return an element that does not have the largest
priority.  After `push` with priorities 3, 1, 2, 0, 0 the array is
`[3, 1, 2, 0, 0]`; `popMin()` removes the first 0, leaving `[3, 1, 2, 0]`, and
its `siftDown` finds the right child (2) larger than the left child (1), skips
the comparison with the root and swaps root and right child: the array becomes
`[2, 1, 3, 0]` and `findMax()` returns the element of priority 2 while the
element of priority 3 is stored. -/
theorem findMax_not_max :
    runOps empty [Op.push 1 3, Op.push 2 1, Op.push 3 2, Op.push 4 0, Op.push 5 0] =
        some ⟨5, [⟨1, 3⟩, ⟨2, 1⟩, ⟨3, 2⟩, ⟨4, 0⟩, ⟨5, 0⟩]⟩ ∧
      popMin ⟨5, [⟨1, 3⟩, ⟨2, 1⟩, ⟨3, 2⟩, ⟨4, 0⟩, ⟨5, 0⟩]⟩ =
        some (⟨4, 0⟩, ⟨4, [⟨3, 2⟩, ⟨2, 1⟩, ⟨1, 3⟩, ⟨5, 0⟩]⟩) ∧
      runOps empty
          [Op.push 1 3, Op.push 2 1, Op.push 3 2, Op.push 4 0, Op.push 5 0, Op.popMin] =
        some ⟨4, [⟨3, 2⟩, ⟨2, 1⟩, ⟨1, 3⟩, ⟨5, 0⟩]⟩ ∧
      findMax ⟨4, [⟨3, 2⟩, ⟨2, 1⟩, ⟨1, 3⟩, ⟨5, 0⟩]⟩ = some ⟨3, 2⟩ ∧
      (⟨1, 3⟩ : QueueNode) ∈ [(⟨3, 2⟩ : QueueNode), ⟨2, 1⟩, ⟨1, 3⟩, ⟨5, 0⟩] ∧
      (⟨3, 2⟩ : QueueNode).priority < (⟨1, 3⟩ : QueueNode).priority :=
  ⟨by decide, by decide, by decide, by decide, by decide, by decide⟩

/-- C22: `popMin()` on a queue built by `push` alone can have no defined
result.  After `push(1, 5)` and `push(2, 5)` the scan finds no priority smaller
than that of `arr[0]`, so `size_before` and `size_after` both stay 0; the branch
`size_before == 0` allocates `arr_after` with `size_after = 0` elements and its
copy loop stores `arr[1]` into `arr_after[0]`, outside the allocation. -/
theorem popMin_equal_priorities :
    pushAll empty [(1, 5), (2, 5)] = some ⟨2, [⟨1, 5⟩, ⟨2, 5⟩]⟩ ∧
      minScan 2 [⟨1, 5⟩, ⟨2, 5⟩] 0 (⟨1, 5⟩, 0, 0) = (⟨1, 5⟩, 0, 0) ∧
      popMin ⟨2, [⟨1, 5⟩, ⟨2, 5⟩]⟩ = none :=
  ⟨by decide, by decide, by decide⟩

/-- C23: `popMax()` on a queue built by `push` alone can have no defined
result.  On the one-element queue built by `push(1, 5)` it sets `size` to 0,
lets `arr` point to an allocation of zero elements and calls `siftUp()`, whose
loop condition reads `arr[size - 1] = arr[-1]`. -/
theorem popMax_single :
    pushAll empty [(1, 5)] = some ⟨1, [⟨1, 5⟩]⟩ ∧
      copyPrefix [(⟨1, 5⟩ : QueueNode)] (1 - 1) = some [] ∧
      readAt [] (0 - 1) = none ∧
      siftUp ⟨0, []⟩ = none ∧
      popMax ⟨1, [⟨1, 5⟩]⟩ = none :=
  ⟨by decide, by decide, by decide, by decide, by decide⟩

end Heap

namespace Avl

open Node

/-! ## Safety of `balance`, the guard of the unwinding loop of `remove` -/

/-- C36: in a tree all of whose cached heights are `>= 0`, a cached balance of
`-2` at a node implies that `node.left` is present and, if additionally
`getBalance(node.left) = 1`, that `node.left.right` is present; a cached
balance of `2` implies that `node.right` is present and, if additionally
`getBalance(node.right) = -1`, that `node.right.left` is present.  So
`balance` dereferences no null pointer and returns.  Every tree reachable by
`add` and `remove` has all cached heights `>= 0`. -/
theorem balance_children_present (h v : Int) (l r : Node)
    (c : CachedNonneg (node h v l r)) :
    (getBalance (node h v l r) = -2 →
      isNode l = true ∧ (getBalance l = 1 → isNode (rightOf l) = true)) ∧
    (getBalance (node h v l r) = 2 →
      isNode r = true ∧ (getBalance r = -1 → isNode (leftOf r) = true)) ∧
    (∃ n', balance (node h v l r) = some n') ∧
    (∀ t : AVLSearchTree, Reachable t → CachedNonneg t.root) := by
  obtain ⟨c0, cl, cr⟩ := c
  have gl := getHeight_ge l cl
  have gr := getHeight_ge r cr
  have g : getBalance (node h v l r) = getHeight r - getHeight l := rfl
  refine ⟨?_, ?_, ?_, fun t rt => rt.nonneg⟩
  · intro b
    cases l with
    | null => rw [g, getHeight_null] at b; omega
    | node hl vl ll lr =>
      refine ⟨rfl, fun b1 => ?_⟩
      cases lr with
      | null =>
        have := getHeight_ge ll cl.2.1
        have g1 : getBalance (node hl vl ll null) = getHeight null - getHeight ll := rfl
        rw [g1, getHeight_null] at b1
        omega
      | node _ _ _ _ => rfl
  · intro b
    cases r with
    | null => rw [g, getHeight_null] at b; omega
    | node hr vr rl rr =>
      refine ⟨rfl, fun b1 => ?_⟩
      cases rl with
      | null =>
        have := getHeight_ge rr cr.2.2
        have g1 : getBalance (node hr vr null rr) = getHeight rr - getHeight null := rfl
        rw [g1, getHeight_null] at b1
        omega
      | node _ _ _ _ => rfl
  · obtain ⟨n', e, -⟩ := balance_defined (node h v l r) ⟨c0, cl, cr⟩
    exact ⟨n', e⟩

theorem balance_children_present_witness :
    CachedNonneg (node 2 30 (node 1 20 (node 0 10 null null) null) null) ∧
    getBalance (node 2 30 (node 1 20 (node 0 10 null null) null) null) = -2 ∧
    isNode (node 1 20 (node 0 10 null null) null) = true ∧
    balance (node 2 30 (node 1 20 (node 0 10 null null) null) null) =
      some (node 1 20 (node 0 10 null null) (node 0 30 null null)) :=
  ⟨by simp [CachedNonneg], by decide,
    ((balance_children_present 2 30 (node 1 20 (node 0 10 null null) null) null
      (by simp [CachedNonneg])).1 (by decide)).1, by decide⟩

/-- C37: `remove` can run its unwinding pass on the node it has just deleted.
The calls add 8, 4, 12, 2, 6, 10, 1, remove 8, remove 12 complete and leave a
tree with `getSize() = 5` whose root 10 has a left child only.  `remove(10)`
then frees the root, decrements `size` to 4 and, because `4 > 2`, pops the
freed root from the stack and calls `updateHeight` on it: the call has no
defined result. -/
theorem remove_unwinds_freed_root :
    ∃ t : AVLSearchTree,
      runOps empty [Op.add 8, Op.add 4, Op.add 12, Op.add 2, Op.add 6, Op.add 10,
        Op.add 1, Op.remove 8, Op.remove 12] = some t ∧
      Reachable t ∧ getSize t = 5 ∧ 3 < getSize t ∧
      isNode (leftOf t.root) = true ∧ isNode (rightOf t.root) = false ∧
      find t 10 = true ∧ fixupIterations t 10 = 1 ∧ remove t 10 = none := by
  have e : runOps empty [Op.add 8, Op.add 4, Op.add 12, Op.add 2, Op.add 6, Op.add 10,
      Op.add 1, Op.remove 8, Op.remove 12] =
      some ⟨node 3 10 (node 2 4 (node 1 2 (node 0 1 null null) null)
        (node 0 6 null null)) null, 5⟩ := by decide
  refine ⟨_, e, runOps_reachable _ _ _ Reachable.empty e, by decide, by decide,
    by decide, by decide, by decide, by decide, by decide⟩

/-! ## The guard `size > 2` of the unwinding loop of `remove` -/

theorem removeNode_false : ∀ (n : Node) (value : Int),
    removeNode false n value = some (deleteOnly n value)
  | null, _ => rfl
  | node h v l r, value => by
      simp only [removeNode, deleteOnly, Bool.false_eq_true, if_false]
      split_ifs with c1 c2
      · rfl
      · rw [removeNode_false l value]; rfl
      · rw [removeNode_false r value]; rfl

theorem heightsLNR_detachSuccessor : ∀ (l : Node) (h v : Int) (r : Node),
    ∃ x, heightsLNR (node h v l r) = x :: heightsLNR (detachSuccessor h v l r).2
  | null, h, v, r => ⟨h, by simp [detachSuccessor, heightsLNR]⟩
  | node hl vl ll lr, h, v, r => by
      obtain ⟨x, ih⟩ := heightsLNR_detachSuccessor ll hl vl lr
      refine ⟨x, ?_⟩
      simp only [detachSuccessor, heightsLNR] at ih ⊢
      rw [ih]
      simp

theorem heightsLNR_deleteAt (h v : Int) (l r : Node) :
    List.Sublist (heightsLNR (deleteAt (node h v l r))) (heightsLNR (node h v l r)) ∧
    (heightsLNR (deleteAt (node h v l r))).length + 1 =
      (heightsLNR (node h v l r)).length := by
  cases l with
  | null => cases r <;> simp [deleteAt, heightsLNR]
  | node hl vl ll lr =>
    cases r with
    | null => simp [deleteAt, heightsLNR]; omega
    | node hr vr rl rr =>
      obtain ⟨x, e⟩ := heightsLNR_detachSuccessor rl hr vr rr
      have e1 : heightsLNR (deleteAt (node h v (node hl vl ll lr) (node hr vr rl rr))) =
          heightsLNR (node hl vl ll lr) ++
            h :: heightsLNR (detachSuccessor hr vr rl rr).2 := rfl
      have e2 : heightsLNR (node h v (node hl vl ll lr) (node hr vr rl rr)) =
          heightsLNR (node hl vl ll lr) ++ h :: heightsLNR (node hr vr rl rr) := rfl
      rw [e1, e2, e]
      constructor
      · exact List.Sublist.append_left
          (List.Sublist.cons₂ _ (List.sublist_cons_self _ _)) _
      · simp only [List.length_append, List.length_cons]
        omega

theorem heightsLNR_deleteOnly : ∀ (n : Node) (value : Int), findNode n value = true →
    List.Sublist (heightsLNR (deleteOnly n value)) (heightsLNR n) ∧
    (heightsLNR (deleteOnly n value)).length + 1 = (heightsLNR n).length
  | null, _, f => by simp [findNode] at f
  | node h v l r, value, f => by
      simp only [findNode] at f
      simp only [deleteOnly]
      split_ifs at f ⊢ with c1 c2
      · exact heightsLNR_deleteAt h v l r
      · obtain ⟨s, e⟩ := heightsLNR_deleteOnly l value f
        simp only [heightsLNR, List.length_append, List.length_cons]
        exact ⟨List.Sublist.append_right s _, by omega⟩
      · obtain ⟨s, e⟩ := heightsLNR_deleteOnly r value f
        simp only [heightsLNR, List.length_append, List.length_cons]
        exact ⟨List.Sublist.append_left (List.Sublist.cons₂ _ s) _, by omega⟩

theorem heightRecomputed_updateHeight (n : Node) : heightRecomputed (updateHeight n) := by
  cases n with
  | null => exact trivial
  | node h v l r => exact rfl

theorem heightRecomputed_rightRotate (n n' : Node) (e : rightRotate n = some n') :
    heightRecomputed n' := by
  cases n with
  | null => simp [rightRotate] at e
  | node h v l r =>
    cases l with
    | null => simp [rightRotate] at e
    | node hl vl ll lr =>
      simp only [rightRotate, Option.some.injEq] at e
      subst e
      exact heightRecomputed_updateHeight _

theorem heightRecomputed_leftRotate (n n' : Node) (e : leftRotate n = some n') :
    heightRecomputed n' := by
  cases n with
  | null => simp [leftRotate] at e
  | node h v l r =>
    cases r with
    | null => simp [leftRotate] at e
    | node hr vr rl rr =>
      simp only [leftRotate, Option.some.injEq] at e
      subst e
      exact heightRecomputed_updateHeight _

theorem heightRecomputed_unwindStep (n n' : Node) (e : unwindStep n = some n') :
    heightRecomputed n' := by
  cases n with
  | null =>
    simp only [unwindStep, updateHeight, balance, Option.some.injEq] at e
    subst e
    exact trivial
  | node h v l r =>
    simp only [unwindStep, updateHeight, balance] at e
    by_cases c1 : getBalance (node (max (getHeight l) (getHeight r) + 1) v l r) = -2
    · rw [if_pos c1] at e
      obtain ⟨l', -, e2⟩ := Option.bind_eq_some.1 e
      exact heightRecomputed_rightRotate _ _ e2
    · rw [if_neg c1] at e
      by_cases c2 : getBalance (node (max (getHeight l) (getHeight r) + 1) v l r) = 2
      · rw [if_pos c2] at e
        obtain ⟨r', -, e2⟩ := Option.bind_eq_some.1 e
        exact heightRecomputed_leftRotate _ _ e2
      · rw [if_neg c2, Option.some.injEq] at e
        subst e
        exact rfl

theorem remove_large_eq (t : AVLSearchTree) (value : Int) (hf : find t value = true)
    (hs : t.size - 1 > 2) :
    remove t value = (removeUnwound t.root value).map fun root' => ⟨root', t.size - 1⟩ := by
  obtain ⟨root, size⟩ := t
  simp only [find] at hf
  simp only at hs
  cases root with
  | null => simp [findNode] at hf
  | node h v l r =>
    have d : decide (size - 1 > 2) = true := decide_eq_true hs
    simp only [remove, hf, Bool.true_eq_false, if_false, d, if_true, removeUnwound]
    by_cases c1 : v = value
    · rw [if_pos c1, if_pos c1]
      cases l with
      | null => cases r <;> rfl
      | node hl vl ll lr => cases r <;> rfl
    · rw [if_neg c1, if_neg c1]

/-- C32: when `remove` deletes a node, its unwinding loop (the calls of
`updateHeight` and `balance` over the ancestor stack) runs if and only if the
size after the decrement exceeds 2.

* When the size after the decrement exceeds 2, `remove` is the search, the
  structural edit and the unwinding of every node on the stack, the root last
  (`removeUnwound`); if the call completes, the cached height of the new root
  is the one `updateHeight` stores.
* When the size after the decrement is at most 2, `remove` is the search and
  the structural edit alone (`deleteOnly`): the cached heights of the
  surviving nodes are the old ones, in the same order.

For instance add 20, add 10, remove 10 leaves the root with the cached height
1, which `updateHeight` would have replaced by 0; add 20, 10, 30, 25,
remove 25 (size 3 after the decrement) recomputes the heights of 30 and of the
root, which the structural edit alone leaves at 1 and 2. -/
theorem remove_small_keeps_heights (t : AVLSearchTree) (value : Int)
    (hf : find t value = true) :
    (0 < fixupIterations t value ↔ t.size - 1 > 2) ∧
    (t.size - 1 ≤ 2 →
      remove t value = some ⟨deleteOnly t.root value, t.size - 1⟩ ∧
      List.Sublist (heightsLNR (deleteOnly t.root value)) (heightsLNR t.root) ∧
      (heightsLNR (deleteOnly t.root value)).length + 1 = (heightsLNR t.root).length) ∧
    (addAll empty [20, 10]).bind (fun t2 => remove t2 10) =
      some ⟨node 1 20 null null, 1⟩ ∧
    (t.size - 1 > 2 →
      remove t value = (removeUnwound t.root value).map (fun root' => ⟨root', t.size - 1⟩) ∧
      ∀ t', remove t value = some t' → heightRecomputed t'.root) ∧
    ¬ heightRecomputed (node 1 20 null null) ∧
    removeUnwound (node 1 20 (node 0 10 null null) null) 10 = some (node 0 20 null null) ∧
    remove ⟨node 2 20 (node 0 10 null null) (node 1 30 (node 0 25 null null) null), 4⟩ 25 =
      some ⟨node 1 20 (node 0 10 null null) (node 0 30 null null), 3⟩ ∧
    deleteOnly (node 2 20 (node 0 10 null null) (node 1 30 (node 0 25 null null) null)) 25 =
      node 2 20 (node 0 10 null null) (node 1 30 null null) := by
  have large := fun hs => remove_large_eq t value hf hs
  obtain ⟨root, size⟩ := t
  simp only [find] at hf
  refine ⟨?_, fun hs => ⟨?_, heightsLNR_deleteOnly root value hf⟩, by decide,
    fun hs => ⟨large hs, fun t' e => ?_⟩, ?_, by decide, by decide, by decide⟩
  · simp only [fixupIterations, hf, Bool.true_eq_false, if_false]
    split_ifs with c
    · exact ⟨fun _ => c, fun _ => Nat.succ_pos _⟩
    · exact ⟨fun p => absurd p (lt_irrefl 0), fun p => absurd p c⟩
  · simp only at hs
    cases root with
    | null => simp [findNode] at hf
    | node h v l r =>
      have d : decide (size - 1 > 2) = false := by
        rw [decide_eq_false_iff_not]; omega
      simp only [remove, hf, Bool.true_eq_false, if_false, d]
      by_cases c1 : v = value
      · rw [if_pos c1]
        have e : deleteOnly (node h v l r) value = deleteAt (node h v l r) := by
          simp only [deleteOnly, if_pos c1]
        rw [e]
        cases l with
        | null => cases r <;> rfl
        | node hl vl ll lr => cases r <;> rfl
      · rw [if_neg c1, removeNode_false]
        rfl
  · rw [large hs] at e
    obtain ⟨n, e1, e2⟩ := Option.map_eq_some'.1 e
    subst e2
    simp only
    cases root with
    | null => simp [findNode] at hf
    | node h v l r =>
      simp only [removeUnwound] at e1
      by_cases c1 : v = value
      · rw [if_pos c1] at e1
        cases l with
        | null => cases r <;> simp at e1
        | node hl vl ll lr =>
          cases r with
          | null => simp at e1
          | node hr vr rl rr => exact heightRecomputed_unwindStep _ _ e1
      · rw [if_neg c1] at e1
        obtain ⟨m, -, e3⟩ := Option.bind_eq_some.1 e1
        exact heightRecomputed_unwindStep _ _ e3
  · simp [heightRecomputed, getHeight]

theorem remove_small_keeps_heights_witness :
    find ⟨node 1 20 (node 0 10 null null) null, 2⟩ 10 = true ∧
    remove ⟨node 1 20 (node 0 10 null null) null, 2⟩ 10 =
      some ⟨deleteOnly (node 1 20 (node 0 10 null null) null) 10, 2 - 1⟩ :=
  ⟨by decide,
    ((remove_small_keeps_heights ⟨node 1 20 (node 0 10 null null) null, 2⟩ 10
      (by decide)).2.1 (by decide)).1⟩

/-! ## One `add` rotates at most once -/

theorem rotates_updateHeight (h v : Int) (l r : Node) (hl : HeightOK l) (hr : HeightOK r) :
    rotates (updateHeight (node h v l r)) =
      (decide (height r - height l = -2) || decide (height r - height l = 2)) := by
  simp only [rotates, updateHeight, getBalance, HeightOK_getHeight l hl,
    HeightOK_getHeight r hr]

theorem balance_of_not_rotates (n : Node) (c : rotates n = false) : balance n = some n := by
  cases n with
  | null => rfl
  | node h v l r =>
    simp only [rotates, Bool.or_eq_false_iff, decide_eq_false_iff_not] at c
    simp only [balance, if_neg c.1, if_neg c.2]

/-- The unwinding step as `add` meets it: without imbalance the node keeps its
children and its balance factor; with an imbalance of 2 whose heavy child is
not itself evenly balanced, the rotation gives a subtree exactly as high as
the heavy child was. -/
theorem unwindStep_insert (h v : Int) (l r : Node)
    (hl : HeightOK l) (bl : Balanced l) (hr : HeightOK r) (br : Balanced r)
    (d1 : height r - height l ≤ 2) (d2 : height l - height r ≤ 2) :
    ∃ n', unwindStep (node h v l r) = some n' ∧ HeightOK n' ∧ Balanced n' ∧
      (height r - height l ≤ 1 → height l - height r ≤ 1 →
        height n' = max (height l) (height r) + 1 ∧
          getBalance n' = height r - height l) ∧
      (height l - height r = 2 → getBalance l ≠ 0 → height n' = height l) ∧
      (height r - height l = 2 → getBalance r ≠ 0 → height n' = height r) := by
  have el := HeightOK_getHeight l hl
  have er := HeightOK_getHeight r hr
  simp only [unwindStep, updateHeight, balance, getBalance, el, er]
  split_ifs with c1 c2 c3 c4
  · cases l with
    | null => simp [getBalance] at c2
    | node h1 v1 ll lr =>
      cases lr with
      | null =>
        have := height_ge ll
        simp only [getBalance, getHeight_null, HeightOK_getHeight ll hl.2.1] at c2; omega
      | node h2 v2 lrl lrr =>
        simp only [HeightOK, Balanced, height] at hl bl
        obtain ⟨e1, hll, e2, hlrl, hlrr⟩ := hl
        obtain ⟨b1, b2, bll, b3, b4, blrl, blrr⟩ := bl
        have e3 := HeightOK_getHeight ll hll
        simp only [getBalance, getHeight_node, e3] at c2
        simp only [height] at c1 d1 d2
        refine ⟨_, rfl, ?_⟩
        simp only [updateHeight, getHeight_node, HeightOK, Balanced, height, getBalance,
          el, er, e3, HeightOK_getHeight lrl hlrl, HeightOK_getHeight lrr hlrr]
        have := height_ge lrl
        have := height_ge lrr
        repeat' apply And.intro
        all_goals first | assumption | trivial | (intros; first | trivial | omega)
  · cases l with
    | null =>
      have := height_ge r
      simp only [height] at c1; omega
    | node h1 v1 ll lr =>
      simp only [HeightOK, Balanced, height] at hl bl
      obtain ⟨e1, hll, hlr⟩ := hl
      obtain ⟨b1, b2, bll, blr⟩ := bl
      have e3 := HeightOK_getHeight ll hll
      have e4 := HeightOK_getHeight lr hlr
      simp only [getBalance, e3, e4] at c2
      simp only [height] at c1 d1 d2
      refine ⟨_, rfl, ?_⟩
      simp only [updateHeight, getHeight_node, HeightOK, Balanced, height, getBalance,
        el, er, e3, e4]
      repeat' apply And.intro
      all_goals first | assumption | trivial | (intros; first | trivial | omega)
  · cases r with
    | null => simp [getBalance] at c4
    | node h1 v1 rl rr =>
      cases rl with
      | null =>
        have := height_ge rr
        simp only [getBalance, getHeight_null, HeightOK_getHeight rr hr.2.2] at c4; omega
      | node h2 v2 rll rlr =>
        simp only [HeightOK, Balanced, height] at hr br
        obtain ⟨e1, ⟨e2, hrll, hrlr⟩, hrr⟩ := hr
        obtain ⟨b1, b2, ⟨b3, b4, brll, brlr⟩, brr⟩ := br
        have e3 := HeightOK_getHeight rr hrr
        simp only [getBalance, getHeight_node, e3] at c4
        simp only [height] at c3 d1 d2
        refine ⟨_, rfl, ?_⟩
        simp only [updateHeight, getHeight_node, HeightOK, Balanced, height, getBalance,
          el, er, e3, HeightOK_getHeight rll hrll, HeightOK_getHeight rlr hrlr]
        have := height_ge rll
        have := height_ge rlr
        repeat' apply And.intro
        all_goals first | assumption | trivial | (intros; first | trivial | omega)
  · cases r with
    | null =>
      have := height_ge l
      simp only [height] at c3; omega
    | node h1 v1 rl rr =>
      simp only [HeightOK, Balanced, height] at hr br
      obtain ⟨e1, hrl, hrr⟩ := hr
      obtain ⟨b1, b2, brl, brr⟩ := br
      have e3 := HeightOK_getHeight rl hrl
      have e4 := HeightOK_getHeight rr hrr
      simp only [getBalance, e3, e4] at c4
      simp only [height] at c3 d1 d2
      refine ⟨_, rfl, ?_⟩
      simp only [updateHeight, getHeight_node, HeightOK, Balanced, height, getBalance,
        el, er, e3, e4]
      repeat' apply And.intro
      all_goals first | assumption | trivial | (intros; first | trivial | omega)
  · refine ⟨_, rfl, ?_⟩
    simp only [HeightOK, Balanced, height, getBalance, el, er]
    repeat' apply And.intro
    all_goals first | assumption | trivial | (intros; first | trivial | omega)

theorem count_flags_snoc (xs : List Bool) (b : Bool) :
    (xs ++ [b]).count true = xs.count true + (if b = true then 1 else 0) := by
  cases b <;> simp [List.count_append]

/-- The invariant of one `add` below a pointer: the call completes, keeps
height correctness and balance, rotates at most once, and the subtree either
keeps its height or grows by one without any rotation, in which case (unless
it was empty) its new root is not evenly balanced. -/
theorem addNode_rotations : ∀ (n : Node) (value : Int), HeightOK n → Balanced n →
    ∃ n', addNode n value = some n' ∧ HeightOK n' ∧ Balanced n' ∧
      (addRotationFlags n value).count true ≤ 1 ∧
      (height n' = height n ∨
        (height n' = height n + 1 ∧ (addRotationFlags n value).count true = 0 ∧
          (n = null ∨ getBalance n' ≠ 0)))
  | null, value, _, _ => by
      refine ⟨_, rfl, ?_⟩
      simp [newNode, HeightOK, Balanced, height, addRotationFlags]
  | node h v l r, value, ⟨e, hl, hr⟩, ⟨b1, b2, bl, br⟩ => by
      have gl := height_ge l
      have gr := height_ge r
      have e0 : height null = -1 := rfl
      simp only [addNode, addRotationFlags]
      split_ifs with c
      · obtain ⟨l', q1, q2, q3, q4, q5⟩ := addNode_rotations l value hl bl
        have d1 : height r - height l' ≤ 2 := by omega
        have d2 : height l' - height r ≤ 2 := by omega
        obtain ⟨n', p1, p2, p3, p4, p5, p6⟩ := unwindStep_insert h v l' r q2 q3 hr br d1 d2
        have rt := rotates_updateHeight h v l' r q2 hr
        refine ⟨n', by simp [q1, p1], p2, p3, ?_⟩
        simp only [q1, count_flags_snoc, rt, height, Bool.or_eq_true, decide_eq_true_eq]
        rcases q5 with q5 | ⟨q5, q6, q7⟩
        · have := p4 (by omega) (by omega)
          rw [if_neg (by omega)]
          exact ⟨by omega, Or.inl (by omega)⟩
        · by_cases k : height l - height r = 1
          · have nl : getBalance l' ≠ 0 := by
              rcases q7 with q7 | q7
              · rw [q7, e0] at k; omega
              · exact q7
            have := p5 (by omega) nl
            rw [if_pos (Or.inl (by omega))]
            exact ⟨by omega, Or.inl (by omega)⟩
          · have := p4 (by omega) (by omega)
            rw [if_neg (by omega)]
            refine ⟨by omega, ?_⟩
            by_cases k2 : height r - height l = 1
            · exact Or.inl (by omega)
            · exact Or.inr ⟨by omega, by omega, Or.inr (by omega)⟩
      · obtain ⟨r', q1, q2, q3, q4, q5⟩ := addNode_rotations r value hr br
        have d1 : height r' - height l ≤ 2 := by omega
        have d2 : height l - height r' ≤ 2 := by omega
        obtain ⟨n', p1, p2, p3, p4, p5, p6⟩ := unwindStep_insert h v l r' hl bl q2 q3 d1 d2
        have rt := rotates_updateHeight h v l r' hl q2
        refine ⟨n', by simp [q1, p1], p2, p3, ?_⟩
        simp only [q1, count_flags_snoc, rt, height, Bool.or_eq_true, decide_eq_true_eq]
        rcases q5 with q5 | ⟨q5, q6, q7⟩
        · have := p4 (by omega) (by omega)
          rw [if_neg (by omega)]
          exact ⟨by omega, Or.inl (by omega)⟩
        · by_cases k : height r - height l = 1
          · have nr : getBalance r' ≠ 0 := by
              rcases q7 with q7 | q7
              · rw [q7, e0] at k; omega
              · exact q7
            have := p6 (by omega) nr
            rw [if_pos (Or.inr (by omega))]
            exact ⟨by omega, Or.inl (by omega)⟩
          · have := p4 (by omega) (by omega)
            rw [if_neg (by omega)]
            refine ⟨by omega, ?_⟩
            by_cases k2 : height l - height r = 1
            · exact Or.inl (by omega)
            · exact Or.inr ⟨by omega, by omega, Or.inr (by omega)⟩

/-- C31: during one `add` into a tree that satisfies height correctness and
`|balance| <= 1` at every node, `balance` enters a rotation branch at at most
one node of the ancestor chain; at every other ancestor `balance` returns the
node as it is, so only its height has been recomputed. -/
theorem add_rotates_at_most_once (t : AVLSearchTree) (value : Int)
    (hh : HeightOK t.root) (hb : Balanced t.root) :
    (addRotationFlags t.root value).count true ≤ 1 ∧
    (∀ n : Node, rotates n = false → balance n = some n) := by
  obtain ⟨n', -, -, -, c, -⟩ := addNode_rotations t.root value hh hb
  exact ⟨c, balance_of_not_rotates⟩

theorem add_rotates_at_most_once_witness :
    HeightOK (node 1 30 (node 0 20 null null) null) ∧
    Balanced (node 1 30 (node 0 20 null null) null) ∧
    addRotationFlags (node 1 30 (node 0 20 null null) null) 10 = [false, true] ∧
    (addRotationFlags (node 1 30 (node 0 20 null null) null) 10).count true ≤ 1 :=
  ⟨by simp [HeightOK, height], by simp [Balanced, height], by decide,
    (add_rotates_at_most_once ⟨node 1 30 (node 0 20 null null) null, 2⟩ 10
      (by simp [HeightOK, height]) (by simp [Balanced, height])).1⟩

end Avl

namespace Heap

/-! ## The max-heap property under `popMax` and `push` -/

/-- C34: `popMax` can destroy the max-heap property.  Pushing the priorities
10, 8, 9, 8, 1, 1, 2, 7 in this order gives the array with these priorities,
which is a max-heap of 8 elements.  `popMax()` returns the node of priority 10
and leaves the priorities 9, 8, 2, 8, 1, 1, 7: the element at index 6 has
priority 7, its parent at index 2 has priority 2.  In `siftDown` the moved
element (priority 7) reaches index 2, whose children have priorities 1 and 2;
the right child being the larger one, the two are swapped without the
comparison `arr[index].priority >= arr[temp].priority`. -/
theorem popMax_breaks_maxHeap :
    pushAll empty [(0, 10), (1, 8), (2, 9), (3, 8), (4, 1), (5, 1), (6, 2), (7, 7)] =
      some ⟨8, [⟨0, 10⟩, ⟨1, 8⟩, ⟨2, 9⟩, ⟨3, 8⟩, ⟨4, 1⟩, ⟨5, 1⟩, ⟨6, 2⟩, ⟨7, 7⟩]⟩ ∧
    MaxHeap [⟨0, 10⟩, ⟨1, 8⟩, ⟨2, 9⟩, ⟨3, 8⟩, ⟨4, 1⟩, ⟨5, 1⟩, ⟨6, 2⟩, ⟨7, 7⟩] ∧
    popMax ⟨8, [⟨0, 10⟩, ⟨1, 8⟩, ⟨2, 9⟩, ⟨3, 8⟩, ⟨4, 1⟩, ⟨5, 1⟩, ⟨6, 2⟩, ⟨7, 7⟩]⟩ =
      some (⟨0, 10⟩, ⟨7, [⟨2, 9⟩, ⟨1, 8⟩, ⟨6, 2⟩, ⟨3, 8⟩, ⟨4, 1⟩, ⟨5, 1⟩, ⟨7, 7⟩]⟩) ∧
    ¬ MaxHeap [⟨2, 9⟩, ⟨1, 8⟩, ⟨6, 2⟩, ⟨3, 8⟩, ⟨4, 1⟩, ⟨5, 1⟩, ⟨7, 7⟩] := by
  refine ⟨by decide, by decide, by decide, by decide⟩

theorem swap_perm_aux : ∀ (xs : List QueueNode) (j : Nat) (a b : QueueNode),
    xs[j]? = some b → (b :: xs.set j a).Perm (a :: xs)
  | [], j, a, b, h => by simp at h
  | y :: ys, 0, a, b, h => by
      simp only [List.getElem?_cons_zero, Option.some.injEq] at h
      subst h
      exact List.Perm.swap _ _ _
  | y :: ys, j + 1, a, b, h => by
      simp only [List.getElem?_cons_succ] at h
      have ih := swap_perm_aux ys j a b h
      simp only [List.set_cons_succ]
      exact ((List.Perm.swap y b _).trans (ih.cons y)).trans (List.Perm.swap a y _)

theorem swap_perm : ∀ (xs : List QueueNode) (i j : Nat) (a b : QueueNode),
    xs[i]? = some a → xs[j]? = some b → ((xs.set i b).set j a).Perm xs
  | [], i, j, a, b, h, _ => by simp at h
  | x :: xs, 0, 0, a, b, h1, h2 => by
      simp only [List.getElem?_cons_zero, Option.some.injEq] at h1 h2
      subst h1
      simp
  | x :: xs, 0, j + 1, a, b, h1, h2 => by
      simp only [List.getElem?_cons_zero, Option.some.injEq, List.getElem?_cons_succ] at h1 h2
      subst h1
      simp only [List.set_cons_zero, List.set_cons_succ]
      exact swap_perm_aux xs j x b h2
  | x :: xs, i + 1, 0, a, b, h1, h2 => by
      simp only [List.getElem?_cons_zero, Option.some.injEq, List.getElem?_cons_succ] at h1 h2
      subst h2
      simp only [List.set_cons_zero, List.set_cons_succ]
      exact swap_perm_aux xs i x a h1
  | x :: xs, i + 1, j + 1, a, b, h1, h2 => by
      simp only [List.getElem?_cons_succ] at h1 h2
      simp only [List.set_cons_succ]
      exact (swap_perm xs i j a b h1 h2).cons x

theorem readAt_nat (arr : List QueueNode) (i : Nat) : readAt arr (i : Int) = arr[i]? := by
  simp [readAt]

theorem tdiv_parentIdx (k : Nat) : Int.tdiv ((k : Int) - 1) 2 = (parentIdx k : Int) := by
  cases k with
  | zero => decide
  | succ n =>
    have e : ((n + 1 : Nat) : Int) - 1 = (n : Int) := by push_cast; omega
    rw [e, Int.tdiv_eq_ediv (by omega) (by decide)]
    simp only [parentIdx, Nat.add_sub_cancel]
    norm_cast

theorem prioAt_eq (arr : List QueueNode) (i : Nat) (a : QueueNode) (h : arr[i]? = some a) :
    prioAt arr i = a.priority := by
  simp only [prioAt, h]

theorem prioAt_swap (arr : List QueueNode) (k p : Nat) (a b : QueueNode)
    (ha : arr[k]? = some a) (hb : arr[p]? = some b) (i : Nat) :
    prioAt ((arr.set k b).set p a) i =
      if i = p then a.priority else if i = k then b.priority else prioAt arr i := by
  have lk : k < arr.length := (List.getElem?_eq_some_iff.1 ha).1
  have lp : p < arr.length := (List.getElem?_eq_some_iff.1 hb).1
  by_cases c1 : i = p
  · subst c1
    rw [if_pos rfl]
    unfold prioAt
    rw [List.getElem?_set_self (by rw [List.length_set]; exact lp)]
  · rw [if_neg c1]
    by_cases c2 : i = k
    · subst c2
      rw [if_pos rfl]
      unfold prioAt
      rw [List.getElem?_set_ne (Ne.symm c1), List.getElem?_set_self lk]
    · rw [if_neg c2]
      unfold prioAt
      rw [List.getElem?_set_ne (Ne.symm c1), List.getElem?_set_ne (Ne.symm c2)]

theorem heapExcept_step (n : Nat) (f g : Nat → Int) (k : Nat) (hk : k < n)
    (hgt : f k > f (parentIdx k))
    (hg : ∀ i, g i = if i = parentIdx k then f k else if i = k then f (parentIdx k) else f i)
    (H1 : ∀ i, i < n → i ≠ k → f i ≤ f (parentIdx i))
    (H2 : ∀ i, i < n → parentIdx i = k → i ≠ k → f i ≤ f (parentIdx k)) :
    (∀ i, i < n → i ≠ parentIdx k → g i ≤ g (parentIdx i)) ∧
    (∀ i, i < n → parentIdx i = parentIdx k → i ≠ parentIdx k →
      g i ≤ g (parentIdx (parentIdx k))) := by
  have pk : parentIdx k ≤ k := by unfold parentIdx; omega
  have pk0 : k ≠ 0 → parentIdx k < k := by unfold parentIdx; omega
  have k0 : k = 0 → False := by
    intro e; subst e
    have : parentIdx 0 = 0 := rfl
    rw [this] at hgt; omega
  have hp := H1 (parentIdx k) (by omega) (by have := pk0 (fun e => k0 e); omega)
  constructor
  · intro i hi hne
    rw [hg i, hg (parentIdx i), if_neg hne]
    by_cases c1 : i = k
    · subst c1
      rw [if_pos rfl, if_pos rfl]
      omega
    · rw [if_neg c1]
      have h1 := H1 i hi c1
      by_cases c2 : parentIdx i = parentIdx k
      · rw [if_pos c2]
        rw [c2] at h1
        omega
      · rw [if_neg c2]
        by_cases c3 : parentIdx i = k
        · rw [if_pos c3]
          exact H2 i hi c3 c1
        · rw [if_neg c3]
          exact h1
  · intro i hi hpi hne
    rw [hg i, hg (parentIdx (parentIdx k)), if_neg hne]
    have q : parentIdx (parentIdx k) ≠ k := by
      have := pk0 (fun e => k0 e)
      unfold parentIdx at this ⊢
      omega
    by_cases c0 : parentIdx (parentIdx k) = parentIdx k
    · rw [if_pos c0]
      by_cases c1 : i = k
      · rw [if_pos c1]; omega
      · rw [if_neg c1]
        have h1 := H1 i hi c1
        rw [hpi] at h1
        omega
    · rw [if_neg c0, if_neg q]
      by_cases c1 : i = k
      · rw [if_pos c1]; exact hp
      · rw [if_neg c1]
        have h1 := H1 i hi c1
        rw [hpi] at h1
        omega

theorem siftUpLoop_maxHeap : ∀ (fuel : Nat) (arr : List QueueNode) (k : Nat),
    k < arr.length → k < fuel →
    (∀ i, i < arr.length → i ≠ k → prioAt arr i ≤ prioAt arr (parentIdx i)) →
    (∀ i, i < arr.length → parentIdx i = k → i ≠ k →
      prioAt arr i ≤ prioAt arr (parentIdx k)) →
    ∃ arr', siftUpLoop fuel arr (k : Int) = some arr' ∧ MaxHeap arr' ∧ arr'.Perm arr
  | 0, _, _, _, hf, _, _ => absurd hf (Nat.not_lt_zero _)
  | fuel + 1, arr, k, hk, hf, H1, H2 => by
      have pk : parentIdx k ≤ k := by unfold parentIdx; omega
      have pk0 : k ≠ 0 → parentIdx k < k := by unfold parentIdx; omega
      obtain ⟨a, ha⟩ : ∃ a, arr[k]? = some a := ⟨arr[k], List.getElem?_eq_getElem hk⟩
      obtain ⟨b, hb⟩ : ∃ b, arr[parentIdx k]? = some b :=
        ⟨arr[parentIdx k], List.getElem?_eq_getElem (by omega)⟩
      have fa := prioAt_eq arr k a ha
      have fb := prioAt_eq arr (parentIdx k) b hb
      simp only [siftUpLoop, tdiv_parentIdx, readAt_nat, ha, hb]
      by_cases c : a.priority > b.priority
      · rw [if_pos c]
        have k0 : k ≠ 0 := by
          intro e
          subst e
          have e0 : parentIdx 0 = 0 := rfl
          rw [e0] at hb
          rw [ha, Option.some.injEq] at hb
          subst hb
          exact lt_irrefl _ c
        have es : swapAt arr (k : Int) (parentIdx k : Int) =
            some ((arr.set k b).set (parentIdx k) a) := by
          simp only [swapAt, readAt_nat, ha, hb, Int.toNat_ofNat]
        have ln : ((arr.set k b).set (parentIdx k) a).length = arr.length := by simp
        obtain ⟨s1, s2⟩ := heapExcept_step arr.length (prioAt arr)
          (prioAt ((arr.set k b).set (parentIdx k) a)) k hk (by rw [fa, fb]; exact c)
          (fun i => by rw [prioAt_swap arr k (parentIdx k) a b ha hb i, fa, fb]) H1 H2
        obtain ⟨arr', e, m, p⟩ := siftUpLoop_maxHeap fuel ((arr.set k b).set (parentIdx k) a)
          (parentIdx k) (by rw [ln]; omega) (by have := pk0 k0; omega)
          (by rw [ln]; exact s1) (by rw [ln]; exact s2)
        refine ⟨arr', ?_, m, p.trans (swap_perm arr k (parentIdx k) a b ha hb)⟩
        rw [es]
        exact e
      · rw [if_neg c]
        refine ⟨arr, rfl, ?_, List.Perm.refl _⟩
        intro i hi
        by_cases e : i = k
        · subst e
          rw [fa, fb]
          omega
        · exact H1 i hi e

theorem prioAt_append_left (arr : List QueueNode) (x : QueueNode) (i : Nat)
    (h : i < arr.length) : prioAt (arr ++ [x]) i = prioAt arr i := by
  unfold prioAt
  rw [List.getElem?_append_left h]

/-- For every queue whose array holds exactly `size` elements, at most
`INT_MAX` of them, and satisfies the max-heap property, `push(value, priority)`
returns with an array that again satisfies the max-heap property and is a
permutation of the old elements plus the pushed one, and `size` grows by one.
The loop of `siftUp` ends at index 0 at the latest: there the element is
compared with itself and the condition `>` is false. -/
theorem push_maxHeap (q : PriorityQueue) (value priority : Int)
    (wf : q.size = q.arr.length) (small : q.size ≤ int_max) (hp : MaxHeap q.arr) :
    ∃ q', push q value priority = some q' ∧ MaxHeap q'.arr ∧
      q'.arr.Perm (⟨value, priority⟩ :: q.arr) ∧ q'.size = q.size + 1 ∧
      (∀ (fuel : Nat) (xs : List QueueNode), 0 < xs.length →
        siftUpLoop (fuel + 1) xs 0 = some xs) := by
  obtain ⟨size, arr⟩ := q
  simp only at wf small hp
  subst wf
  have cap : (arr.length : Int) ≠ max_size := by
    simp only [int_max, max_size] at small ⊢
    omega
  have pi : ∀ i, parentIdx i ≤ i := fun i => by unfold parentIdx; omega
  obtain ⟨arr', e, m, p⟩ := siftUpLoop_maxHeap (((arr.length : Int) + 1).toNat + 1)
    (arr ++ [⟨value, priority⟩]) arr.length (by simp) (by omega)
    (fun i hi ne => by
      have li : i < arr.length := by
        rw [List.length_append, List.length_singleton] at hi; omega
      rw [prioAt_append_left arr _ i li,
        prioAt_append_left arr _ (parentIdx i) (by have := pi i; omega)]
      exact hp i li)
    (fun i hi e ne => by
      exfalso
      rw [List.length_append, List.length_singleton] at hi
      have := pi i
      omega)
  refine ⟨⟨(arr.length : Int) + 1, arr'⟩, ?_, m, ?_, rfl, ?_⟩
  · have t : List.take (arr.length : Int).toNat arr = arr := by
      rw [Int.toNat_ofNat]; exact List.take_length _
    simp only [push, if_neg cap, copyPrefixInt, if_neg (not_lt.2 small), copyPrefix, lt_irrefl,
      if_false, Option.some_bind, siftUp, t, add_sub_cancel_right, e, Option.map_some']
  · exact p.trans (List.perm_append_singleton _ _)
  · intro fuel xs hx
    obtain ⟨a, ha⟩ : ∃ a, xs[0]? = some a := ⟨xs[0], List.getElem?_eq_getElem hx⟩
    have r0 : readAt xs 0 = some a := by
      have := readAt_nat xs 0
      rw [ha] at this
      exact this
    have t0 : Int.tdiv ((0 : Int) - 1) 2 = 0 := by decide
    simp only [siftUpLoop, t0, r0, gt_iff_lt, lt_irrefl, if_false]

theorem push_maxHeap_witness :
    ((1 : Int) = ([⟨0, 5⟩] : List QueueNode).length) ∧ MaxHeap [⟨0, 5⟩] ∧
    push ⟨1, [⟨0, 5⟩]⟩ 1 7 = some ⟨2, [⟨1, 7⟩, ⟨0, 5⟩]⟩ ∧
    ∃ q', push ⟨1, [⟨0, 5⟩]⟩ 1 7 = some q' ∧ MaxHeap q'.arr :=
  ⟨by decide, by decide, by decide,
    (push_maxHeap ⟨1, [⟨0, 5⟩]⟩ 1 7 (by decide) (by decide) (by decide)).imp
      fun _ h => ⟨h.1, h.2.1⟩⟩

theorem maxHeap_replicate (n : Nat) (z : QueueNode) : MaxHeap (List.replicate n z) := by
  intro i hi
  rw [List.length_replicate] at hi
  have pi : parentIdx i < n := by unfold parentIdx; omega
  have e1 : prioAt (List.replicate n z) i = z.priority := by
    unfold prioAt
    rw [List.getElem?_replicate, if_pos hi]
  have e2 : prioAt (List.replicate n z) (parentIdx i) = z.priority := by
    unfold prioAt
    rw [List.getElem?_replicate, if_pos pi]
  rw [e1, e2]

theorem push_replicate (k : Nat) (hk : (k : Int) ≤ int_max) :
    push ⟨k, List.replicate k ⟨0, 0⟩⟩ 0 0 = some ⟨(k + 1 : Nat), List.replicate (k + 1) ⟨0, 0⟩⟩ := by
  obtain ⟨q', e, -, p, sz, -⟩ := push_maxHeap ⟨k, List.replicate k ⟨0, 0⟩⟩ 0 0
    (by simp) hk (maxHeap_replicate k ⟨0, 0⟩)
  rw [e]
  obtain ⟨size', arr'⟩ := q'
  simp only at p sz
  have ea : arr' = List.replicate (k + 1) ⟨0, 0⟩ := by
    rw [← List.replicate_succ] at p
    exact List.perm_replicate.1 p
  subst ea
  subst sz
  simp

theorem pushAll_replicate : ∀ (m k : Nat), ((k + m : Nat) : Int) ≤ int_max + 1 →
    pushAll ⟨k, List.replicate k ⟨0, 0⟩⟩ (List.replicate m (0, 0)) =
      some ⟨(k + m : Nat), List.replicate (k + m) ⟨0, 0⟩⟩
  | 0, k, _ => rfl
  | m + 1, k, h => by
      have hk : (k : Int) ≤ int_max := by push_cast at h; omega
      rw [List.replicate_succ, pushAll, push_replicate k hk, Option.some_bind,
        pushAll_replicate m (k + 1) (by push_cast at h ⊢; omega)]
      have e : k + 1 + m = k + (m + 1) := by omega
      rw [e]

/-- C33: `push` has no defined result on a queue of `2^31` or more elements
(and fewer than `max_size`), whatever its contents: the copy loop counts with a
32-bit `int` up to the old size, so the counter overflows.  Such a queue is
reachable: `2^31` calls `push(0, 0)` on the empty queue all complete and give
the array of `2^31` equal nodes, which satisfies the max-heap property; the
next `push` is the failing call. -/
theorem push_int_counter_overflow :
    (∀ n : Nat, (n : Int) ≤ 2 ^ 31 →
      pushAll empty (List.replicate n (0, 0)) = some ⟨n, List.replicate n ⟨0, 0⟩⟩) ∧
    MaxHeap (List.replicate (2 ^ 31) ⟨0, 0⟩) ∧
    push ⟨(2 ^ 31 : Nat), List.replicate (2 ^ 31) ⟨0, 0⟩⟩ 1 1 = none ∧
    (∀ (q : PriorityQueue) (value priority : Int), int_max < q.size → q.size ≠ max_size →
      push q value priority = none) := by
  have general : ∀ (q : PriorityQueue) (value priority : Int), int_max < q.size →
      q.size ≠ max_size → push q value priority = none := by
    intro q value priority big cap
    simp only [push, if_neg cap, copyPrefixInt, if_pos big, Option.none_bind]
  refine ⟨fun n hn => ?_, maxHeap_replicate _ _, ?_, general⟩
  · have h := pushAll_replicate n 0 (by simp only [int_max]; push_cast; omega)
    simp only [Nat.zero_add] at h
    exact h
  · apply general
    · simp only [int_max]; norm_num
    · simp only [max_size]; norm_num

end Heap

namespace Hash

/-! ## `find` after `insert` -/

/-- C35: `find(v)` need not return true after `insert(v)`.  In a table built
by `HashTable<int>(0, 3)` the calls `insert(2)` and `insert(5)` keep
`getSize()` (1, then 2) below `getMaxSize() = 3`.  Both values hash to slot 2;
the probe of `insert` wraps around and stores 5 in slot 0.  `find(5)` starts at
`key = 2` and sets `key_find = key + 1 = 3` without reducing it modulo
`max_size`: it reads `arr[3]`, outside the allocation of 3 elements, continues
with `(3 + 1) % 3 = 1` and stops at 2, so slot 0 is never inspected.  The read
outside the allocation has no defined result; whatever value other than 5 it
yields, `find(5)` returns false. -/
theorem find_after_insert_wraparound :
    insert stdHashInt (construct 0 3) 2 = some ⟨[0, 0, 2], 3, 1, 0⟩ ∧
    insert stdHashInt ⟨[0, 0, 2], 3, 1, 0⟩ 5 = some ⟨[5, 0, 2], 3, 2, 0⟩ ∧
    getSize ⟨[5, 0, 2], 3, 2, 0⟩ < getMaxSize ⟨[5, 0, 2], 3, 2, 0⟩ ∧
    hash stdHashInt ⟨[5, 0, 2], 3, 2, 0⟩ 5 = some 2 ∧
    find stdHashInt ⟨[5, 0, 2], 3, 2, 0⟩ 5 = none ∧
    (∀ x : Int, x ≠ 5 → find stdHashInt ⟨[5, 0, 2, x], 3, 2, 0⟩ 5 = some false) := by
  refine ⟨by decide, by decide, by decide, by decide, by decide, fun x hx => ?_⟩
  have h : hash stdHashInt ⟨[5, 0, 2, x], 3, 2, 0⟩ 5 = some 2 := by
    have e : hash stdHashInt ⟨[5, 0, 2, x], 3, 2, 0⟩ 5 =
        hash stdHashInt ⟨[5, 0, 2], 3, 2, 0⟩ 5 := rfl
    rw [e]
    decide
  simp only [find, h, Option.some_bind]
  simp [findLoop, hx]

end Hash

namespace Bst

open TreeNode

/-! ## The plain tree against the AVL tree -/

theorem bst_sizeGuard_eq_true (size : Int) : sizeGuard size = true := by
  simp only [sizeGuard, min_size, max_size, decide_eq_true_eq]
  split_ifs <;> norm_num

theorem bst_addNode_perm : ∀ (n : TreeNode) (value : Int),
    List.Perm (print_LNR (addNode n value)) (value :: print_LNR n)
  | null, value => by simp [addNode, print_LNR]
  | node v l r, value => by
      simp only [addNode]
      split_ifs with c
      · simp only [print_LNR]
        exact List.Perm.append_right _ (bst_addNode_perm l value)
      · simp only [print_LNR]
        have := bst_addNode_perm r value
        exact ((List.Perm.cons v this).trans (List.Perm.swap _ _ _)).append_left _ |>.trans
          List.perm_middle

theorem bst_addNode_sorted : ∀ (n : TreeNode) (value : Int),
    List.Sorted (· ≤ ·) (print_LNR n) → List.Sorted (· ≤ ·) (print_LNR (addNode n value))
  | null, value, _ => by simp [addNode, print_LNR]
  | node v l r, value, s => by
      simp only [print_LNR, List.Sorted, List.pairwise_append, List.pairwise_cons,
        List.mem_cons, forall_eq_or_imp] at s
      obtain ⟨sl, ⟨sv, sr⟩, sx⟩ := s
      simp only [addNode]
      split_ifs with c
      · have ih := bst_addNode_sorted l value sl
        have pm := bst_addNode_perm l value
        simp only [print_LNR, List.Sorted, List.pairwise_append, List.pairwise_cons,
          List.mem_cons, forall_eq_or_imp]
        refine ⟨ih, ⟨sv, sr⟩, ?_⟩
        intro a ha
        rcases List.mem_cons.1 (pm.mem_iff.1 ha) with rfl | ha
        · exact ⟨by omega, fun b hb => by have := sv b hb; omega⟩
        · exact sx a ha
      · have ih := bst_addNode_sorted r value sr
        have pm := bst_addNode_perm r value
        simp only [print_LNR, List.Sorted, List.pairwise_append, List.pairwise_cons,
          List.mem_cons, forall_eq_or_imp]
        refine ⟨sl, ⟨?_, ih⟩, ?_⟩
        · intro b hb
          rcases List.mem_cons.1 (pm.mem_iff.1 hb) with rfl | hb
          · omega
          · exact sv b hb
        · intro a ha
          refine ⟨(sx a ha).1, fun b hb => ?_⟩
          rcases List.mem_cons.1 (pm.mem_iff.1 hb) with rfl | hb
          · have := (sx a ha).1; omega
          · exact (sx a ha).2 b hb

theorem bst_add_perm (t : BinarySearchTree) (value : Int) :
    List.Perm (traversalLNR (add t value)) (value :: traversalLNR t) := by
  obtain ⟨root, size⟩ := t
  cases root with
  | null => simp [add, bst_sizeGuard_eq_true, traversalLNR, print_LNR]
  | node v l r => exact bst_addNode_perm (node v l r) value

theorem bst_add_sorted (t : BinarySearchTree) (value : Int)
    (s : List.Sorted (· ≤ ·) (traversalLNR t)) :
    List.Sorted (· ≤ ·) (traversalLNR (add t value)) := by
  obtain ⟨root, size⟩ := t
  cases root with
  | null => simp [add, bst_sizeGuard_eq_true, traversalLNR, print_LNR]
  | node v l r => exact bst_addNode_sorted (node v l r) value s

theorem bst_add_size (t : BinarySearchTree) (value : Int) : (add t value).size = t.size + 1 := by
  obtain ⟨root, size⟩ := t
  cases root with
  | null => simp [add, bst_sizeGuard_eq_true]
  | node v l r => rfl

theorem bst_print_LNR_detachSuccessor : ∀ (l : TreeNode) (v : Int) (r : TreeNode),
    print_LNR (node v l r) = (detachSuccessor v l r).1 :: print_LNR (detachSuccessor v l r).2
  | null, v, r => by simp [detachSuccessor, print_LNR]
  | node vl ll lr, v, r => by
      have ih := bst_print_LNR_detachSuccessor ll vl lr
      simp only [detachSuccessor, print_LNR] at ih ⊢
      rw [ih]
      simp

theorem bst_print_LNR_deleteAt (v : Int) (l r : TreeNode) :
    print_LNR (deleteAt (node v l r)) = print_LNR l ++ print_LNR r := by
  cases l with
  | null => cases r <;> simp [deleteAt, print_LNR]
  | node vl ll lr =>
    cases r with
    | null => simp [deleteAt, print_LNR]
    | node vr rl rr =>
      simp only [deleteAt]
      rw [print_LNR, ← bst_print_LNR_detachSuccessor]

theorem bst_removeNode_perm : ∀ (n : TreeNode) (value : Int), findNode n value = true →
    List.Perm (print_LNR n) (value :: print_LNR (removeNode n value))
  | null, _, f => by simp [findNode] at f
  | node v l r, value, f => by
      simp only [findNode] at f
      simp only [removeNode]
      split_ifs at f ⊢ with c1 c2
      · rw [bst_print_LNR_deleteAt, print_LNR, c1]
        exact List.perm_middle
      · simp only [print_LNR]
        exact List.Perm.append_right _ (bst_removeNode_perm l value f)
      · simp only [print_LNR]
        exact ((List.Perm.cons v (bst_removeNode_perm r value f)).trans
          (List.Perm.swap _ _ _)).append_left _ |>.trans List.perm_middle

theorem bst_removeNode_sublist : ∀ (n : TreeNode) (value : Int),
    List.Sublist (print_LNR (removeNode n value)) (print_LNR n)
  | null, _ => List.Sublist.refl _
  | node v l r, value => by
      simp only [removeNode]
      split_ifs with c1 c2
      · rw [bst_print_LNR_deleteAt, print_LNR]
        exact List.Sublist.append_left (List.sublist_cons_self _ _) _
      · simp only [print_LNR]
        exact List.Sublist.append_right (bst_removeNode_sublist l value) _
      · simp only [print_LNR]
        exact List.Sublist.append_left (List.Sublist.cons₂ _ (bst_removeNode_sublist r value)) _

theorem bst_findNode_mem : ∀ (n : TreeNode) (value : Int),
    findNode n value = true → value ∈ print_LNR n
  | null, _, e => by simp [findNode] at e
  | node v l r, value, e => by
      simp only [findNode] at e
      simp only [print_LNR, List.mem_append, List.mem_cons]
      split_ifs at e with c1 c2
      · exact Or.inr (Or.inl c1.symm)
      · exact Or.inl (bst_findNode_mem l value e)
      · exact Or.inr (Or.inr (bst_findNode_mem r value e))

theorem bst_mem_findNode : ∀ (n : TreeNode) (value : Int),
    List.Sorted (· ≤ ·) (print_LNR n) → value ∈ print_LNR n → findNode n value = true
  | null, _, _, m => by simp [print_LNR] at m
  | node v l r, value, s, m => by
      simp only [print_LNR, List.Sorted, List.pairwise_append, List.pairwise_cons,
        List.mem_cons, forall_eq_or_imp] at s
      obtain ⟨sl, ⟨sv, sr⟩, sx⟩ := s
      simp only [print_LNR, List.mem_append, List.mem_cons] at m
      simp only [findNode]
      split_ifs with c1 c2
      · rfl
      · rcases m with m | m | m
        · exact bst_mem_findNode l value sl m
        · exact absurd m.symm c1
        · have := sv value m; omega
      · rcases m with m | m | m
        · have := (sx value m).1
          exact absurd (lt_of_le_of_ne this (fun e => c1 e.symm)) c2
        · exact absurd m.symm c1
        · exact bst_mem_findNode r value sr m

theorem bst_find_iff_mem (t : BinarySearchTree) (value : Int)
    (s : List.Sorted (· ≤ ·) (traversalLNR t)) :
    find t value = true ↔ value ∈ traversalLNR t :=
  ⟨bst_findNode_mem t.root value, bst_mem_findNode t.root value s⟩

theorem bst_remove_absent_eq (t : BinarySearchTree) (value : Int) (f : find t value = false) :
    remove t value = t := by
  simp only [remove, f, if_true]

theorem remove_found (t : BinarySearchTree) (value : Int) (f : find t value = true) :
    remove t value = ⟨removeNode t.root value, t.size - 1⟩ := by
  obtain ⟨root, size⟩ := t
  cases root with
  | null => simp [find, findNode] at f
  | node v l r => simp only [remove, f, Bool.true_eq_false, if_false]

theorem applyOp_equiv (ta ta' : Avl.AVLSearchTree) (tb : BinarySearchTree) (op : Avl.Op)
    (ra : Avl.Reachable ta) (e1 : Avl.traversalLNR ta = traversalLNR tb)
    (e2 : Avl.getSize ta = getSize tb) (e : Avl.applyOp ta op = some ta') :
    Avl.traversalLNR ta' = traversalLNR (applyOp tb op) ∧
    Avl.getSize ta' = getSize (applyOp tb op) := by
  have sa := ra.sorted
  have sb : List.Sorted (· ≤ ·) (traversalLNR tb) := e1 ▸ sa
  cases op with
  | add value =>
    simp only [Avl.applyOp] at e
    simp only [applyOp]
    constructor
    · refine List.eq_of_perm_of_sorted ?_ (Avl.add_sorted ta ta' value e sa)
        (bst_add_sorted tb value sb)
      have pa := Avl.add_perm ta ta' value e
      rw [e1] at pa
      exact pa.trans (bst_add_perm tb value).symm
    · have := Avl.add_size ta ta' value e
      have := bst_add_size tb value
      simp only [Avl.getSize, getSize] at e2 ⊢
      omega
  | remove value =>
    simp only [Avl.applyOp] at e
    simp only [applyOp]
    cases f : Avl.find ta value with
    | false =>
      rw [Avl.remove_absent_eq ta value f, Option.some.injEq] at e
      subst e
      have nm : value ∉ traversalLNR tb := by
        rw [← e1]
        intro m
        rw [(Avl.find_iff_mem ta value ra).2 m] at f
        exact Bool.noConfusion f
      have fb : find tb value = false := by
        cases g : find tb value with
        | false => rfl
        | true => exact absurd ((bst_find_iff_mem tb value sb).1 g) nm
      rw [bst_remove_absent_eq tb value fb]
      exact ⟨e1, e2⟩
    | true =>
      have m : value ∈ traversalLNR tb := e1 ▸ (Avl.find_iff_mem ta value ra).1 f
      have fb : find tb value = true := (bst_find_iff_mem tb value sb).2 m
      rw [remove_found tb value fb]
      constructor
      · have pa := Avl.remove_perm ta ta' value f e
        have pb := bst_removeNode_perm tb.root value fb
        have sa' : List.Sorted (· ≤ ·) (Avl.traversalLNR ta') :=
          List.Pairwise.sublist (Avl.remove_sublist ta ta' value e) sa
        have sb' : List.Sorted (· ≤ ·) (print_LNR (removeNode tb.root value)) :=
          List.Pairwise.sublist (bst_removeNode_sublist tb.root value) sb
        refine List.eq_of_perm_of_sorted ?_ sa' sb'
        rw [e1] at pa
        exact (pa.symm.trans pb).cons_inv
      · have := Avl.remove_size ta ta' value e
        rw [f] at this
        simp only [Avl.getSize, getSize, if_true] at e2 this ⊢
        omega

theorem runOps_equiv : ∀ (ops : List Avl.Op) (ta ta' : Avl.AVLSearchTree)
    (tb : BinarySearchTree), Avl.Reachable ta →
    Avl.traversalLNR ta = traversalLNR tb → Avl.getSize ta = getSize tb →
    Avl.runOps ta ops = some ta' →
    Avl.Reachable ta' ∧ Avl.traversalLNR ta' = traversalLNR (runOps tb ops) ∧
      Avl.getSize ta' = getSize (runOps tb ops)
  | [], ta, ta', tb, ra, e1, e2, e => by
      simp only [Avl.runOps, Option.some.injEq] at e
      subst e
      exact ⟨ra, e1, e2⟩
  | op :: ops, ta, ta', tb, ra, e1, e2, e => by
      simp only [Avl.runOps] at e
      obtain ⟨t1, q1, q2⟩ := Option.bind_eq_some.1 e
      obtain ⟨g1, g2⟩ := applyOp_equiv ta t1 tb op ra e1 e2 q1
      exact runOps_equiv ops t1 ta' (applyOp tb op) (Avl.applyOp_reachable ta t1 op ra q1)
        g1 g2 q2

theorem runOps_prefix : ∀ (xs ys : List Avl.Op) (ta ta' : Avl.AVLSearchTree),
    Avl.runOps ta (xs ++ ys) = some ta' → ∃ t1, Avl.runOps ta xs = some t1
  | [], _, ta, _, _ => ⟨ta, rfl⟩
  | op :: xs, ys, ta, ta', e => by
      simp only [List.cons_append, Avl.runOps] at e ⊢
      obtain ⟨t1, q1, q2⟩ := Option.bind_eq_some.1 e
      obtain ⟨t2, q3⟩ := runOps_prefix xs ys t1 ta' q2
      exact ⟨t2, by rw [q1]; exact q3⟩

/-- For every sequence of `add` and `remove` calls that the AVL tree completes
from the empty tree (no call with undefined behaviour), after each call the AVL
tree and the plain binary search tree, run on the same calls from the empty
tree, have the same in-order traversal, the same `getSize()` and the same
`find(v)` result for every `v`. -/
theorem avl_bst_equivalent (ops : List Avl.Op) (t : Avl.AVLSearchTree)
    (e : Avl.runOps Avl.empty ops = some t) (n : Nat) :
    ∃ tn, Avl.runOps Avl.empty (ops.take n) = some tn ∧
      Avl.traversalLNR tn = traversalLNR (runOps empty (ops.take n)) ∧
      Avl.getSize tn = getSize (runOps empty (ops.take n)) ∧
      ∀ v, Avl.find tn v = find (runOps empty (ops.take n)) v := by
  obtain ⟨tn, q⟩ := runOps_prefix (ops.take n) (ops.drop n) Avl.empty t
    (by rw [List.take_append_drop]; exact e)
  obtain ⟨r, g1, g2⟩ := runOps_equiv (ops.take n) Avl.empty tn empty Avl.Reachable.empty
    rfl rfl q
  refine ⟨tn, q, g1, g2, fun v => ?_⟩
  have sb : List.Sorted (· ≤ ·) (traversalLNR (runOps empty (ops.take n))) := g1 ▸ r.sorted
  rw [Bool.eq_iff_iff, Avl.find_iff_mem tn v r, bst_find_iff_mem _ v sb, g1]

theorem avl_bst_equivalent_witness :
    Avl.runOps Avl.empty [Avl.Op.add 2, Avl.Op.add 1, Avl.Op.add 3, Avl.Op.remove 2] =
      some ⟨Avl.Node.node 1 3 (Avl.Node.node 0 1 Avl.Node.null Avl.Node.null)
        Avl.Node.null, 2⟩ ∧
    ∃ tn, Avl.runOps Avl.empty
        ([Avl.Op.add 2, Avl.Op.add 1, Avl.Op.add 3, Avl.Op.remove 2].take 4) = some tn ∧
      Avl.traversalLNR tn = traversalLNR (runOps empty
        ([Avl.Op.add 2, Avl.Op.add 1, Avl.Op.add 3, Avl.Op.remove 2].take 4)) :=
  ⟨by decide,
    (avl_bst_equivalent [Avl.Op.add 2, Avl.Op.add 1, Avl.Op.add 3, Avl.Op.remove 2]
      ⟨Avl.Node.node 1 3 (Avl.Node.node 0 1 Avl.Node.null Avl.Node.null) Avl.Node.null, 2⟩
      (by decide) 4).imp fun _ h => ⟨h.1, h.2.1⟩⟩

/-- C38: the AVL tree and the plain binary search tree are not equivalent on
every sequence of calls.  On add 8, 4, 12, 2, 6, 10, 1, remove 8, remove 12 the
two trees agree (in-order traversal 1, 2, 4, 6, 10 and `getSize() = 5`).  The
next call `remove(10)` completes on the plain tree, which then holds
1, 2, 4, 6 with `getSize() = 4` and `find(10) = false`; on the AVL tree it
frees the root and then runs the unwinding loop on it, so the AVL tree has no
defined state to compare. -/
theorem avl_bst_diverge :
    Avl.runOps Avl.empty [Avl.Op.add 8, Avl.Op.add 4, Avl.Op.add 12, Avl.Op.add 2,
        Avl.Op.add 6, Avl.Op.add 10, Avl.Op.add 1, Avl.Op.remove 8, Avl.Op.remove 12] =
      some ⟨Avl.Node.node 3 10 (Avl.Node.node 2 4
        (Avl.Node.node 1 2 (Avl.Node.node 0 1 Avl.Node.null Avl.Node.null) Avl.Node.null)
        (Avl.Node.node 0 6 Avl.Node.null Avl.Node.null)) Avl.Node.null, 5⟩ ∧
    runOps empty [Avl.Op.add 8, Avl.Op.add 4, Avl.Op.add 12, Avl.Op.add 2,
        Avl.Op.add 6, Avl.Op.add 10, Avl.Op.add 1, Avl.Op.remove 8, Avl.Op.remove 12] =
      ⟨node 10 (node 4 (node 2 (node 1 null null) null) (node 6 null null)) null, 5⟩ ∧
    Avl.runOps Avl.empty [Avl.Op.add 8, Avl.Op.add 4, Avl.Op.add 12, Avl.Op.add 2,
        Avl.Op.add 6, Avl.Op.add 10, Avl.Op.add 1, Avl.Op.remove 8, Avl.Op.remove 12,
        Avl.Op.remove 10] = none ∧
    runOps empty [Avl.Op.add 8, Avl.Op.add 4, Avl.Op.add 12, Avl.Op.add 2,
        Avl.Op.add 6, Avl.Op.add 10, Avl.Op.add 1, Avl.Op.remove 8, Avl.Op.remove 12,
        Avl.Op.remove 10] =
      ⟨node 4 (node 2 (node 1 null null) null) (node 6 null null), 4⟩ ∧
    traversalLNR ⟨node 4 (node 2 (node 1 null null) null) (node 6 null null), 4⟩ =
      [1, 2, 4, 6] ∧
    find ⟨node 4 (node 2 (node 1 null null) null) (node 6 null null), 4⟩ 10 = false := by
  refine ⟨by decide, by decide, by decide, by decide, by decide, by decide⟩

end Bst

namespace Optimal

open TreeNode

/-! ## `getSize()` after `buildOptimalTree` -/

/-- C39: after `buildOptimalTree` the value of `getSize()` is not the number of
nodes.  `buildOptimalTree` stores `first_count` in `size` before it builds the
tree, and every `add` issued by `addOptimalTree` increments `size` again.  With
the single key 5 (frequencies `[1]` and `[0, 0]`) the tree has one node and
`getSize()` is 2; with the keys 1, 2, 3 (frequencies `[1, 1, 1]` and
`[0, 0, 0, 0]`) the tree has three nodes and `getSize()` is 6. -/
theorem buildOptimalTree_size_doubled :
    buildOptimalTree empty [5] [1] 1 [0, 0] = some ⟨node 5 null null, 2⟩ ∧
    numNodes (node 5 null null) = 1 ∧
    getSize ⟨node 5 null null, 2⟩ = 2 ∧
    buildOptimalTree empty [1, 2, 3] [1, 1, 1] 3 [0, 0, 0, 0] =
      some ⟨node 2 (node 1 null null) (node 3 null null), 6⟩ ∧
    numNodes (node 2 (node 1 null null) (node 3 null null)) = 3 := by
  refine ⟨by decide, by decide, by decide, by decide, by decide⟩

end Optimal
